import Mathlib

/-!
Secondary-index engine of `orm/index.go`.

A shallow embedding of `Index` (package `orm`) over an abstract key-value
store and of the slice iterator and non-atomic batch of `store/helpers.go`,
followed by the properties of `Index.Update` on unique and non-unique indexes,
of the read paths of `Index`, of the batch and of the iterator.

Conventions of the embedding:

* a Go `[]byte` is a `List UInt8`; `len(x) == 0` and `bytes.Equal` do not
  distinguish a nil slice from an empty one, and neither does a list. Only the
  test `== nil` on a value read from the store tells them apart: `Get` returns
  an `Option`, `none` for nil, and a primary key of length zero is written as
  the nil slice;
* a Go method that mutates the store and returns `error` becomes a function
  returning the pair `(error, store after the call)`; `none` is the nil error;
* an `Object` argument that may be nil is an `Option Object`.
-/

namespace orm

/-- Byte strings (`[]byte`). -/
abbrev Bytes := List UInt8

/-- Modelled from the spec: the error values built by `ErrUpdateNil`,
`ErrBoolean`, `ErrModifiedPK`, `ErrUniqueConstraint`, `ErrRemoveUnregistered`
(package `orm`, file not among the sources). The spec lists them as distinct
named errors, the uniqueness violation carrying the name of the index; `Other`
stands for every error produced outside of `index.go` (indexer, MultiRef). -/
inductive Error where
  | ErrUpdateNil : Error
  | ErrBoolean : Error
  | ErrModifiedPK : Error
  | ErrUniqueConstraint (name : Bytes) : Error
  | ErrRemoveUnregistered : Error
  | Other (msg : String) : Error
  deriving DecidableEq, Repr

/-- Modelled from the spec: `Object`, "anything exposing a primary key and a
value payload". The engine only calls `Key()` and hands the whole object to
the indexer. -/
structure Object where
  Key : Bytes
  Value : Bytes
  deriving DecidableEq, Repr

/-- Modelled from the spec: `weave.KVStore`, restricted to the point
operations `Get(key) → value|absent`, `Set(key, value)`, `Delete(key)`.
An absent key (`Get` returning nil) is `none`; after `Set(key, value)` with a
non-nil value the key is present with that value. -/
abbrev KVStore := Bytes → Option Bytes

/-- The store with no entry. -/
def KVStore.empty : KVStore := fun _ => none

/-- Embedding of `db.Get(key)`. -/
def KVStore.Get (db : KVStore) (key : Bytes) : Option Bytes := db key

/-- Embedding of `db.Set(key, value)` for a non-nil `value`. -/
def KVStore.Set (db : KVStore) (key value : Bytes) : KVStore :=
  fun k => if k = key then some value else db k

/-- Embedding of `db.Delete(key)`. -/
def KVStore.Delete (db : KVStore) (key : Bytes) : KVStore :=
  fun k => if k = key then none else db k

/-- Embedding of `db.Set(key, pk)` where `pk` is a primary key, the result of
`Object.Key()`, which may be nil. A key of length zero is the nil slice: the
store then holds nil at `key`, `Get` returns nil, and the tests `val == nil`
and `cur != nil` of the engine read the slot as absent. A key of positive
length is stored as it is. -/
def KVStore.SetKey (db : KVStore) (key pk : Bytes) : KVStore :=
  if pk = [] then (fun k => if k = key then none else db k) else db.Set key pk

/-- Modelled from the spec: `MultiRef` (package `orm`, file not among the
sources), the "ordered sequence of primary keys" stored in a slot of a
non-unique index. Its state is the list `Refs`; `Size()` is the length of that
list and `GetRefs()` the list itself. The four fallible operations are taken
as parameters: `Unmarshal` decodes into a fresh value, `Add` and `Remove`
return the new list of references. -/
structure MultiRefImpl where
  Unmarshal : Bytes → Except Error (List Bytes)
  Marshal : List Bytes → Except Error Bytes
  Add : List Bytes → Bytes → Except Error (List Bytes)
  Remove : List Bytes → Bytes → Except Error (List Bytes)

/-- Embedding of `MultiRef.Size()`. -/
def MultiRefImpl.Size (_ : MultiRefImpl) (refs : List Bytes) : Nat := refs.length

/-- The `Indexer` function type. -/
abbrev Indexer := Object → Except Error Bytes

/-- The `Index` struct. -/
structure Index where
  name : Bytes
  id : Bytes
  unique : Bool
  index : Indexer
  refKey : Bytes → Bytes

/-- The package variable `indPrefix = []byte("_i.")`. -/
def indPrefix : Bytes := [95, 105, 46]

/-- Embedding of `NewIndex`: `id` is `"_i." ++ name ++ ":"`. -/
def NewIndex (name : Bytes) (indexer : Indexer) (unique : Bool)
    (refKey : Bytes → Bytes) : Index :=
  { name := name
    id := indPrefix ++ (name ++ [58])
    index := indexer
    unique := unique
    refKey := refKey }

/-- Embedding of `Index.IndexKey`: a fresh buffer of length `len(id) + len(key)` holding
`id` followed by `key`. -/
def Index.IndexKey (i : Index) (key : Bytes) : Bytes :=
  i.id ++ key

/-- Embedding of `Index.GetAt`. -/
def Index.GetAt (m : MultiRefImpl) (i : Index) (db : KVStore) (index : Bytes) :
    Except Error (List Bytes) :=
  let key := i.IndexKey index
  match db.Get key with
  | none => .ok []
  | some val =>
    if i.unique then
      .ok [val]
    else
      match m.Unmarshal val with
      | .error err => .error err
      | .ok data => .ok data

/-- Embedding of `Index.GetLike`. -/
def Index.GetLike (m : MultiRefImpl) (i : Index) (db : KVStore) (pattern : Object) :
    Except Error (List Bytes) :=
  match i.index pattern with
  | .error err => .error err
  | .ok index => i.GetAt m db index

/-- Embedding of `Index.remove`. -/
def Index.remove (m : MultiRefImpl) (i : Index) (db : KVStore) (index pk : Bytes) :
    Option Error × KVStore :=
  if index.length = 0 then
    (none, db)
  else
    let key := i.IndexKey index
    match db.Get key with
    | none => (some Error.ErrRemoveUnregistered, db)
    | some cur =>
      if i.unique then
        if ¬ (cur = pk) then
          (some Error.ErrRemoveUnregistered, db)
        else
          (none, db.Delete key)
      else
        match m.Unmarshal cur with
        | .error err => (some err, db)
        | .ok data =>
          match m.Remove data pk with
          | .error err => (some err, db)
          | .ok data1 =>
            if m.Size data1 = 0 then
              (none, db.Delete key)
            else
              match m.Marshal data1 with
              | .error err => (some err, db)
              | .ok save => (none, db.Set key save)

/-- Embedding of `Index.insert`. -/
def Index.insert (m : MultiRefImpl) (i : Index) (db : KVStore) (index pk : Bytes) :
    Option Error × KVStore :=
  if index.length = 0 then
    (none, db)
  else
    let key := i.IndexKey index
    let cur := db.Get key
    if i.unique then
      if cur ≠ none then
        (some (Error.ErrUniqueConstraint i.name), db)
      else
        (none, db.SetKey key pk)
    else
      let loaded : Except Error (List Bytes) :=
        match cur with
        | none => .ok []
        | some c => m.Unmarshal c
      match loaded with
      | .error err => (some err, db)
      | .ok data =>
        match m.Add data pk with
        | .error err => (some err, db)
        | .ok data1 =>
          match m.Marshal data1 with
          | .error err => (some err, db)
          | .ok save => (none, db.Set key save)

/-- Embedding of `Index.move`. The guard `i.unique && len(oldKey) != 0` and the
test `val != nil` nested in it are one conjunction here: the probe is a read
and both ways out of it lead to the same remove-then-insert. -/
def Index.move (m : MultiRefImpl) (i : Index) (db : KVStore) (prev save : Object) :
    Option Error × KVStore :=
  if ¬ (prev.Key = save.Key) then
    (some Error.ErrModifiedPK, db)
  else
    match i.index prev with
    | .error err => (some err, db)
    | .ok oldKey =>
      match i.index save with
      | .error err => (some err, db)
      | .ok newKey =>
        if oldKey = newKey then
          (none, db)
        else if i.unique = true ∧ oldKey.length ≠ 0 ∧ db.Get (i.IndexKey newKey) ≠ none then
          (some (Error.ErrUniqueConstraint i.name), db)
        else
          match i.remove m db oldKey prev.Key with
          | (some err, db1) => (some err, db1)
          | (none, db1) => i.insert m db1 newKey save.Key

/-- Embedding of `Index.Update`. The four-way switch on `(prev == nil, save == nil)` is
exhaustive, so the trailing `return ErrBoolean()` has no case here. -/
def Index.Update (m : MultiRefImpl) (i : Index) (db : KVStore)
    (prev save : Option Object) : Option Error × KVStore :=
  match prev, save with
  | none, none => (some Error.ErrUpdateNil, db)
  | none, some s =>
    match i.index s with
    | .error err => (some err, db)
    | .ok key => i.insert m db key s.Key
  | some p, none =>
    match i.index p with
    | .error err => (some err, db)
    | .ok key => i.remove m db key p.Key
  | some p, some s => i.move m db p s

/-! ## Concrete data used to evaluate the definitions -/

/-- The bytes of an ASCII string literal. -/
def ascii (s : String) : Bytes := s.toList.map (fun c => UInt8.ofNat c.toNat)

/-- Modelled from the spec: `MultiRef.Add(key)`, which "fails if `key` already
present"; otherwise the key joins the sequence (here at its end: insertion
order, as in the spec's scenario 2). The failure is the spec's "unregistered
reference" consistency error. -/
def MultiRef.Add (refs : List Bytes) (ref : Bytes) : Except Error (List Bytes) :=
  if ref ∈ refs then .error Error.ErrRemoveUnregistered else .ok (refs ++ [ref])

/-- Modelled from the spec: `MultiRef.Remove(key)`, which "fails if `key`
absent"; otherwise the key leaves the sequence. -/
def MultiRef.Remove (refs : List Bytes) (ref : Bytes) : Except Error (List Bytes) :=
  if ref ∈ refs then .ok (refs.erase ref) else .error Error.ErrRemoveUnregistered

/-- Modelled from the spec: `MultiRef.Marshal`, "an explicit, versionless binary
encoding of an ordered list of byte-strings". The layout is left open by the
spec; this one writes each reference as one length byte followed by its bytes
and rejects a reference of 256 bytes or more. -/
def MultiRef.Marshal : List Bytes → Except Error Bytes
  | [] => .ok []
  | r :: rs =>
    if r.length < 256 then
      match MultiRef.Marshal rs with
      | .error err => .error err
      | .ok tl => .ok (UInt8.ofNat r.length :: (r ++ tl))
    else
      .error (Error.Other "reference too long")

/-- Decoder of `MultiRef.Marshal`, with the number of remaining input bytes as
fuel (each round consumes at least the length byte). -/
def MultiRef.unmarshalAux : Nat → Bytes → Except Error (List Bytes)
  | _, [] => .ok []
  | 0, _ :: _ => .error (Error.Other "truncated input")
  | fuel + 1, n :: rest =>
    if rest.length < n.toNat then
      .error (Error.Other "truncated input")
    else
      match MultiRef.unmarshalAux fuel (rest.drop n.toNat) with
      | .error err => .error err
      | .ok tl => .ok (rest.take n.toNat :: tl)

/-- Modelled from the spec: `MultiRef.Unmarshal`, the inverse of
`MultiRef.Marshal`. -/
def MultiRef.Unmarshal (bz : Bytes) : Except Error (List Bytes) :=
  MultiRef.unmarshalAux bz.length bz

/-- Modelled from the spec: the MultiRef operations above, packaged. -/
def specMultiRef : MultiRefImpl :=
  { Unmarshal := MultiRef.Unmarshal
    Marshal := MultiRef.Marshal
    Add := MultiRef.Add
    Remove := MultiRef.Remove }

/-- An indexer that reads the secondary key from the object's value. -/
def valueIndexer : Indexer := fun o => .ok o.Value

/-- A unique index named "name". -/
def uniqIdx : Index := NewIndex (ascii "name") valueIndexer true id

/-- A non-unique index named "grp". -/
def multiIdx : Index := NewIndex (ascii "grp") valueIndexer false id

/-- Object with primary key "pk1" indexed at "alice". -/
def alice1 : Object := { Key := ascii "pk1", Value := ascii "alice" }

/-- Object with primary key "pk2" indexed at "alice". -/
def alice2 : Object := { Key := ascii "pk2", Value := ascii "alice" }

/-- Object with primary key "pk1" indexed at "old". -/
def atOld : Object := { Key := ascii "pk1", Value := ascii "old" }

/-- Object with primary key "pk1" indexed at "new". -/
def atNew : Object := { Key := ascii "pk1", Value := ascii "new" }

/-- Object with primary key "pk1" and an empty secondary key. -/
def noKey : Object := { Key := ascii "pk1", Value := [] }

/-- Unique index "name": "alice" maps to "pk1". -/
def dbAlice : KVStore :=
  KVStore.empty.Set (uniqIdx.IndexKey (ascii "alice")) (ascii "pk1")

/-- Unique index "name": "old" maps to "pk1". -/
def dbOld : KVStore :=
  KVStore.empty.Set (uniqIdx.IndexKey (ascii "old")) (ascii "pk1")

/-- Unique index "name": "old" maps to "pk1" and "new" maps to "pk2". -/
def dbOldNew : KVStore :=
  dbOld.Set (uniqIdx.IndexKey (ascii "new")) (ascii "pk2")

/-- Non-unique index "grp": the slots of "old" and of "new" both hold the
encoded one-member MultiRef of the primary key "pk" (length byte 2, then the
two bytes of "pk"). -/
def dbDrift : KVStore :=
  (KVStore.empty.Set (multiIdx.IndexKey (ascii "old")) [2, 112, 107]).Set
    (multiIdx.IndexKey (ascii "new")) [2, 112, 107]

/-- Object with primary key "pk" indexed at "old". -/
def pkOld : Object := { Key := ascii "pk", Value := ascii "old" }

/-- Object with primary key "pk" indexed at "new". -/
def pkNew : Object := { Key := ascii "pk", Value := ascii "new" }

/-- Object whose `Key()` is nil, indexed at "alice". -/
def nilAlice : Object := { Key := [], Value := ascii "alice" }

/-- Object whose `Key()` is nil, indexed at "old". -/
def nilOld : Object := { Key := [], Value := ascii "old" }

/-- Object whose `Key()` is nil, indexed at "new". -/
def nilNew : Object := { Key := [], Value := ascii "new" }

/-- Unique index "name": the slot of "old" holds a non-nil value of length
zero. -/
def dbEmptyOld : KVStore :=
  KVStore.empty.Set (uniqIdx.IndexKey (ascii "old")) []

end orm

/-! ## Package `store`: slice iterator and non-atomic batch (`store/helpers.go`) -/

namespace store

open orm (Bytes KVStore)

/-- Embedding of the struct `Model`: a key with its value. -/
structure Model where
  Key : Bytes
  Value : Bytes
  deriving DecidableEq, Repr

/-- Embedding of the struct `SliceIterator`. The cursor `idx` starts at 0 and is
only ever incremented, so it is a natural number. -/
structure SliceIterator where
  data : List Model
  idx : Nat
  deriving DecidableEq, Repr

/-- Embedding of `NewSliceIterator`. -/
def NewSliceIterator (data : List Model) : SliceIterator :=
  { data := data, idx := 0 }

/-- Embedding of `SliceIterator.Valid`. -/
def SliceIterator.Valid (s : SliceIterator) : Bool :=
  decide (s.idx < s.data.length)

/-- Embedding of `SliceIterator.assertValid`: `none` is the panic
"Passed end of slice". -/
def SliceIterator.assertValid (s : SliceIterator) : Option Unit :=
  if s.idx ≥ s.data.length then none else some ()

/-- Embedding of `SliceIterator.Next`: `none` is a panic. -/
def SliceIterator.Next (s : SliceIterator) : Option SliceIterator :=
  match s.assertValid with
  | none => none
  | some _ => some { s with idx := s.idx + 1 }

/-- Embedding of `SliceIterator.Key`: `none` is a panic (of `assertValid` or of
the slice access). -/
def SliceIterator.Key (s : SliceIterator) : Option Bytes :=
  match s.assertValid with
  | none => none
  | some _ => (s.data.get? s.idx).map (fun x => x.Key)

/-- Embedding of `SliceIterator.Value`: `none` is a panic. -/
def SliceIterator.Value (s : SliceIterator) : Option Bytes :=
  match s.assertValid with
  | none => none
  | some _ => (s.data.get? s.idx).map (fun x => x.Value)

/-- Embedding of `SliceIterator.Close`: `s.data = nil`. -/
def SliceIterator.Close (s : SliceIterator) : SliceIterator :=
  { s with data := [] }

/-- The iterator after `k` calls of `Next` (`none` when one of them panics). -/
def SliceIterator.nextN : Nat → SliceIterator → Option SliceIterator
  | 0, s => some s
  | k + 1, s =>
    match s.Next with
    | none => none
    | some s1 => SliceIterator.nextN k s1

/-- The loop `for ; itr.Valid(); itr.Next() { ... itr.Key(), itr.Value() ... }`:
it returns the models visited, in order of visit, and the number of times the
body ran. `fuel` bounds the number of `Valid()` tests; `none` is a panic or an
exhausted fuel. -/
def SliceIterator.forLoop : Nat → SliceIterator → List Model → Nat → Option (List Model × Nat)
  | 0, _, _, _ => none
  | fuel + 1, s, seen, steps =>
    if s.Valid then
      match s.Key, s.Value, s.Next with
      | some k, some v, some s1 =>
        SliceIterator.forLoop fuel s1 (seen ++ [{ Key := k, Value := v }]) (steps + 1)
      | _, _, _ => none
    else
      some (seen, steps)

/-- Embedding of the type `opKind` (an `int32`) and its constant `setKind`. -/
def setKind : Int := 1

/-- Embedding of the constant `delKind`. -/
def delKind : Int := 2

/-- Embedding of the struct `op`; `value` is only meaningful for a set. -/
structure op where
  kind : Int
  key : Bytes
  value : Bytes
  deriving DecidableEq, Repr

/-- Embedding of the interface `SetDeleter`, the target of a batch: a store
state that accepts `Set(key, value)` and `Delete(key)`. -/
class SetDeleter (σ : Type) where
  Set : σ → Bytes → Bytes → σ
  Delete : σ → Bytes → σ

/-- The map store as a `SetDeleter`. -/
instance instSetDeleterKVStore : SetDeleter KVStore where
  Set := KVStore.Set
  Delete := KVStore.Delete

/-- Embedding of `op.apply`: `none` is the panic on an unknown kind. -/
def op.apply {σ : Type} [SetDeleter σ] (o : op) (out : σ) : Option σ :=
  if o.kind = setKind then
    some (SetDeleter.Set out o.key o.value)
  else if o.kind = delKind then
    some (SetDeleter.Delete out o.key)
  else
    none

/-- Embedding of the struct `NonAtomicBatch`. The field `out` refers to the
underlying store, which the batch mutates on `Write`; here it is the current
content of that store. -/
structure NonAtomicBatch (σ : Type) where
  out : σ
  ops : List op

/-- Embedding of `NewNonAtomicBatch`. -/
def NewNonAtomicBatch {σ : Type} (out : σ) : NonAtomicBatch σ :=
  { out := out, ops := [] }

/-- Embedding of `NonAtomicBatch.Set`. -/
def NonAtomicBatch.Set {σ : Type} (b : NonAtomicBatch σ) (key value : Bytes) :
    NonAtomicBatch σ :=
  { b with ops := b.ops ++ [{ kind := setKind, key := key, value := value }] }

/-- Embedding of `NonAtomicBatch.Delete`. -/
def NonAtomicBatch.Delete {σ : Type} (b : NonAtomicBatch σ) (key : Bytes) :
    NonAtomicBatch σ :=
  { b with ops := b.ops ++ [{ kind := delKind, key := key, value := [] }] }

/-- The loop of `NonAtomicBatch.Write`: apply the operations in order. -/
def applyOps {σ : Type} [SetDeleter σ] : List op → σ → Option σ
  | [], out => some out
  | o :: rest, out =>
    match o.apply out with
    | none => none
    | some out1 => applyOps rest out1

/-- Embedding of `NonAtomicBatch.Write`: `none` is a panic of `op.apply`. -/
def NonAtomicBatch.Write {σ : Type} [SetDeleter σ] (b : NonAtomicBatch σ) :
    Option (NonAtomicBatch σ) :=
  match applyOps b.ops b.out with
  | none => none
  | some out1 => some { out := out1, ops := [] }

/-- A call made on a batch or directly on a store: `Set(key, value)` or
`Delete(key)`. -/
inductive Call where
  | set (key value : Bytes) : Call
  | delete (key : Bytes) : Call
  deriving DecidableEq, Repr

/-- The calls queued one after the other on a batch. -/
def NonAtomicBatch.queue {σ : Type} (b : NonAtomicBatch σ) : List Call → NonAtomicBatch σ
  | [] => b
  | Call.set k v :: rest => NonAtomicBatch.queue (b.Set k v) rest
  | Call.delete k :: rest => NonAtomicBatch.queue (b.Delete k) rest

/-- Specification side of the batch: the same calls applied directly to the
store, in the order given. -/
def directApply {σ : Type} [SetDeleter σ] (db : σ) : List Call → σ
  | [] => db
  | Call.set k v :: rest => directApply (SetDeleter.Set db k v) rest
  | Call.delete k :: rest => directApply (SetDeleter.Delete db k) rest

/-- Embedding of the struct `EmptyKVStore`, which has no field. -/
inductive EmptyKVStore where
  | mk : EmptyKVStore
  deriving DecidableEq, Repr

/-- Embedding of `EmptyKVStore.Get`: always nil. -/
def EmptyKVStore.Get (_e : EmptyKVStore) (_key : Bytes) : Option Bytes := none

/-- Embedding of `EmptyKVStore.Has`: always false. -/
def EmptyKVStore.Has (_e : EmptyKVStore) (_key : Bytes) : Bool := false

/-- Embedding of `EmptyKVStore.Set`: a no-op. -/
def EmptyKVStore.Set (e : EmptyKVStore) (_key _value : Bytes) : EmptyKVStore := e

/-- Embedding of `EmptyKVStore.Delete`: a no-op. -/
def EmptyKVStore.Delete (e : EmptyKVStore) (_key : Bytes) : EmptyKVStore := e

/-- Embedding of `EmptyKVStore.Iterator`: `NewSliceIterator(nil)`. -/
def EmptyKVStore.Iterator (_e : EmptyKVStore) (_start _stop : Bytes) : SliceIterator :=
  NewSliceIterator []

/-- Embedding of `EmptyKVStore.ReverseIterator`: `NewSliceIterator(nil)`. -/
def EmptyKVStore.ReverseIterator (_e : EmptyKVStore) (_start _stop : Bytes) : SliceIterator :=
  NewSliceIterator []

/-- The empty store as a `SetDeleter`. -/
instance instSetDeleterEmptyKVStore : SetDeleter EmptyKVStore where
  Set := EmptyKVStore.Set
  Delete := EmptyKVStore.Delete

/-- Embedding of `EmptyKVStore.NewBatch`: `NewNonAtomicBatch(e)`. -/
def EmptyKVStore.NewBatch (e : EmptyKVStore) : NonAtomicBatch EmptyKVStore :=
  NewNonAtomicBatch e

/-- The states of a slice iterator that `NewSliceIterator`, `Next` and `Close`
can produce. -/
inductive SliceIterator.Reachable : SliceIterator → Prop where
  | new (data : List Model) : SliceIterator.Reachable (NewSliceIterator data)
  | next (s s1 : SliceIterator) :
      SliceIterator.Reachable s → s.Next = some s1 → SliceIterator.Reachable s1
  | close (s : SliceIterator) : SliceIterator.Reachable s → SliceIterator.Reachable s.Close

end store

/-! ## Package `weave`: the declarations used by the read paths of `Index` -/

namespace weave

open orm (Bytes KVStore)

/-- Modelled from the spec: `weave.Model`, the "(storageKey, storageValue) pair"
returned by a query. `Value` holds the result of a store read, `none` when the
read found nothing. -/
structure Model where
  Key : Bytes
  Value : Option Bytes
  deriving DecidableEq, Repr

/-- Modelled from the spec: the query mode of an exact lookup, `mode = "key"`. -/
def KeyQueryMod : String := "key"

/-- Modelled from the spec: the query mode of a prefix scan, `mode = "prefix"`. -/
def PrefixQueryMod : String := "prefix"

/-- Modelled from the spec: `weave.ReadOnlyKVStore` as the read paths use it.
`kv` answers `Get`; `scan p` is the sequence of models that the iterator
`db.Iterator(prefixRange(p))` yields, from its first position to exhaustion
(neither `prefixRange` nor the iterator of a store is among the sources). -/
structure ReadOnlyKVStore where
  kv : KVStore
  scan : Bytes → List store.Model

/-- Modelled from the spec: `weave.Iterator`, the cursor that a store hands
out, with an explicit flag recording whether `Close()` has been called on it.
`rest` is what the cursor has still to yield. -/
structure Iterator where
  rest : List store.Model
  closed : Bool
  deriving DecidableEq, Repr

/-- The iterator `db.Iterator(prefixRange(p))` as the store hands it out: over
`scan p`, not closed. -/
def ReadOnlyKVStore.Iterator (db : ReadOnlyKVStore) (p : Bytes) : Iterator :=
  { rest := db.scan p, closed := false }

/-- Modelled from the spec: `Iterator.Close`, which releases the iterator. -/
def Iterator.Close (itr : Iterator) : Iterator :=
  { itr with closed := true }

end weave

namespace orm

/-- The loop of `Index.GetPrefix` over the models the iterator yields: a unique
slot contributes its value, a non-unique slot the members of its MultiRef. -/
def Index.prefixLoop (m : MultiRefImpl) (i : Index) :
    List store.Model → List Bytes → Except Error (List Bytes)
  | [], data => .ok data
  | x :: rest, data =>
    if i.unique then
      Index.prefixLoop m i rest (data ++ [x.Value])
    else
      match m.Unmarshal x.Value with
      | .error err => .error err
      | .ok tmp => Index.prefixLoop m i rest (data ++ tmp)

/-- Embedding of `Index.GetPrefix`. -/
def Index.GetPrefix (m : MultiRefImpl) (i : Index) (db : weave.ReadOnlyKVStore)
    (pfx : Bytes) : Except Error (List Bytes) :=
  let dbPrefix := i.IndexKey pfx
  let itr := db.scan dbPrefix
  Index.prefixLoop m i itr []

/-- The loop of `Index.GetPrefix` with the iterator kept: besides the result it
returns the iterator as the loop leaves it. `Valid`, `Value` and `Next` do not
touch the closed flag, and the body of the loop has no call of `Close`. -/
def Index.prefixLoopTraced (m : MultiRefImpl) (i : Index) :
    List store.Model → Bool → List Bytes → Except Error (List Bytes) × weave.Iterator
  | [], closed, data => (.ok data, { rest := [], closed := closed })
  | x :: rest, closed, data =>
    if i.unique then
      Index.prefixLoopTraced m i rest closed (data ++ [x.Value])
    else
      match m.Unmarshal x.Value with
      | .error err => (.error err, { rest := x :: rest, closed := closed })
      | .ok tmp => Index.prefixLoopTraced m i rest closed (data ++ tmp)

/-- Embedding of `Index.GetPrefix` with the iterator kept: the result, and the
iterator obtained from the store as it is when `GetPrefix` returns. The source
has no call of `Close` between `db.Iterator(...)` and either `return`. -/
def Index.GetPrefixTraced (m : MultiRefImpl) (i : Index) (db : weave.ReadOnlyKVStore)
    (pfx : Bytes) : Except Error (List Bytes) × weave.Iterator :=
  let dbPrefix := i.IndexKey pfx
  let itr := db.Iterator dbPrefix
  Index.prefixLoopTraced m i itr.rest itr.closed []

/-- Embedding of `Index.loadRefs`. -/
def Index.loadRefs (i : Index) (db : weave.ReadOnlyKVStore) (refs : List Bytes) :
    List weave.Model :=
  if refs.length = 0 then
    []
  else
    refs.map (fun ref => { Key := i.refKey ref, Value := db.kv.Get (i.refKey ref) })

/-- Embedding of `Index.Query`; `errors.New(msg)` is `Error.Other msg`. -/
def Index.Query (m : MultiRefImpl) (i : Index) (db : weave.ReadOnlyKVStore)
    (mod : String) (data : Bytes) : Except Error (List weave.Model) :=
  if mod = weave.KeyQueryMod then
    match i.GetAt m db.kv data with
    | .error err => .error err
    | .ok refs => .ok (i.loadRefs db refs)
  else if mod = weave.PrefixQueryMod then
    match i.GetPrefix m db data with
    | .error err => .error err
    | .ok refs => .ok (i.loadRefs db refs)
  else
    .error (Error.Other ("no implemented: " ++ mod))

/-- The effect on a store of at most one write at `key`: nothing, `Delete(key)`
or `Set(key, v)`. -/
def KVStore.writeAt (db : KVStore) (key : Bytes) : Option (Option Bytes) → KVStore
  | none => db
  | some none => db.Delete key
  | some (some v) => db.Set key v

/-- Lexicographic order of byte strings, the order of the keys of a store
(`bytes.Compare(a, b) < 0`). -/
def Bytes.lt : Bytes → Bytes → Bool
  | [], [] => false
  | [], _ :: _ => true
  | _ :: _, [] => false
  | x :: xs, y :: ys =>
    if x < y then true else if y < x then false else Bytes.lt xs ys

/-- An error value that one of the four fallible MultiRef operations returns. -/
def MultiRefImpl.Returns (m : MultiRefImpl) (e : Error) : Prop :=
  (∃ bz, m.Unmarshal bz = .error e) ∨ (∃ refs, m.Marshal refs = .error e) ∨
    (∃ refs r, m.Add refs r = .error e) ∨ (∃ refs r, m.Remove refs r = .error e)

/-- The error `e` does not originate in `index.go`: the indexer returned it on
one of the objects passed to this call of `Update`, or a MultiRef operation
returns it. `Index.Update` hands such an error to its caller unchanged. -/
def Index.HandsThrough (m : MultiRefImpl) (i : Index) (prev save : Option Object)
    (e : Error) : Prop :=
  (∃ o, (prev = some o ∨ save = some o) ∧ i.index o = .error e) ∨ m.Returns e

/-! ## Concrete data for the read paths -/

/-- Unique index "name", with iteration: "alice" maps to "pk1" and "albert" to
"pk2"; a scan yields the entries under the given prefix in key order. -/
def dbAl : weave.ReadOnlyKVStore :=
  { kv := (KVStore.empty.Set (uniqIdx.IndexKey (ascii "alice")) (ascii "pk1")).Set
      (uniqIdx.IndexKey (ascii "albert")) (ascii "pk2")
    scan := fun p =>
      [({ Key := uniqIdx.IndexKey (ascii "albert"), Value := ascii "pk2" } : store.Model),
        { Key := uniqIdx.IndexKey (ascii "alice"), Value := ascii "pk1" }].filter
        (fun x => p.isPrefixOf x.Key) }

/-- An index whose indexer fails with the both-sides-nil error. -/
def nilErrIdx : Index :=
  NewIndex (ascii "name") (fun _ => .error Error.ErrUpdateNil) true id

/-- Three models "a"→"1", "b"→"2", "c"→"3". -/
def abc : List store.Model :=
  [{ Key := ascii "a", Value := ascii "1" }, { Key := ascii "b", Value := ascii "2" },
    { Key := ascii "c", Value := ascii "3" }]

/-- Non-unique index "grp": "grp" holds the encoded one-member MultiRef of "pk". -/
def dbGrp : KVStore :=
  KVStore.empty.Set (multiIdx.IndexKey (ascii "grp")) [2, 112, 107]

/-- Object with primary key "pk" indexed at "grp". -/
def pkGrp : Object := { Key := ascii "pk", Value := ascii "grp" }

/-- Non-unique index "grp", with iteration: the slot "grp" holds the byte 5,
which announces five bytes that are not there and does not decode. -/
def dbBad : weave.ReadOnlyKVStore :=
  { kv := KVStore.empty.Set (multiIdx.IndexKey (ascii "grp")) [5]
    scan := fun _ => [{ Key := multiIdx.IndexKey (ascii "grp"), Value := [5] }] }

end orm

/-! ## Package `set_validators`: the generated codec (`x/update_validators/codec.pb.go`)

Conventions: a value of type `uint64` is a natural number below `2^64`; a
value of type `int`, `int32` or `int64` is an integer in the range of the type,
and the sums of the decoder that can leave the range are wrapped
(`wrapInt`). An accumulator of type `int` or `int64` that a varint loop fills
with `|=` and `<<` is held as its 64-bit two's complement pattern and read as a
signed value afterwards (`toInt64`). In the encoder, sizes and offsets count
bytes of slices that exist in memory; they are natural numbers. -/

namespace set_validators

open orm (Bytes)

/-- The error values of the decoder: the two package variables,
`io.ErrUnexpectedEOF`, and `fmt.Errorf(format, args...)`. -/
inductive CodecError where
  | ErrInvalidLengthCodec : CodecError
  | ErrIntOverflowCodec : CodecError
  | ErrUnexpectedEOF : CodecError
  | Errorf (format : String) (args : List Int) : CodecError
  deriving DecidableEq, Repr

/-- Outcome of a decoding function: a value (the error is nil), an error value,
a run-time panic (index or slice bounds out of range, `panic("unreachable")`),
or the exhaustion of the fuel of the embedding. -/
inductive Result (α : Type) where
  | ok (a : α) : Result α
  | err (e : CodecError) : Result α
  | panic : Result α
  | timeout : Result α
  deriving DecidableEq, Repr

/-- Sequencing: what follows runs on a value and is skipped otherwise. -/
def Result.bind {α β : Type} (r : Result α) (f : α → Result β) : Result β :=
  match r with
  | .ok a => f a
  | .err e => .err e
  | .panic => .panic
  | .timeout => .timeout

/-- The signed value of a 64-bit pattern (`int(x)`, `int64(x)` for a `uint64`). -/
def toInt64 (n : Nat) : Int :=
  if n % 2 ^ 64 < 2 ^ 63 then ((n % 2 ^ 64 : Nat) : Int) else ((n % 2 ^ 64 : Nat) : Int) - 2 ^ 64

/-- The signed value of the low 32 bits (`int32(x)` for a `uint64`). -/
def toInt32 (n : Nat) : Int :=
  if n % 2 ^ 32 < 2 ^ 31 then ((n % 2 ^ 32 : Nat) : Int) else ((n % 2 ^ 32 : Nat) : Int) - 2 ^ 32

/-- The 64-bit pattern of an integer (`uint64(x)` for an `int` or `int64`). -/
def toUint64 (z : Int) : Nat := (z % 2 ^ 64).toNat

/-- The result of an `int` operation: the mathematical result wrapped into the
64-bit two's complement range. -/
def wrapInt (z : Int) : Int := toInt64 (toUint64 z)

/-- The element `dAtA[i]`; `none` is the index-out-of-range panic. -/
def byteAt (dAtA : Bytes) (i : Int) : Option UInt8 :=
  if i < 0 then none else dAtA.get? i.toNat

/-- The slice `dAtA[lo:hi]`; `none` is the slice-bounds panic. The capacity of
`dAtA` is taken to be its length. -/
def slice (dAtA : Bytes) (lo hi : Int) : Option Bytes :=
  if 0 ≤ lo ∧ lo ≤ hi ∧ hi ≤ (dAtA.length : Int) then
    some ((dAtA.drop lo.toNat).take (hi - lo).toNat)
  else
    none

/-- The slice `dAtA[lo:]`; `none` is the slice-bounds panic. -/
def sliceFrom (dAtA : Bytes) (lo : Int) : Option Bytes :=
  if 0 ≤ lo ∧ lo ≤ (dAtA.length : Int) then some (dAtA.drop lo.toNat) else none

/-- The varint loop of the decoders,
`for shift := uint(0); ; shift += 7 { ... acc |= (T(b) & 0x7F) << shift ... }`,
from the index `iNdEx`: it returns the pattern accumulated and the index after
the varint. The first argument counts the rounds left before `shift` reaches
70, where the test `shift >= 64` ends the loop. -/
def readVarintLoop (dAtA : Bytes) (l : Int) : Nat → Nat → Nat → Int → Result (Nat × Int)
  | 0, _, _, _ => .err CodecError.ErrIntOverflowCodec
  | n + 1, shift, acc, iNdEx =>
    if shift ≥ 64 then
      .err CodecError.ErrIntOverflowCodec
    else if iNdEx ≥ l then
      .err CodecError.ErrUnexpectedEOF
    else
      match byteAt dAtA iNdEx with
      | none => .panic
      | some b =>
        let acc1 := acc ||| (((b.toNat &&& 0x7F) <<< shift) % 2 ^ 64)
        if b.toNat < 0x80 then
          .ok (acc1, iNdEx + 1)
        else
          readVarintLoop dAtA l n (shift + 7) acc1 (iNdEx + 1)

/-- The varint loop started at `shift = 0` with a zero accumulator. -/
def readVarint (dAtA : Bytes) (l : Int) (iNdEx : Int) : Result (Nat × Int) :=
  readVarintLoop dAtA l 10 0 0 iNdEx

/-- The loop of case 0 of `skipCodec`, which steps over a varint and returns
the index after it. -/
def skipVarintLoop (dAtA : Bytes) (l : Int) : Nat → Nat → Int → Result Int
  | 0, _, _ => .err CodecError.ErrIntOverflowCodec
  | n + 1, shift, iNdEx =>
    if shift ≥ 64 then
      .err CodecError.ErrIntOverflowCodec
    else if iNdEx ≥ l then
      .err CodecError.ErrUnexpectedEOF
    else
      match byteAt dAtA (iNdEx + 1 - 1) with
      | none => .panic
      | some b =>
        if b.toNat < 0x80 then
          .ok (iNdEx + 1)
        else
          skipVarintLoop dAtA l n (shift + 7) (iNdEx + 1)

/-- The loop of case 3 of `skipCodec` (a group): read a tag, stop at an
end-group tag, otherwise skip the field that starts at the tag with
`skipCodec(dAtA[start:])`, here `skip`. -/
def skipGroupLoop (skip : Bytes → Result Int) (dAtA : Bytes) (l : Int) :
    Nat → Int → Result Int
  | 0, _ => .timeout
  | fuel + 1, iNdEx =>
    let start := iNdEx
    (readVarint dAtA l iNdEx).bind fun r =>
      let innerWire := r.1
      let iNdEx1 := r.2
      let innerWireType : Int := toInt64 (innerWire &&& 0x7)
      if innerWireType = 4 then
        .ok iNdEx1
      else
        match sliceFrom dAtA start with
        | none => .panic
        | some sub =>
          (skip sub).bind fun next =>
            skipGroupLoop skip dAtA l fuel (wrapInt (start + next))

/-- Embedding of `skipCodec`, with fuel for the recursion and the group loop.
Every case of the switch returns, so the body of `for iNdEx < l` runs at most
once; an empty input reaches `panic("unreachable")`. -/
def skipCodecFuel : Nat → Bytes → Result Int
  | 0, _ => .timeout
  | fuel + 1, dAtA =>
    let l : Int := dAtA.length
    let iNdEx : Int := 0
    if iNdEx < l then
      (readVarint dAtA l iNdEx).bind fun r =>
        let wire := r.1
        let iNdEx1 := r.2
        let wireType : Int := toInt64 (wire &&& 0x7)
        if wireType = 0 then
          skipVarintLoop dAtA l 10 0 iNdEx1
        else if wireType = 1 then
          .ok (wrapInt (iNdEx1 + 8))
        else if wireType = 2 then
          (readVarint dAtA l iNdEx1).bind fun r2 =>
            let length := toInt64 r2.1
            let iNdEx2 := wrapInt (r2.2 + length)
            if length < 0 then .err CodecError.ErrInvalidLengthCodec else .ok iNdEx2
        else if wireType = 3 then
          skipGroupLoop (skipCodecFuel fuel) dAtA l fuel iNdEx1
        else if wireType = 4 then
          .ok iNdEx1
        else if wireType = 5 then
          .ok (wrapInt (iNdEx1 + 4))
        else
          .err (CodecError.Errorf "proto: illegal wireType %d" [wireType])
    else
      .panic

/-- Embedding of `skipCodec`. -/
def skipCodec (dAtA : Bytes) : Result Int :=
  skipCodecFuel (dAtA.length + 1) dAtA

/-- Embedding of the struct `PubKey`; the field `Type`, a string, is the
sequence of its bytes. -/
structure PubKey where
  Typ : Bytes
  Data : Bytes
  deriving DecidableEq, Repr

/-- Embedding of the struct `Validator`; `Power` is an `int64`. -/
structure Validator where
  Address : Bytes
  PubKey : PubKey
  Power : Int
  deriving DecidableEq, Repr

/-- Embedding of the struct `SetValidators`, without nil element. -/
structure SetValidators where
  Validators : List Validator
  deriving DecidableEq, Repr

/-- The default case of the field switches: skip an unknown field from
`preIndex` and return the index after it. -/
def skipUnknown (dAtA : Bytes) (l : Int) (preIndex : Int) : Result Int :=
  let iNdEx := preIndex
  match sliceFrom dAtA iNdEx with
  | none => .panic
  | some sub =>
    (skipCodec sub).bind fun skippy =>
      if skippy < 0 then
        .err CodecError.ErrInvalidLengthCodec
      else if wrapInt (iNdEx + skippy) > l then
        .err CodecError.ErrUnexpectedEOF
      else
        .ok (wrapInt (iNdEx + skippy))

/-- The common part of the cases of a length-delimited field: read the length,
reject a negative one, compute `postIndex := iNdEx + length`, reject
`postIndex > l`, and take `dAtA[iNdEx:postIndex]`. It returns the bytes and
`postIndex`. -/
def readDelimited (dAtA : Bytes) (l : Int) (iNdEx : Int) : Result (Bytes × Int) :=
  (readVarint dAtA l iNdEx).bind fun r =>
    let byteLen := toInt64 r.1
    let iNdEx1 := r.2
    if byteLen < 0 then
      .err CodecError.ErrInvalidLengthCodec
    else
      let postIndex := wrapInt (iNdEx1 + byteLen)
      if postIndex > l then
        .err CodecError.ErrUnexpectedEOF
      else
        match slice dAtA iNdEx1 postIndex with
        | none => .panic
        | some bz => .ok (bz, postIndex)

/-- The loop `for iNdEx < l` of `PubKey.Unmarshal`, with fuel. -/
def PubKey.unmarshalLoop (dAtA : Bytes) (l : Int) : Nat → PubKey → Int → Result PubKey
  | 0, _, _ => .timeout
  | fuel + 1, m, iNdEx =>
    if iNdEx < l then
      let preIndex := iNdEx
      (readVarint dAtA l iNdEx).bind fun r =>
        let wire := r.1
        let iNdEx1 := r.2
        let fieldNum : Int := toInt32 (wire >>> 3)
        let wireType : Int := toInt64 (wire &&& 0x7)
        if wireType = 4 then
          .err (CodecError.Errorf "proto: PubKey: wiretype end group for non-group" [])
        else if fieldNum ≤ 0 then
          .err (CodecError.Errorf "proto: PubKey: illegal tag %d (wire type %d)"
            [fieldNum, (wire : Int)])
        else if fieldNum = 1 then
          if wireType ≠ 2 then
            .err (CodecError.Errorf "proto: wrong wireType = %d for field Type" [wireType])
          else
            (readDelimited dAtA l iNdEx1).bind fun f =>
              PubKey.unmarshalLoop dAtA l fuel { m with Typ := f.1 } f.2
        else if fieldNum = 2 then
          if wireType ≠ 2 then
            .err (CodecError.Errorf "proto: wrong wireType = %d for field Data" [wireType])
          else
            (readDelimited dAtA l iNdEx1).bind fun f =>
              PubKey.unmarshalLoop dAtA l fuel { m with Data := f.1 } f.2
        else
          (skipUnknown dAtA l preIndex).bind fun iNdEx2 =>
            PubKey.unmarshalLoop dAtA l fuel m iNdEx2
    else if iNdEx > l then
      .err CodecError.ErrUnexpectedEOF
    else
      .ok m

/-- Embedding of `PubKey.Unmarshal` on the receiver `m`: the decoded message,
or how the call ends otherwise. -/
def PubKey.Unmarshal (m : PubKey) (dAtA : Bytes) : Result PubKey :=
  PubKey.unmarshalLoop dAtA dAtA.length (dAtA.length + 1) m 0

/-- The loop `for iNdEx < l` of `Validator.Unmarshal`, with fuel. -/
def Validator.unmarshalLoop (dAtA : Bytes) (l : Int) : Nat → Validator → Int → Result Validator
  | 0, _, _ => .timeout
  | fuel + 1, m, iNdEx =>
    if iNdEx < l then
      let preIndex := iNdEx
      (readVarint dAtA l iNdEx).bind fun r =>
        let wire := r.1
        let iNdEx1 := r.2
        let fieldNum : Int := toInt32 (wire >>> 3)
        let wireType : Int := toInt64 (wire &&& 0x7)
        if wireType = 4 then
          .err (CodecError.Errorf "proto: Validator: wiretype end group for non-group" [])
        else if fieldNum ≤ 0 then
          .err (CodecError.Errorf "proto: Validator: illegal tag %d (wire type %d)"
            [fieldNum, (wire : Int)])
        else if fieldNum = 1 then
          if wireType ≠ 2 then
            .err (CodecError.Errorf "proto: wrong wireType = %d for field Address" [wireType])
          else
            (readDelimited dAtA l iNdEx1).bind fun f =>
              Validator.unmarshalLoop dAtA l fuel { m with Address := f.1 } f.2
        else if fieldNum = 2 then
          if wireType ≠ 2 then
            .err (CodecError.Errorf "proto: wrong wireType = %d for field PubKey" [wireType])
          else
            (readDelimited dAtA l iNdEx1).bind fun f =>
              (PubKey.Unmarshal m.PubKey f.1).bind fun pk =>
                Validator.unmarshalLoop dAtA l fuel { m with PubKey := pk } f.2
        else if fieldNum = 3 then
          if wireType ≠ 0 then
            .err (CodecError.Errorf "proto: wrong wireType = %d for field Power" [wireType])
          else
            (readVarint dAtA l iNdEx1).bind fun p =>
              Validator.unmarshalLoop dAtA l fuel { m with Power := toInt64 p.1 } p.2
        else
          (skipUnknown dAtA l preIndex).bind fun iNdEx2 =>
            Validator.unmarshalLoop dAtA l fuel m iNdEx2
    else if iNdEx > l then
      .err CodecError.ErrUnexpectedEOF
    else
      .ok m

/-- Embedding of `Validator.Unmarshal` on the receiver `m`. -/
def Validator.Unmarshal (m : Validator) (dAtA : Bytes) : Result Validator :=
  Validator.unmarshalLoop dAtA dAtA.length (dAtA.length + 1) m 0

/-- The loop of `sovCodec`: `n++; x >>= 7; if x == 0 { break }`. -/
def sovLoop : Nat → Nat → Nat → Nat
  | 0, n, _ => n
  | fuel + 1, n, x =>
    if x >>> 7 = 0 then n + 1 else sovLoop fuel (n + 1) (x >>> 7)

/-- Embedding of `sovCodec(x)` for a `uint64` argument: ten rounds empty any
64-bit value. -/
def sovCodec (x : Nat) : Nat := sovLoop 10 0 (x % 2 ^ 64)

/-- The assignment `dAtA[i] = b`; `none` is the index-out-of-range panic. -/
def setByte (dAtA : Bytes) (i : Nat) (b : UInt8) : Option Bytes :=
  if i < dAtA.length then some (dAtA.set i b) else none

/-- The loop of `encodeVarintCodec`. At most nine rounds of `v >>= 7` bring a
64-bit value below `1 << 7`. -/
def encodeVarintLoop : Nat → Bytes → Nat → Nat → Option (Bytes × Nat)
  | 0, dAtA, offset, v => (setByte dAtA offset (UInt8.ofNat v)).map fun d => (d, offset + 1)
  | fuel + 1, dAtA, offset, v =>
    if v ≥ 2 ^ 7 then
      match setByte dAtA offset (UInt8.ofNat ((v &&& 0x7f) ||| 0x80)) with
      | none => none
      | some d => encodeVarintLoop fuel d (offset + 1) (v >>> 7)
    else
      (setByte dAtA offset (UInt8.ofNat v)).map fun d => (d, offset + 1)

/-- Embedding of `encodeVarintCodec(dAtA, offset, v)` for a `uint64` value: the
buffer after the writes and the offset returned; `none` is a panic. -/
def encodeVarintCodec (dAtA : Bytes) (offset : Nat) (v : Nat) : Option (Bytes × Nat) :=
  encodeVarintLoop 9 dAtA offset (v % 2 ^ 64)

/-- The statement `copy(dAtA[i:], src)`: the buffer after the copy and the
number of bytes copied, the smaller of the room left and the length of `src`;
`none` is the slice-bounds panic of `dAtA[i:]`. -/
def copyAt (dAtA : Bytes) (i : Nat) (src : Bytes) : Option (Bytes × Nat) :=
  if i ≤ dAtA.length then
    let n := min (dAtA.length - i) src.length
    some (dAtA.take i ++ (src.take n ++ dAtA.drop (i + n)), n)
  else
    none

/-- A statement of a `MarshalTo`: it maps the buffer `dAtA` and the offset `i`
to what they are after the statement; `none` is a panic. -/
abbrev Writer := Bytes × Nat → Option (Bytes × Nat)

/-- The statements `dAtA[i] = b; i++`. -/
def putByte (b : UInt8) : Writer :=
  fun s => (setByte s.1 s.2 b).map fun d => (d, s.2 + 1)

/-- The statement `i = encodeVarintCodec(dAtA, i, v)`. -/
def putVarint (v : Nat) : Writer :=
  fun s => encodeVarintCodec s.1 s.2 v

/-- The statement `i += copy(dAtA[i:], src)`. -/
def putCopy (src : Bytes) : Writer :=
  fun s => (copyAt s.1 s.2 src).map fun c => (c.1, s.2 + c.2)

/-- The statements `n, err := sub.MarshalTo(dAtA[i:]); i += n` (the error is
always nil): the callee writes into the tail of the buffer, which shares its
memory; the slice expression panics when `i` is beyond the buffer. -/
def putSub (f : Bytes → Option (Bytes × Nat)) : Writer :=
  fun s =>
    if s.2 ≤ s.1.length then
      (f (s.1.drop s.2)).map fun r => (s.1.take s.2 ++ r.1, s.2 + r.2)
    else
      none

/-- One statement after the other. -/
def Writer.seq (w1 w2 : Writer) : Writer :=
  fun s => (w1 s).bind w2

/-- A statement under `if c { ... }`. -/
def Writer.when (c : Prop) [Decidable c] (w : Writer) : Writer :=
  fun s => if c then w s else some s

/-- The four statements that write a length-delimited field of bytes:
`dAtA[i] = tag; i++; i = encodeVarintCodec(dAtA, i, uint64(len(src)));
i += copy(dAtA[i:], src)`. -/
def putBytesField (tag : UInt8) (src : Bytes) : Writer :=
  (putByte tag).seq ((putVarint src.length).seq (putCopy src))

/-- Embedding of `PubKey.Size`. -/
def PubKey.Size (m : PubKey) : Nat :=
  let n := 0
  let l := m.Typ.length
  let n := if l > 0 then n + (1 + l + sovCodec l) else n
  let l := m.Data.length
  let n := if l > 0 then n + (1 + l + sovCodec l) else n
  n

/-- The statements of `PubKey.MarshalTo`. -/
def PubKey.marshalBody (m : PubKey) : Writer :=
  (Writer.when (m.Typ.length > 0) (putBytesField 0xa m.Typ)).seq
    (Writer.when (m.Data.length > 0) (putBytesField 0x12 m.Data))

/-- Embedding of `PubKey.MarshalTo`: the buffer after the writes and the count
`i` returned (the error returned is always nil); `none` is a panic. -/
def PubKey.MarshalTo (m : PubKey) (dAtA : Bytes) : Option (Bytes × Nat) :=
  m.marshalBody (dAtA, 0)

/-- The three statements of every `Marshal`: `dAtA = make([]byte, size)`,
the call of `MarshalTo`, and `return dAtA[:n]`; `none` is a panic. -/
def marshalWith (size : Nat) (marshalTo : Bytes → Option (Bytes × Nat)) : Option Bytes :=
  let dAtA : Bytes := List.replicate size 0
  (marshalTo dAtA).bind fun r =>
    if r.2 ≤ r.1.length then some (r.1.take r.2) else none

/-- Embedding of `PubKey.Marshal`: `none` is a panic. -/
def PubKey.Marshal (m : PubKey) : Option Bytes :=
  marshalWith m.Size m.MarshalTo

/-- Embedding of `Validator.Size`. -/
def Validator.Size (m : Validator) : Nat :=
  let n := 0
  let l := m.Address.length
  let n := if l > 0 then n + (1 + l + sovCodec l) else n
  let l := m.PubKey.Size
  let n := n + (1 + l + sovCodec l)
  let n := if m.Power ≠ 0 then n + (1 + sovCodec (toUint64 m.Power)) else n
  n

/-- The statements of `Validator.MarshalTo`. -/
def Validator.marshalBody (m : Validator) : Writer :=
  (Writer.when (m.Address.length > 0) (putBytesField 0xa m.Address)).seq
    ((putByte 0x12).seq
      ((putVarint m.PubKey.Size).seq
        ((putSub m.PubKey.MarshalTo).seq
          (Writer.when (m.Power ≠ 0) ((putByte 0x18).seq (putVarint (toUint64 m.Power)))))))

/-- Embedding of `Validator.MarshalTo`. -/
def Validator.MarshalTo (m : Validator) (dAtA : Bytes) : Option (Bytes × Nat) :=
  m.marshalBody (dAtA, 0)

/-- Embedding of `Validator.Marshal`. -/
def Validator.Marshal (m : Validator) : Option Bytes :=
  marshalWith m.Size m.MarshalTo

/-- The loop of `SetValidators.Size` over the validators. -/
def SetValidators.sizeLoop : List Validator → Nat → Nat
  | [], n => n
  | e :: rest, n =>
    let l := e.Size
    SetValidators.sizeLoop rest (n + (1 + l + sovCodec l))

/-- Embedding of `SetValidators.Size`. -/
def SetValidators.Size (m : SetValidators) : Nat :=
  if m.Validators.length > 0 then SetValidators.sizeLoop m.Validators 0 else 0

/-- The loop of `SetValidators.MarshalTo` over the validators. -/
def SetValidators.marshalLoop : List Validator → Writer
  | [] => fun s => some s
  | msg :: rest =>
    (putByte 0xa).seq
      ((putVarint msg.Size).seq
        ((putSub msg.MarshalTo).seq (SetValidators.marshalLoop rest)))

/-- Embedding of `SetValidators.MarshalTo`. -/
def SetValidators.MarshalTo (m : SetValidators) (dAtA : Bytes) : Option (Bytes × Nat) :=
  Writer.when (m.Validators.length > 0) (SetValidators.marshalLoop m.Validators) (dAtA, 0)

/-- Embedding of `SetValidators.Marshal`. -/
def SetValidators.Marshal (m : SetValidators) : Option Bytes :=
  marshalWith m.Size m.MarshalTo

/-- A statement writes the bytes `bz`: run at the offset `len(pre)` on a buffer
with room for `bz` there, it puts `bz` in that room and advances the offset by
`len(bz)`. -/
def Writes (w : Writer) (bz : Bytes) : Prop :=
  ∀ pre mid post : Bytes, mid.length = bz.length →
    w (pre ++ (mid ++ post), pre.length) = some (pre ++ (bz ++ post), pre.length + bz.length)

/-- The bytes of the varint of a `uint64`, low seven bits first. -/
def varintBytesLoop : Nat → Nat → Bytes
  | 0, v => [UInt8.ofNat v]
  | fuel + 1, v =>
    if v ≥ 2 ^ 7 then
      UInt8.ofNat ((v &&& 0x7f) ||| 0x80) :: varintBytesLoop fuel (v >>> 7)
    else
      [UInt8.ofNat v]

/-- Wire format: the varint of a `uint64`. -/
def varintBytes (v : Nat) : Bytes := varintBytesLoop 9 (v % 2 ^ 64)

/-- Wire format: a length-delimited field, its tag, the varint of its length
and its bytes. -/
def fieldBytes (tag : UInt8) (src : Bytes) : Bytes :=
  tag :: (varintBytes src.length ++ src)

/-- Wire format of a `PubKey`. -/
def PubKey.bytes (m : PubKey) : Bytes :=
  (if m.Typ.length > 0 then fieldBytes 0xa m.Typ else []) ++
    (if m.Data.length > 0 then fieldBytes 0x12 m.Data else [])

/-- Wire format of a `Validator`. -/
def Validator.bytes (m : Validator) : Bytes :=
  (if m.Address.length > 0 then fieldBytes 0xa m.Address else []) ++
    (fieldBytes 0x12 m.PubKey.bytes ++
      (if m.Power ≠ 0 then 0x18 :: varintBytes (toUint64 m.Power) else []))

/-- Wire format of the validators of a `SetValidators`, one length-delimited
field each. -/
def SetValidators.bytesLoop : List Validator → Bytes
  | [] => []
  | e :: rest => fieldBytes 0xa e.bytes ++ SetValidators.bytesLoop rest

/-- Wire format of a `SetValidators`. -/
def SetValidators.bytes (m : SetValidators) : Bytes :=
  SetValidators.bytesLoop m.Validators

/-- The zero value of `PubKey`. -/
def PubKey.zero : PubKey := { Typ := [], Data := [] }

/-- The zero value of `Validator`. -/
def Validator.zero : Validator := { Address := [], PubKey := PubKey.zero, Power := 0 }

/-- A validator with an address, a typed key and a negative power. -/
def sampleValidator : Validator :=
  { Address := [1, 2, 3]
    PubKey := { Typ := orm.ascii "ed25519", Data := [9, 8, 7, 6] }
    Power := -5 }

/-- Ten bytes: the tag of field 2 with wire type 2 (`0x12`), then the varint of
`2^63 - 1` (eight bytes `0xff` and `0x7f`) as the length of the field. -/
def overflowInput : Bytes := [0x12, 0xff, 0xff, 0xff, 0xff, 0xff, 0xff, 0xff, 0xff, 0x7f]

/-- Ten bytes: the tag of field 1 with wire type 2 (`0x0a`), then the varint of
`2^63 - 1` as the length of the field. -/
def overflowInput1 : Bytes := [0x0a, 0xff, 0xff, 0xff, 0xff, 0xff, 0xff, 0xff, 0xff, 0x7f]

/-- Eleven bytes: a start-group tag (`0x0b`), then a length-delimited field
whose length is `2^63 - 1`. -/
def overflowGroup : Bytes :=
  [0x0b, 0x0a, 0xff, 0xff, 0xff, 0xff, 0xff, 0xff, 0xff, 0xff, 0x7f]

end set_validators

namespace orm

/-! ## Store and key lemmas -/

theorem KVStore.get_set_self (db : KVStore) (key value : Bytes) :
    (db.Set key value).Get key = some value := by
  simp [KVStore.Get, KVStore.Set]

theorem KVStore.get_set_other (db : KVStore) (key value k : Bytes) (h : k ≠ key) :
    (db.Set key value).Get k = db.Get k := by
  simp [KVStore.Get, KVStore.Set, h]

/-- A primary key of positive length written to a slot reads back. -/
theorem KVStore.get_setKey_self (db : KVStore) (key pk : Bytes) (hpk : pk ≠ []) :
    (db.SetKey key pk).Get key = some pk := by
  simp [KVStore.Get, KVStore.SetKey, KVStore.Set, hpk]

/-- A nil primary key written to a slot reads back as nil. -/
theorem KVStore.get_setKey_nil (db : KVStore) (key : Bytes) :
    (db.SetKey key []).Get key = none := by
  simp [KVStore.Get, KVStore.SetKey]

theorem KVStore.get_setKey_other (db : KVStore) (key pk k : Bytes) (h : k ≠ key) :
    (db.SetKey key pk).Get k = db.Get k := by
  by_cases hpk : pk = []
  · simp [KVStore.Get, KVStore.SetKey, hpk, h]
  · simp [KVStore.Get, KVStore.SetKey, KVStore.Set, hpk, h]

/-- A nil primary key leaves the slot as a `Delete` does, for what `Get` sees. -/
theorem KVStore.setKey_nil (db : KVStore) (key : Bytes) :
    db.SetKey key [] = db.Delete key := by
  simp only [KVStore.SetKey, if_true]
  rfl

theorem KVStore.setKey_of_ne (db : KVStore) (key pk : Bytes) (hpk : pk ≠ []) :
    db.SetKey key pk = db.Set key pk := by
  simp [KVStore.SetKey, hpk]

theorem KVStore.get_delete_self (db : KVStore) (key : Bytes) :
    (db.Delete key).Get key = none := by
  simp [KVStore.Get, KVStore.Delete]

theorem KVStore.get_delete_other (db : KVStore) (key k : Bytes) (h : k ≠ key) :
    (db.Delete key).Get k = db.Get k := by
  simp [KVStore.Get, KVStore.Delete, h]

theorem Index.IndexKey_inj (i : Index) (a b : Bytes) :
    i.IndexKey a = i.IndexKey b ↔ a = b := by
  simp [Index.IndexKey]

/-- A unique-index insert on a free slot stores the primary key. -/
theorem Index.insert_unique_free (m : MultiRefImpl) (i : Index) (db : KVStore)
    (index pk : Bytes) (hu : i.unique = true) (hne : index ≠ [])
    (hfree : db.Get (i.IndexKey index) = none) :
    i.insert m db index pk = (none, db.SetKey (i.IndexKey index) pk) := by
  simp [Index.insert, hu, hne, hfree]

/-- A unique-index insert on an occupied slot fails and leaves the store. -/
theorem Index.insert_unique_taken (m : MultiRefImpl) (i : Index) (db : KVStore)
    (index pk : Bytes) (hu : i.unique = true) (hne : index ≠ [])
    (hocc : db.Get (i.IndexKey index) ≠ none) :
    i.insert m db index pk = (some (Error.ErrUniqueConstraint i.name), db) := by
  simp [Index.insert, hu, hne, hocc]

/-- Insert and remove skip an empty secondary key. -/
theorem Index.insert_nil (m : MultiRefImpl) (i : Index) (db : KVStore) (pk : Bytes) :
    i.insert m db [] pk = (none, db) := by
  simp [Index.insert]

theorem Index.remove_nil (m : MultiRefImpl) (i : Index) (db : KVStore) (pk : Bytes) :
    i.remove m db [] pk = (none, db) := by
  simp [Index.remove]

/-- A unique-index remove either fails without effect or deletes the slot. -/
theorem Index.remove_unique_cases (m : MultiRefImpl) (i : Index) (db : KVStore)
    (index pk : Bytes) (hu : i.unique = true) (hne : index ≠ []) :
    (db.Get (i.IndexKey index) = some pk ∧
        i.remove m db index pk = (none, db.Delete (i.IndexKey index))) ∨
      (db.Get (i.IndexKey index) ≠ some pk ∧
        i.remove m db index pk = (some Error.ErrRemoveUnregistered, db)) := by
  unfold Index.remove
  simp only [List.length_eq_zero, hne, if_false, hu, if_true]
  cases h : db.Get (i.IndexKey index) with
  | none => simp
  | some cur =>
    by_cases hc : cur = pk
    · simp [hc]
    · simp [hc]

/-- Embedding of `GetAt` of an absent slot is empty (any index). -/
theorem Index.GetAt_absent (m : MultiRefImpl) (i : Index) (db : KVStore) (k : Bytes)
    (h : db.Get (i.IndexKey k) = none) : i.GetAt m db k = .ok [] := by
  simp [Index.GetAt, h]

/-- Embedding of `GetAt` of an occupied slot of a unique index is its content. -/
theorem Index.GetAt_unique_present (m : MultiRefImpl) (i : Index) (db : KVStore)
    (k v : Bytes) (hu : i.unique = true) (h : db.Get (i.IndexKey k) = some v) :
    i.GetAt m db k = .ok [v] := by
  simp [Index.GetAt, h, hu]

/-- An insert either succeeds or leaves the store as it was (any index). -/
theorem Index.insert_ok_or_same (m : MultiRefImpl) (i : Index) (db : KVStore)
    (index pk : Bytes) :
    (i.insert m db index pk).1 = none ∨ (i.insert m db index pk).2 = db := by
  unfold Index.insert
  dsimp only
  repeat (first | split | simp)

/-- A remove either succeeds or leaves the store as it was (any index). -/
theorem Index.remove_ok_or_same (m : MultiRefImpl) (i : Index) (db : KVStore)
    (index pk : Bytes) :
    (i.remove m db index pk).1 = none ∨ (i.remove m db index pk).2 = db := by
  unfold Index.remove
  dsimp only
  repeat (first | split | simp)

/-- The outcomes of `move`: it returns with the store untouched, or it reaches
the remove of the old mapping, which fails without effect or is followed by
the insert of the new mapping. -/
theorem Index.move_cases (m : MultiRefImpl) (i : Index) (db : KVStore) (prev save : Object) :
    (i.move m db prev save).2 = db ∨
      ∃ oldKey newKey, i.index prev = .ok oldKey ∧ oldKey ≠ newKey ∧
        ¬ (i.unique = true ∧ oldKey.length ≠ 0 ∧ db.Get (i.IndexKey newKey) ≠ none) ∧
        (((i.move m db prev save).1 ≠ none ∧ (i.move m db prev save).2 = db) ∨
          ∃ db1, i.remove m db oldKey prev.Key = (none, db1) ∧
            i.move m db prev save = i.insert m db1 newKey save.Key) := by
  unfold Index.move
  by_cases hpk : prev.Key = save.Key
  swap
  · simp [hpk]
  cases hold : i.index prev with
  | error e => simp [hpk]
  | ok oldKey =>
    cases hnew : i.index save with
    | error e => simp [hpk]
    | ok newKey =>
      by_cases hd : oldKey = newKey
      · simp [hpk, hd]
      by_cases hprobe : i.unique = true ∧ oldKey.length ≠ 0 ∧ db.Get (i.IndexKey newKey) ≠ none
      · simp only [hpk, hd, not_true_eq_false, if_false]
        rw [if_pos hprobe]
        exact Or.inl rfl
      refine Or.inr ⟨oldKey, newKey, rfl, hd, hprobe, ?_⟩
      simp only [hpk, hd, not_true_eq_false, if_false]
      rw [if_neg hprobe]
      rcases hr : i.remove m db oldKey save.Key with ⟨e1, db1⟩
      cases e1 with
      | none => exact Or.inr ⟨db1, rfl, rfl⟩
      | some e =>
        have := Index.remove_ok_or_same m i db oldKey save.Key
        rw [hr] at this
        simp at this
        left
        simp [this]

/-- On a unique index, insert leaves the store or fills a free slot. -/
theorem Index.insert_unique_store (m : MultiRefImpl) (i : Index) (db : KVStore)
    (index pk : Bytes) (hu : i.unique = true) :
    (i.insert m db index pk).2 = db ∨
      (db.Get (i.IndexKey index) = none ∧
        (i.insert m db index pk).2 = db.SetKey (i.IndexKey index) pk) := by
  by_cases hne : index = []
  · subst hne
    exact Or.inl (by rw [Index.insert_nil])
  · by_cases hfree : db.Get (i.IndexKey index) = none
    · exact Or.inr ⟨hfree, by rw [Index.insert_unique_free m i db index pk hu hne hfree]⟩
    · exact Or.inl (by rw [Index.insert_unique_taken m i db index pk hu hne hfree])

/-- On a unique index, remove leaves the store or deletes the slot. -/
theorem Index.remove_unique_store (m : MultiRefImpl) (i : Index) (db : KVStore)
    (index pk : Bytes) (hu : i.unique = true) :
    (i.remove m db index pk).2 = db ∨
      (i.remove m db index pk).2 = db.Delete (i.IndexKey index) := by
  by_cases hne : index = []
  · subst hne
    exact Or.inl (by rw [Index.remove_nil])
  · rcases Index.remove_unique_cases m i db index pk hu hne with ⟨_, h⟩ | ⟨_, h⟩
    · exact Or.inr (by rw [h])
    · exact Or.inl (by rw [h])

/-- On a unique index, an `Update` never replaces the content of an occupied
slot by other content: each slot was free, is free afterwards, or is as before. -/
theorem Index.update_unique_slot (m : MultiRefImpl) (i : Index) (db : KVStore)
    (prev save : Option Object) (hu : i.unique = true) (x : Bytes) :
    db.Get x = none ∨ (i.Update m db prev save).2.Get x = none ∨
      (i.Update m db prev save).2.Get x = db.Get x := by
  have hins : ∀ (d : KVStore) (k pk : Bytes),
      d.Get x = none ∨ (i.insert m d k pk).2.Get x = none ∨
        (i.insert m d k pk).2.Get x = d.Get x := by
    intro d k pk
    rcases Index.insert_unique_store m i d k pk hu with h | ⟨hf, h⟩
    · rw [h]; exact Or.inr (Or.inr rfl)
    · rw [h]
      by_cases hx : x = i.IndexKey k
      · subst hx; exact Or.inl hf
      · rw [KVStore.get_setKey_other _ _ _ _ hx]; exact Or.inr (Or.inr rfl)
  have hrem : ∀ (k pk : Bytes),
      (i.remove m db k pk).2.Get x = none ∨ (i.remove m db k pk).2.Get x = db.Get x := by
    intro k pk
    rcases Index.remove_unique_store m i db k pk hu with h | h
    · rw [h]; exact Or.inr rfl
    · rw [h]
      by_cases hx : x = i.IndexKey k
      · subst hx; exact Or.inl (KVStore.get_delete_self _ _)
      · rw [KVStore.get_delete_other _ _ _ hx]; exact Or.inr rfl
  cases prev with
  | none =>
    cases save with
    | none => exact Or.inr (Or.inr rfl)
    | some s =>
      simp only [Index.Update]
      cases i.index s with
      | error e => exact Or.inr (Or.inr rfl)
      | ok k => exact hins db k s.Key
  | some p =>
    cases save with
    | none =>
      simp only [Index.Update]
      cases i.index p with
      | error e => exact Or.inr (Or.inr rfl)
      | ok k => exact Or.inr (hrem k p.Key)
    | some s =>
      have hmove : i.Update m db (some p) (some s) = i.move m db p s := rfl
      rw [hmove]
      rcases Index.move_cases m i db p s with h | ⟨oldKey, newKey, _, hd, hprobe, hr | hr⟩
      · rw [h]; exact Or.inr (Or.inr rfl)
      · rw [hr.2]; exact Or.inr (Or.inr rfl)
      · obtain ⟨db1, hrm, hmv⟩ := hr
        rw [hmv]
        have hdb1 : db1 = (i.remove m db oldKey p.Key).2 := by rw [hrm]
        by_cases ho : oldKey = []
        · subst ho
          rw [Index.remove_nil] at hdb1
          subst hdb1
          exact hins _ newKey s.Key
        · have hfree : db.Get (i.IndexKey newKey) = none := by
            by_contra hc
            exact hprobe ⟨hu, by simpa using ho, hc⟩
          rcases Index.insert_unique_store m i db1 newKey s.Key hu with h | ⟨_, h⟩
          · rw [h, hdb1]; exact Or.inr (hrem oldKey p.Key)
          · rw [h]
            by_cases hx : x = i.IndexKey newKey
            · subst hx; exact Or.inl hfree
            · rw [KVStore.get_setKey_other _ _ _ _ hx, hdb1]
              exact Or.inr (hrem oldKey p.Key)

/-! ## Properties of `Index.Update` -/

/-- C1: on a unique index, a move whose destination slot is occupied fails with
the uniqueness-constraint error naming the index and leaves the store exactly
as it was, so `GetAt` of the old and of the new secondary key are unchanged. -/
theorem update_move_collision_unique (m : MultiRefImpl) (i : Index) (db : KVStore)
    (prev save : Object) (oldKey newKey : Bytes)
    (hu : i.unique = true) (hpk : prev.Key = save.Key)
    (hold : i.index prev = .ok oldKey) (hnew : i.index save = .ok newKey)
    (hdiff : oldKey ≠ newKey) (hocc : db.Get (i.IndexKey newKey) ≠ none) :
    i.Update m db (some prev) (some save) = (some (Error.ErrUniqueConstraint i.name), db) ∧
      i.GetAt m (i.Update m db (some prev) (some save)).2 oldKey = i.GetAt m db oldKey ∧
      i.GetAt m (i.Update m db (some prev) (some save)).2 newKey = i.GetAt m db newKey := by
  have key : i.Update m db (some prev) (some save)
      = (some (Error.ErrUniqueConstraint i.name), db) := by
    simp only [Index.Update, Index.move, hpk, hold, hnew, hdiff, not_true_eq_false, if_false]
    by_cases ho : oldKey = []
    · subst ho
      have hn : newKey ≠ [] := fun h => hdiff h.symm
      simp [Index.remove_nil, Index.insert_unique_taken m i db newKey save.Key hu hn hocc]
    · simp [hu, ho, hocc]
  rw [key]
  exact ⟨rfl, rfl, rfl⟩

theorem update_move_collision_unique_witness :
    uniqIdx.Update specMultiRef dbOldNew (some atOld) (some atNew)
        = (some (Error.ErrUniqueConstraint (ascii "name")), dbOldNew) ∧
      uniqIdx.GetAt specMultiRef
          (uniqIdx.Update specMultiRef dbOldNew (some atOld) (some atNew)).2 (ascii "old")
        = uniqIdx.GetAt specMultiRef dbOldNew (ascii "old") ∧
      uniqIdx.GetAt specMultiRef
          (uniqIdx.Update specMultiRef dbOldNew (some atOld) (some atNew)).2 (ascii "new")
        = uniqIdx.GetAt specMultiRef dbOldNew (ascii "new") :=
  update_move_collision_unique specMultiRef uniqIdx dbOldNew atOld atNew (ascii "old")
    (ascii "new") rfl rfl rfl rfl (by decide) (by decide)

/-- C2 (as stated, refuted): on the non-unique index "grp", with "pk" registered
under both "old" and "new", moving "pk" from "old" to "new" fails (the
destination MultiRef already has the member) after the old slot has been
deleted: the call returns an error and the store differs from the one before. -/
theorem update_move_nonunique_partial :
    (multiIdx.Update specMultiRef dbDrift (some pkOld) (some pkNew)).1 ≠ none ∧
      (multiIdx.Update specMultiRef dbDrift (some pkOld) (some pkNew)).2 ≠ dbDrift := by
  refine ⟨by decide, fun h => ?_⟩
  have hk := congrFun h (multiIdx.IndexKey (ascii "old"))
  revert hk
  decide

/-- C2 (amended): a failing move leaves the store unchanged on a unique index;
on any index the only other outcome of a failing move is the store produced by
the successful removal of the old mapping (non-unique index, insert failed
afterwards). -/
theorem update_move_failure_effect (m : MultiRefImpl) (i : Index) (db : KVStore)
    (prev save : Object)
    (herr : (i.Update m db (some prev) (some save)).1 ≠ none) :
    (i.unique = true → (i.Update m db (some prev) (some save)).2 = db) ∧
      ((i.Update m db (some prev) (some save)).2 = db ∨
        (i.unique = false ∧ ∃ oldKey, i.index prev = .ok oldKey ∧
          i.remove m db oldKey prev.Key
            = (none, (i.Update m db (some prev) (some save)).2))) := by
  have hmove : i.Update m db (some prev) (some save) = i.move m db prev save := rfl
  rw [hmove] at herr ⊢
  rcases Index.move_cases m i db prev save with h | ⟨oldKey, newKey, hold, hd, hprobe, hr | hr⟩
  · exact ⟨fun _ => h, Or.inl h⟩
  · exact ⟨fun _ => hr.2, Or.inl hr.2⟩
  · obtain ⟨db1, hrem, hins⟩ := hr
    rw [hins] at herr ⊢
    have hsame : (i.insert m db1 newKey save.Key).2 = db1 :=
      (Index.insert_ok_or_same m i db1 newKey save.Key).resolve_left herr
    by_cases hu : i.unique = true
    · have hdb : db1 = db := by
        by_cases ho : oldKey = []
        · subst ho
          rw [Index.remove_nil] at hrem
          exact (congrArg Prod.snd hrem).symm
        · exfalso
          have hfree : db.Get (i.IndexKey newKey) = none := by
            by_contra hc
            exact hprobe ⟨hu, by simpa using ho, hc⟩
          rcases Index.remove_unique_cases m i db oldKey prev.Key hu ho with ⟨_, h1⟩ | ⟨_, h1⟩
          · rw [h1] at hrem
            have hdb1 : db1 = db.Delete (i.IndexKey oldKey) := (congrArg Prod.snd hrem).symm
            by_cases hn : newKey = []
            · subst hn
              rw [Index.insert_nil] at herr
              exact herr rfl
            · have hfree1 : db1.Get (i.IndexKey newKey) = none := by
                rw [hdb1, KVStore.get_delete_other _ _ _
                  (fun h => hd ((Index.IndexKey_inj i _ _).mp h).symm)]
                exact hfree
              rw [Index.insert_unique_free m i db1 newKey save.Key hu hn hfree1] at herr
              exact herr rfl
          · rw [h1] at hrem
            exact absurd (congrArg Prod.fst hrem) (by simp)
      rw [hsame, hdb]
      exact ⟨fun _ => rfl, Or.inl rfl⟩
    · refine ⟨fun h => absurd h hu, Or.inr ⟨by simpa using hu, oldKey, hold, ?_⟩⟩
      rw [hsame]
      exact hrem

theorem update_move_failure_effect_witness :
    (uniqIdx.unique = true →
        (uniqIdx.Update specMultiRef dbOldNew (some atOld) (some atNew)).2 = dbOldNew) ∧
      ((uniqIdx.Update specMultiRef dbOldNew (some atOld) (some atNew)).2 = dbOldNew ∨
        (uniqIdx.unique = false ∧ ∃ oldKey, uniqIdx.index atOld = .ok oldKey ∧
          uniqIdx.remove specMultiRef dbOldNew oldKey atOld.Key
            = (none, (uniqIdx.Update specMultiRef dbOldNew (some atOld) (some atNew)).2))) :=
  update_move_failure_effect specMultiRef uniqIdx dbOldNew atOld atNew (by decide)

/-- C3: on a unique index, `GetAt` of any secondary key has at most one element
before and after any `Update`, and a key that resolved to `[p]` before the call
and is non-empty after it still resolves to `[p]`. -/
theorem update_unique_step_invariant (m : MultiRefImpl) (i : Index) (db : KVStore)
    (prev save : Option Object) (k : Bytes) (hu : i.unique = true) :
    (∃ l, i.GetAt m db k = .ok l ∧ l.length ≤ 1) ∧
      (∃ l, i.GetAt m (i.Update m db prev save).2 k = .ok l ∧ l.length ≤ 1) ∧
      ∀ p, i.GetAt m db k = .ok [p] →
        i.GetAt m (i.Update m db prev save).2 k ≠ .ok [] →
        i.GetAt m (i.Update m db prev save).2 k = .ok [p] := by
  have hget : ∀ d : KVStore, i.GetAt m d k
      = match d.Get (i.IndexKey k) with
        | none => .ok []
        | some v => .ok [v] := by
    intro d
    cases h : d.Get (i.IndexKey k) <;> simp [Index.GetAt, hu, h]
  have hlen : ∀ d : KVStore, ∃ l, i.GetAt m d k = .ok l ∧ l.length ≤ 1 := by
    intro d
    rw [hget d]
    cases d.Get (i.IndexKey k) with
    | none => exact ⟨[], rfl, by simp⟩
    | some v => exact ⟨[v], rfl, by simp⟩
  refine ⟨hlen db, hlen _, ?_⟩
  intro p hbefore hafter
  rw [hget] at hbefore hafter ⊢
  rcases Index.update_unique_slot m i db prev save hu (i.IndexKey k) with h | h | h
  · rw [h] at hbefore; simp at hbefore
  · rw [h] at hafter; simp at hafter
  · rw [h]; exact hbefore

theorem update_unique_step_invariant_witness :
    (∃ l, uniqIdx.GetAt specMultiRef dbOldNew (ascii "new") = .ok l ∧ l.length ≤ 1) ∧
      (∃ l, uniqIdx.GetAt specMultiRef
          (uniqIdx.Update specMultiRef dbOldNew (some atOld) (some atNew)).2 (ascii "new")
            = .ok l ∧ l.length ≤ 1) ∧
      ∀ p, uniqIdx.GetAt specMultiRef dbOldNew (ascii "new") = .ok [p] →
        uniqIdx.GetAt specMultiRef
          (uniqIdx.Update specMultiRef dbOldNew (some atOld) (some atNew)).2 (ascii "new")
            ≠ .ok [] →
        uniqIdx.GetAt specMultiRef
          (uniqIdx.Update specMultiRef dbOldNew (some atOld) (some atNew)).2 (ascii "new")
            = .ok [p] :=
  update_unique_step_invariant specMultiRef uniqIdx dbOldNew (some atOld) (some atNew)
    (ascii "new") rfl

/-- C4: on a unique index, inserting at a non-empty secondary key whose slot is
occupied fails with the uniqueness-constraint error carrying the index name and
leaves the store unchanged, so `GetAt` still returns the stored primary key. -/
theorem update_insert_collision_unique (m : MultiRefImpl) (i : Index) (db : KVStore)
    (save : Object) (k p : Bytes) (hu : i.unique = true)
    (hk : i.index save = .ok k) (hne : k.length ≠ 0)
    (hocc : db.Get (i.IndexKey k) = some p) :
    i.Update m db none (some save) = (some (Error.ErrUniqueConstraint i.name), db) ∧
      i.GetAt m (i.Update m db none (some save)).2 k = .ok [p] := by
  have hk0 : k ≠ [] := by simpa using hne
  have hupd : i.Update m db none (some save)
      = (some (Error.ErrUniqueConstraint i.name), db) := by
    simp only [Index.Update, hk]
    exact Index.insert_unique_taken m i db k save.Key hu hk0 (by rw [hocc]; simp)
  rw [hupd]
  exact ⟨rfl, Index.GetAt_unique_present m i db k p hu hocc⟩

theorem update_insert_collision_unique_witness :
    uniqIdx.Update specMultiRef
          (uniqIdx.Update specMultiRef KVStore.empty none (some alice1)).2 none (some alice2)
        = (some (Error.ErrUniqueConstraint (ascii "name")),
            (uniqIdx.Update specMultiRef KVStore.empty none (some alice1)).2) ∧
      uniqIdx.GetAt specMultiRef
          (uniqIdx.Update specMultiRef
            (uniqIdx.Update specMultiRef KVStore.empty none (some alice1)).2
            none (some alice2)).2
          (ascii "alice") = .ok [ascii "pk1"] :=
  update_insert_collision_unique specMultiRef uniqIdx
    (uniqIdx.Update specMultiRef KVStore.empty none (some alice1)).2 alice2 (ascii "alice")
    (ascii "pk1") rfl rfl (by decide) (by decide)

/-- C5 (as stated, refuted): on the unique index "name" and the empty store,
the object `nilAlice` has the non-empty secondary key "alice", whose slot is
absent, and its `Key()` is nil. The insert returns no error and does
`db.Set(key, nil)`: the slot reads back as nil, so `GetAt` returns the empty
result, not the one-element result, and the index then accepts a second object
at "alice". -/
theorem update_insert_nil_key_unique :
    uniqIdx.index nilAlice = .ok (ascii "alice") ∧ (ascii "alice").length ≠ 0 ∧
      KVStore.empty.Get (uniqIdx.IndexKey (ascii "alice")) = none ∧
      (uniqIdx.Update specMultiRef KVStore.empty none (some nilAlice)).1 = none ∧
      uniqIdx.GetAt specMultiRef
          (uniqIdx.Update specMultiRef KVStore.empty none (some nilAlice)).2 (ascii "alice")
        = .ok [] ∧
      uniqIdx.GetAt specMultiRef
          (uniqIdx.Update specMultiRef KVStore.empty none (some nilAlice)).2 (ascii "alice")
        ≠ .ok [nilAlice.Key] ∧
      (uniqIdx.Update specMultiRef
          (uniqIdx.Update specMultiRef KVStore.empty none (some nilAlice)).2
          none (some alice2)).1 = none := by
  refine ⟨rfl, by decide, rfl, rfl, rfl, ?_, rfl⟩
  intro h
  have h1 : uniqIdx.GetAt specMultiRef
      (uniqIdx.Update specMultiRef KVStore.empty none (some nilAlice)).2 (ascii "alice")
      = .ok [] := rfl
  rw [h1] at h
  cases h

/-- C5 (amended): on a unique index, inserting an object whose primary key is
not empty at a non-empty secondary key whose slot is absent returns no error;
afterwards the slot holds the object's primary key, `GetAt` returns exactly
that key, and every other store key is unchanged. -/
theorem update_insert_success_unique (m : MultiRefImpl) (i : Index) (db : KVStore)
    (save : Object) (k : Bytes) (hu : i.unique = true)
    (hk : i.index save = .ok k) (hne : k.length ≠ 0)
    (hfree : db.Get (i.IndexKey k) = none) (hpk0 : save.Key ≠ []) :
    (i.Update m db none (some save)).1 = none ∧
      (i.Update m db none (some save)).2.Get (i.IndexKey k) = some save.Key ∧
      i.GetAt m (i.Update m db none (some save)).2 k = .ok [save.Key] ∧
      ∀ x, x ≠ i.IndexKey k → (i.Update m db none (some save)).2.Get x = db.Get x := by
  have hk0 : k ≠ [] := by simpa using hne
  have hupd : i.Update m db none (some save) = (none, db.SetKey (i.IndexKey k) save.Key) := by
    simp only [Index.Update, hk]
    exact Index.insert_unique_free m i db k save.Key hu hk0 hfree
  rw [hupd]
  refine ⟨rfl, KVStore.get_setKey_self _ _ _ hpk0, ?_,
    fun x hx => KVStore.get_setKey_other _ _ _ _ hx⟩
  exact Index.GetAt_unique_present m i _ k save.Key hu (KVStore.get_setKey_self _ _ _ hpk0)

/-- Instance of the insert: "pk1" at "alice" into the empty store. -/
theorem update_insert_success_unique_witness :
    (uniqIdx.Update specMultiRef KVStore.empty none (some alice1)).1 = none ∧
      (uniqIdx.Update specMultiRef KVStore.empty none (some alice1)).2.Get
        (uniqIdx.IndexKey (ascii "alice")) = some alice1.Key ∧
      uniqIdx.GetAt specMultiRef (uniqIdx.Update specMultiRef KVStore.empty none (some alice1)).2
        (ascii "alice") = .ok [alice1.Key] ∧
      ∀ x, x ≠ uniqIdx.IndexKey (ascii "alice") →
        (uniqIdx.Update specMultiRef KVStore.empty none (some alice1)).2.Get x
          = KVStore.empty.Get x :=
  update_insert_success_unique specMultiRef uniqIdx KVStore.empty alice1 (ascii "alice")
    rfl rfl (by decide) rfl (by decide)

/-- C6: on a unique index, removing at a non-empty secondary key fails with the
remove-of-unregistered-entry error exactly when the slot is absent or holds
bytes other than the object's primary key; a failing remove leaves the store
unchanged. -/
theorem update_remove_unregistered_unique (m : MultiRefImpl) (i : Index) (db : KVStore)
    (prev : Object) (k : Bytes) (hu : i.unique = true)
    (hk : i.index prev = .ok k) (hne : k.length ≠ 0) :
    ((i.Update m db (some prev) none).1 = some Error.ErrRemoveUnregistered ↔
        (db.Get (i.IndexKey k) = none ∨
          ∃ v, db.Get (i.IndexKey k) = some v ∧ v ≠ prev.Key)) ∧
      ((i.Update m db (some prev) none).1 ≠ none →
        (i.Update m db (some prev) none).2 = db) := by
  have hk0 : k ≠ [] := by simpa using hne
  have hupd : i.Update m db (some prev) none = i.remove m db k prev.Key := by
    simp only [Index.Update, hk]
  rw [hupd]
  rcases Index.remove_unique_cases m i db k prev.Key hu hk0 with ⟨hs, h⟩ | ⟨hs, h⟩
  · rw [h]
    refine ⟨⟨fun hc => by simp at hc, ?_⟩, fun hc => absurd rfl hc⟩
    rintro (hc | ⟨v, hv, hvne⟩)
    · rw [hs] at hc; simp at hc
    · rw [hs] at hv
      exact absurd (Option.some.inj hv).symm hvne
  · rw [h]
    refine ⟨⟨fun _ => ?_, fun _ => rfl⟩, fun _ => rfl⟩
    cases hg : db.Get (i.IndexKey k) with
    | none => exact Or.inl rfl
    | some v =>
      refine Or.inr ⟨v, rfl, fun hv => hs ?_⟩
      rw [hg, hv]

theorem update_remove_unregistered_unique_witness :
    ((uniqIdx.Update specMultiRef dbAlice (some alice2) none).1
          = some Error.ErrRemoveUnregistered ↔
        (dbAlice.Get (uniqIdx.IndexKey (ascii "alice")) = none ∨
          ∃ v, dbAlice.Get (uniqIdx.IndexKey (ascii "alice")) = some v ∧ v ≠ alice2.Key)) ∧
      ((uniqIdx.Update specMultiRef dbAlice (some alice2) none).1 ≠ none →
        (uniqIdx.Update specMultiRef dbAlice (some alice2) none).2 = dbAlice) :=
  update_remove_unregistered_unique specMultiRef uniqIdx dbAlice alice2 (ascii "alice")
    rfl rfl (by decide)

/-- C7: on a unique index, removing at a non-empty secondary key whose slot holds
exactly the object's primary key returns no error; afterwards the slot is
absent, `GetAt` is empty, and every other store key is unchanged. -/
theorem update_remove_success_unique (m : MultiRefImpl) (i : Index) (db : KVStore)
    (prev : Object) (k : Bytes) (hu : i.unique = true)
    (hk : i.index prev = .ok k) (hne : k.length ≠ 0)
    (hslot : db.Get (i.IndexKey k) = some prev.Key) :
    (i.Update m db (some prev) none).1 = none ∧
      (i.Update m db (some prev) none).2.Get (i.IndexKey k) = none ∧
      i.GetAt m (i.Update m db (some prev) none).2 k = .ok [] ∧
      ∀ x, x ≠ i.IndexKey k → (i.Update m db (some prev) none).2.Get x = db.Get x := by
  have hk0 : k ≠ [] := by simpa using hne
  have hupd : i.Update m db (some prev) none = (none, db.Delete (i.IndexKey k)) := by
    simp only [Index.Update, hk]
    rcases Index.remove_unique_cases m i db k prev.Key hu hk0 with ⟨_, h⟩ | ⟨hs, _⟩
    · exact h
    · exact absurd hslot hs
  rw [hupd]
  refine ⟨rfl, KVStore.get_delete_self _ _, ?_, fun x hx => KVStore.get_delete_other _ _ _ hx⟩
  exact Index.GetAt_absent m i _ k (KVStore.get_delete_self _ _)

theorem update_remove_success_unique_witness :
    (uniqIdx.Update specMultiRef dbAlice (some alice1) none).1 = none ∧
      (uniqIdx.Update specMultiRef dbAlice (some alice1) none).2.Get
        (uniqIdx.IndexKey (ascii "alice")) = none ∧
      uniqIdx.GetAt specMultiRef (uniqIdx.Update specMultiRef dbAlice (some alice1) none).2
        (ascii "alice") = .ok [] ∧
      ∀ x, x ≠ uniqIdx.IndexKey (ascii "alice") →
        (uniqIdx.Update specMultiRef dbAlice (some alice1) none).2.Get x = dbAlice.Get x :=
  update_remove_success_unique specMultiRef uniqIdx dbAlice alice1 (ascii "alice")
    rfl rfl (by decide) (by decide)

/-- C8 (as stated, refuted): on the unique index "name", the objects `nilOld`
and `nilNew` have the same primary key, nil, and the different non-empty
secondary keys "old" and "new"; in `dbEmptyOld` the slot of "old" holds a value
equal to that key (`bytes.Equal` of an empty value and nil) and the slot of
"new" is absent. The move returns no error, deletes the old slot and does
`db.Set(key, nil)` on the new one, which reads back as nil: `GetAt` of "new"
is the empty result, not the primary key alone. -/
theorem update_move_nil_key_unique :
    nilOld.Key = nilNew.Key ∧
      uniqIdx.index nilOld = .ok (ascii "old") ∧ uniqIdx.index nilNew = .ok (ascii "new") ∧
      ascii "old" ≠ ascii "new" ∧ (ascii "old").length ≠ 0 ∧ (ascii "new").length ≠ 0 ∧
      dbEmptyOld.Get (uniqIdx.IndexKey (ascii "old")) = some nilOld.Key ∧
      dbEmptyOld.Get (uniqIdx.IndexKey (ascii "new")) = none ∧
      (uniqIdx.Update specMultiRef dbEmptyOld (some nilOld) (some nilNew)).1 = none ∧
      uniqIdx.GetAt specMultiRef
          (uniqIdx.Update specMultiRef dbEmptyOld (some nilOld) (some nilNew)).2 (ascii "new")
        = .ok [] ∧
      uniqIdx.GetAt specMultiRef
          (uniqIdx.Update specMultiRef dbEmptyOld (some nilOld) (some nilNew)).2 (ascii "new")
        ≠ .ok [nilOld.Key] := by
  refine ⟨rfl, rfl, rfl, by decide, by decide, by decide, by decide, by decide, rfl, rfl, ?_⟩
  intro h
  have h1 : uniqIdx.GetAt specMultiRef
      (uniqIdx.Update specMultiRef dbEmptyOld (some nilOld) (some nilNew)).2 (ascii "new")
      = .ok [] := rfl
  rw [h1] at h
  cases h

/-- C8 (amended): on a unique index, moving an object whose primary key is not
empty between two different non-empty secondary keys, with the old slot holding
its primary key and the new slot absent, returns no error; afterwards `GetAt`
of the old key is empty, `GetAt` of the new key is the primary key alone, and
no other store key has changed. -/
theorem update_move_success_unique (m : MultiRefImpl) (i : Index) (db : KVStore)
    (prev save : Object) (oldKey newKey : Bytes)
    (hu : i.unique = true) (hpk : prev.Key = save.Key)
    (hold : i.index prev = .ok oldKey) (hnew : i.index save = .ok newKey)
    (hdiff : oldKey ≠ newKey) (ho : oldKey.length ≠ 0) (hn : newKey.length ≠ 0)
    (hslot : db.Get (i.IndexKey oldKey) = some prev.Key)
    (hfree : db.Get (i.IndexKey newKey) = none) (hpk0 : prev.Key ≠ []) :
    (i.Update m db (some prev) (some save)).1 = none ∧
      i.GetAt m (i.Update m db (some prev) (some save)).2 oldKey = .ok [] ∧
      i.GetAt m (i.Update m db (some prev) (some save)).2 newKey = .ok [prev.Key] ∧
      ∀ x, x ≠ i.IndexKey oldKey → x ≠ i.IndexKey newKey →
        (i.Update m db (some prev) (some save)).2.Get x = db.Get x := by
  have ho0 : oldKey ≠ [] := by simpa using ho
  have hn0 : newKey ≠ [] := by simpa using hn
  have hkeys : i.IndexKey newKey ≠ i.IndexKey oldKey :=
    fun h => hdiff ((Index.IndexKey_inj i _ _).mp h).symm
  have hrem : i.remove m db oldKey prev.Key = (none, db.Delete (i.IndexKey oldKey)) := by
    rcases Index.remove_unique_cases m i db oldKey prev.Key hu ho0 with ⟨_, h⟩ | ⟨hs, _⟩
    · exact h
    · exact absurd hslot hs
  have hfree1 : (db.Delete (i.IndexKey oldKey)).Get (i.IndexKey newKey) = none := by
    rw [KVStore.get_delete_other _ _ _ hkeys]
    exact hfree
  have hupd : i.Update m db (some prev) (some save)
      = (none, (db.Delete (i.IndexKey oldKey)).SetKey (i.IndexKey newKey) prev.Key) := by
    have hprobe : ¬ (i.unique = true ∧ oldKey.length ≠ 0 ∧
        db.Get (i.IndexKey newKey) ≠ none) := fun h => h.2.2 hfree
    simp only [Index.Update, Index.move, hold, hnew, hdiff, hpk, not_true_eq_false, if_false]
    rw [if_neg hprobe, ← hpk, hrem]
    exact Index.insert_unique_free m i _ newKey prev.Key hu hn0 hfree1
  rw [hupd]
  refine ⟨rfl, ?_, ?_, ?_⟩
  · apply Index.GetAt_absent
    rw [KVStore.get_setKey_other _ _ _ _ hkeys.symm]
    exact KVStore.get_delete_self _ _
  · exact Index.GetAt_unique_present m i _ newKey prev.Key hu
      (KVStore.get_setKey_self _ _ _ hpk0)
  · intro x hxo hxn
    show (KVStore.SetKey (db.Delete (i.IndexKey oldKey)) (i.IndexKey newKey) prev.Key).Get x
      = db.Get x
    rw [KVStore.get_setKey_other _ _ _ _ hxn, KVStore.get_delete_other _ _ _ hxo]

/-- Instance of the move: "pk1" from "old" to "new". -/
theorem update_move_success_unique_witness :
    (uniqIdx.Update specMultiRef dbOld (some atOld) (some atNew)).1 = none ∧
      uniqIdx.GetAt specMultiRef (uniqIdx.Update specMultiRef dbOld (some atOld) (some atNew)).2
        (ascii "old") = .ok [] ∧
      uniqIdx.GetAt specMultiRef (uniqIdx.Update specMultiRef dbOld (some atOld) (some atNew)).2
        (ascii "new") = .ok [atOld.Key] ∧
      ∀ x, x ≠ uniqIdx.IndexKey (ascii "old") → x ≠ uniqIdx.IndexKey (ascii "new") →
        (uniqIdx.Update specMultiRef dbOld (some atOld) (some atNew)).2.Get x = dbOld.Get x :=
  update_move_success_unique specMultiRef uniqIdx dbOld atOld atNew (ascii "old") (ascii "new")
    rfl rfl rfl rfl (by decide) (by decide) (by decide) (by decide) (by decide) (by decide)

/-- C9: on any index, an `Update` whose two objects have equal primary keys and
equal secondary keys returns no error and leaves the store unchanged, whatever
the slot contains. -/
theorem update_same_key_noop (m : MultiRefImpl) (i : Index) (db : KVStore)
    (prev save : Object) (k : Bytes) (hpk : prev.Key = save.Key)
    (hold : i.index prev = .ok k) (hnew : i.index save = .ok k) :
    i.Update m db (some prev) (some save) = (none, db) := by
  simp [Index.Update, Index.move, hpk, hold, hnew]

theorem update_same_key_noop_witness :
    multiIdx.Update specMultiRef dbDrift (some pkOld) (some pkOld) = (none, dbDrift) :=
  update_same_key_noop specMultiRef multiIdx dbDrift pkOld pkOld (ascii "old") rfl rfl rfl

/-- C10: on any index, when the indexer returns a zero-length secondary key for
an object, both inserting it and removing it return no error and leave the
store unchanged. -/
theorem update_empty_key_skip (m : MultiRefImpl) (i : Index) (db : KVStore)
    (obj : Object) (k : Bytes) (hk : i.index obj = .ok k) (hz : k.length = 0) :
    i.Update m db none (some obj) = (none, db) ∧
      i.Update m db (some obj) none = (none, db) := by
  have hk0 : k = [] := by simpa using hz
  subst hk0
  simp [Index.Update, hk, Index.insert_nil, Index.remove_nil]

theorem update_empty_key_skip_witness :
    multiIdx.Update specMultiRef dbDrift none (some noKey) = (none, dbDrift) ∧
      multiIdx.Update specMultiRef dbDrift (some noKey) none = (none, dbDrift) :=
  update_empty_key_skip specMultiRef multiIdx dbDrift noKey [] rfl rfl

end orm

/-! ## Origin of the errors of `Index.Update` -/

namespace orm

/-- An error of `insert` is the uniqueness violation of this index or comes
from a MultiRef operation. -/
theorem Index.insert_error_origin (m : MultiRefImpl) (i : Index) (db : KVStore)
    (index pk : Bytes) (e : Error) (h : (i.insert m db index pk).1 = some e) :
    e = Error.ErrUniqueConstraint i.name ∨ m.Returns e := by
  unfold Index.insert at h
  dsimp only at h
  split at h
  · simp at h
  · split at h
    · split at h
      · simp at h; exact Or.inl h.symm
      · simp at h
    · split at h
      · rename_i err heq
        simp at h; subst h
        split at heq
        · simp at heq
        · exact Or.inr (Or.inl ⟨_, heq⟩)
      · split at h
        · rename_i err heq
          simp at h; subst h
          exact Or.inr (Or.inr (Or.inr (Or.inl ⟨_, _, heq⟩)))
        · split at h
          · rename_i err heq
            simp at h; subst h
            exact Or.inr (Or.inr (Or.inl ⟨_, heq⟩))
          · simp at h

/-- An error of `remove` is the remove-of-unregistered-entry error or comes
from a MultiRef operation. -/
theorem Index.remove_error_origin (m : MultiRefImpl) (i : Index) (db : KVStore)
    (index pk : Bytes) (e : Error) (h : (i.remove m db index pk).1 = some e) :
    e = Error.ErrRemoveUnregistered ∨ m.Returns e := by
  unfold Index.remove at h
  dsimp only at h
  split at h
  · simp at h
  · split at h
    · simp at h; exact Or.inl h.symm
    · split at h
      · split at h
        · simp at h; exact Or.inl h.symm
        · simp at h
      · split at h
        · rename_i err heq
          simp at h; subst h
          exact Or.inr (Or.inl ⟨_, heq⟩)
        · split at h
          · rename_i err heq
            simp at h; subst h
            exact Or.inr (Or.inr (Or.inr (Or.inr ⟨_, _, heq⟩)))
          · split at h
            · simp at h
            · split at h
              · rename_i err heq
                simp at h; subst h
                exact Or.inr (Or.inr (Or.inl ⟨_, heq⟩))
              · simp at h

/-- An error of `move` is one of the three errors built in `index.go`, or the
indexer returned it on one of the two objects, or it comes from a MultiRef
operation. -/
theorem Index.move_error_origin (m : MultiRefImpl) (i : Index) (db : KVStore)
    (prev save : Object) (e : Error) (h : (i.move m db prev save).1 = some e) :
    e = Error.ErrModifiedPK ∨ e = Error.ErrUniqueConstraint i.name ∨
      e = Error.ErrRemoveUnregistered ∨ i.HandsThrough m (some prev) (some save) e := by
  unfold Index.move at h
  split at h
  · simp at h; exact Or.inl h.symm
  · split at h
    · rename_i err heq
      simp at h; subst h
      exact Or.inr (Or.inr (Or.inr (Or.inl ⟨prev, Or.inl rfl, heq⟩)))
    · split at h
      · rename_i err heq
        simp at h; subst h
        exact Or.inr (Or.inr (Or.inr (Or.inl ⟨save, Or.inr rfl, heq⟩)))
      · split at h
        · simp at h
        · split at h
          · simp at h; exact Or.inr (Or.inl h.symm)
          · split at h
            · rename_i err db1 heq
              simp at h; subst h
              rcases Index.remove_error_origin m i db _ _ err (by rw [heq]) with h1 | h1
              · exact Or.inr (Or.inr (Or.inl h1))
              · exact Or.inr (Or.inr (Or.inr (Or.inr h1)))
            · rcases Index.insert_error_origin m i _ _ _ e h with h1 | h1
              · exact Or.inr (Or.inl h1)
              · exact Or.inr (Or.inr (Or.inr (Or.inr h1)))

end orm

namespace orm

theorem MultiRef.Marshal_error (refs : List Bytes) (e : Error)
    (h : MultiRef.Marshal refs = .error e) : ∃ msg, e = Error.Other msg := by
  induction refs with
  | nil => simp [MultiRef.Marshal] at h
  | cons r rs ih =>
    unfold MultiRef.Marshal at h
    split at h
    · split at h
      · rename_i err heq
        simp at h; subst h
        exact ih heq
      · simp at h
    · simp at h
      exact ⟨_, h.symm⟩

theorem MultiRef.unmarshalAux_error (fuel : Nat) (bz : Bytes) (e : Error)
    (h : MultiRef.unmarshalAux fuel bz = .error e) : ∃ msg, e = Error.Other msg := by
  induction fuel generalizing bz with
  | zero =>
    cases bz with
    | nil => simp [MultiRef.unmarshalAux] at h
    | cons b bs => simp [MultiRef.unmarshalAux] at h; exact ⟨_, h.symm⟩
  | succ n ih =>
    cases bz with
    | nil => simp [MultiRef.unmarshalAux] at h
    | cons b bs =>
      unfold MultiRef.unmarshalAux at h
      split at h
      · simp at h; exact ⟨_, h.symm⟩
      · split at h
        · rename_i err heq
          simp at h; subst h
          exact ih _ heq
        · simp at h

/-- The errors that the sample MultiRef returns are the unregistered-reference
error and messages. -/
theorem specMultiRef_returns (e : Error) (h : specMultiRef.Returns e) :
    e = Error.ErrRemoveUnregistered ∨ ∃ msg, e = Error.Other msg := by
  rcases h with ⟨bz, h⟩ | ⟨refs, h⟩ | ⟨refs, r, h⟩ | ⟨refs, r, h⟩
  · exact Or.inr (MultiRef.unmarshalAux_error _ _ _ h)
  · exact Or.inr (MultiRef.Marshal_error _ _ h)
  · simp only [specMultiRef, MultiRef.Add] at h
    split at h
    · simp at h; exact Or.inl h.symm
    · simp at h
  · simp only [specMultiRef, MultiRef.Remove] at h
    split at h
    · simp at h
    · simp at h; exact Or.inl h.symm

end orm

/-! ## Caller-contract errors and removal of the last MultiRef member -/

namespace orm

/-- C11: on any index, an `Update` with both objects present and different
primary keys fails with the modified-primary-key error and leaves the store
unchanged. -/
theorem update_modified_pk (m : MultiRefImpl) (i : Index) (db : KVStore)
    (prev save : Object) (hpk : prev.Key ≠ save.Key) :
    i.Update m db (some prev) (some save) = (some Error.ErrModifiedPK, db) := by
  simp [Index.Update, Index.move, hpk]

/-- Instance of the modified-primary-key failure: "pk1" at "alice" against
"pk2" at "alice". -/
theorem update_modified_pk_witness :
    uniqIdx.Update specMultiRef dbAlice (some alice1) (some alice2)
      = (some Error.ErrModifiedPK, dbAlice) :=
  update_modified_pk specMultiRef uniqIdx dbAlice alice1 alice2 (by decide)

/-- C12 (as stated, refuted): with an indexer that fails with the update-nil
error, an insert returns that error although the object to save is present. -/
theorem update_nil_error_from_indexer :
    (nilErrIdx.Update specMultiRef KVStore.empty none (some alice1)).1
        = some Error.ErrUpdateNil ∧
      ¬ ((none : Option Object) = none ∧ some alice1 = none) := by
  exact ⟨rfl, fun h => by cases h.2⟩

/-- C12 (amended): `Update` with both objects nil fails with the update-nil
error and leaves the store unchanged. When `Update` returns the update-nil
error, either both objects are nil, or the indexer returned that error on one
of the two objects or a MultiRef operation returns it; when `Update` returns
the boolean-logic error, the indexer or a MultiRef operation returned it, the
trailing return being unreachable. An error of the indexer on the object of an
insert, of a delete, or on the previous object of a move with equal primary
keys, is returned unchanged with the store unchanged. -/
theorem update_nil_nil (m : MultiRefImpl) (i : Index) (db : KVStore)
    (prev save : Option Object) :
    i.Update m db none none = (some Error.ErrUpdateNil, db) ∧
      ((i.Update m db prev save).1 = some Error.ErrUpdateNil →
        (prev = none ∧ save = none) ∨ i.HandsThrough m prev save Error.ErrUpdateNil) ∧
      ((i.Update m db prev save).1 = some Error.ErrBoolean →
        i.HandsThrough m prev save Error.ErrBoolean) ∧
      (∀ (o : Object) (e : Error), i.index o = .error e →
        i.Update m db none (some o) = (some e, db) ∧
        i.Update m db (some o) none = (some e, db) ∧
        ∀ s : Object, o.Key = s.Key → i.Update m db (some o) (some s) = (some e, db)) := by
  have horigin : ∀ e, (i.Update m db prev save).1 = some e →
      (prev = none ∧ save = none ∧ e = Error.ErrUpdateNil) ∨ e = Error.ErrModifiedPK ∨
        e = Error.ErrUniqueConstraint i.name ∨ e = Error.ErrRemoveUnregistered ∨
        i.HandsThrough m prev save e := by
    intro e h
    cases prev with
    | none =>
      cases save with
      | none =>
        simp [Index.Update] at h
        exact Or.inl ⟨rfl, rfl, h.symm⟩
      | some s =>
        simp only [Index.Update] at h
        split at h
        · rename_i err heq
          simp at h; subst h
          exact Or.inr (Or.inr (Or.inr (Or.inr (Or.inl ⟨s, Or.inr rfl, heq⟩))))
        · rcases Index.insert_error_origin m i db _ _ e h with h1 | h1
          · exact Or.inr (Or.inr (Or.inl h1))
          · exact Or.inr (Or.inr (Or.inr (Or.inr (Or.inr h1))))
    | some p =>
      cases save with
      | none =>
        simp only [Index.Update] at h
        split at h
        · rename_i err heq
          simp at h; subst h
          exact Or.inr (Or.inr (Or.inr (Or.inr (Or.inl ⟨p, Or.inl rfl, heq⟩))))
        · rcases Index.remove_error_origin m i db _ _ e h with h1 | h1
          · exact Or.inr (Or.inr (Or.inr (Or.inl h1)))
          · exact Or.inr (Or.inr (Or.inr (Or.inr (Or.inr h1))))
      | some s =>
        exact Or.inr (Index.move_error_origin m i db p s e h)
  refine ⟨rfl, fun h => ?_, fun h => ?_, fun o e ho => ⟨?_, ?_, fun s hs => ?_⟩⟩
  · rcases horigin _ h with h1 | h1 | h1 | h1 | h1
    · exact Or.inl ⟨h1.1, h1.2.1⟩
    · cases h1
    · cases h1
    · cases h1
    · exact Or.inr h1
  · rcases horigin _ h with h1 | h1 | h1 | h1 | h1
    · cases h1.2.2
    · cases h1
    · cases h1
    · cases h1
    · exact h1
  · simp [Index.Update, ho]
  · simp [Index.Update, ho]
  · simp [Index.Update, Index.move, ho, hs]

/-- Instance of the both-sides-nil theorem. On the index whose indexer fails
with the update-nil error, a delete returns that error, and its origin is the
indexer on the object of the call; on the unique index "name" with the sample
MultiRef, an insert does not return the update-nil error. -/
theorem update_nil_nil_witness :
    ((nilErrIdx.Update specMultiRef dbAlice (some alice2) none).1 = some Error.ErrUpdateNil ∧
        ((some alice2 = none ∧ (none : Option Object) = none) ∨
          nilErrIdx.HandsThrough specMultiRef (some alice2) none Error.ErrUpdateNil)) ∧
      (uniqIdx.Update specMultiRef dbAlice none (some alice2)).1 ≠ some Error.ErrUpdateNil :=
  ⟨⟨rfl, (update_nil_nil specMultiRef nilErrIdx dbAlice (some alice2) none).2.1 rfl⟩,
    fun h => by
      rcases (update_nil_nil specMultiRef uniqIdx dbAlice none (some alice2)).2.1 h with
        h1 | ⟨o, _, h1⟩ | h1
      · cases h1.2
      · cases h1
      · rcases specMultiRef_returns _ h1 with h2 | ⟨_, h2⟩ <;> cases h2⟩

/-- C13: on a non-unique index, removing the only member of the MultiRef stored
at a non-empty secondary key succeeds and deletes the slot: afterwards the slot
is absent and `GetAt` returns the empty result. -/
theorem update_remove_last_member (m : MultiRefImpl) (i : Index) (db : KVStore)
    (prev : Object) (k cur : Bytes) (data data1 : List Bytes)
    (hu : i.unique = false) (hk : i.index prev = .ok k) (hne : k.length ≠ 0)
    (hslot : db.Get (i.IndexKey k) = some cur) (hdec : m.Unmarshal cur = .ok data)
    (hrem : m.Remove data prev.Key = .ok data1) (hsize : m.Size data1 = 0) :
    (i.Update m db (some prev) none).1 = none ∧
      (i.Update m db (some prev) none).2 = db.Delete (i.IndexKey k) ∧
      (i.Update m db (some prev) none).2.Get (i.IndexKey k) = none ∧
      i.GetAt m (i.Update m db (some prev) none).2 k = .ok [] := by
  have hupd : i.Update m db (some prev) none = (none, db.Delete (i.IndexKey k)) := by
    simp only [Index.Update, hk, Index.remove, hne, if_false, hslot, hu, hdec, hrem, hsize]
    simp
  rw [hupd]
  exact ⟨rfl, rfl, KVStore.get_delete_self _ _,
    Index.GetAt_absent m i _ k (KVStore.get_delete_self _ _)⟩

/-- Instance of the last-member removal: non-unique index "grp", slot "grp"
holding the MultiRef of "pk" alone. -/
theorem update_remove_last_member_witness :
    (multiIdx.Update specMultiRef dbGrp (some pkGrp) none).1 = none ∧
      (multiIdx.Update specMultiRef dbGrp (some pkGrp) none).2
        = dbGrp.Delete (multiIdx.IndexKey (ascii "grp")) ∧
      (multiIdx.Update specMultiRef dbGrp (some pkGrp) none).2.Get
        (multiIdx.IndexKey (ascii "grp")) = none ∧
      multiIdx.GetAt specMultiRef (multiIdx.Update specMultiRef dbGrp (some pkGrp) none).2
        (ascii "grp") = .ok [] :=
  update_remove_last_member specMultiRef multiIdx dbGrp pkGrp (ascii "grp") [2, 112, 107]
    [ascii "pk"] [] rfl rfl (by decide) (by decide) rfl rfl rfl

end orm

/-! ## Key layout and read paths: `IndexKey`, `GetAt`, `GetLike`, `Query` -/

namespace orm

/-- C14: the storage key of secondary key `k` in the index named `n` is the
concatenation of "_i.", `n`, ":" and `k`; its length is
`3 + len(n) + 1 + len(k)`, and two secondary keys with the same storage key in
one index are equal. -/
theorem indexKey_layout (n : Bytes) (indexer : Indexer) (unique : Bool)
    (refKey : Bytes → Bytes) (k : Bytes) :
    (NewIndex n indexer unique refKey).IndexKey k = ascii "_i." ++ n ++ ascii ":" ++ k ∧
      ((NewIndex n indexer unique refKey).IndexKey k).length = 3 + n.length + 1 + k.length ∧
      ∀ k2, (NewIndex n indexer unique refKey).IndexKey k
          = (NewIndex n indexer unique refKey).IndexKey k2 → k = k2 := by
  have hpre : ascii "_i." = indPrefix := by decide
  have hcol : ascii ":" = [58] := by decide
  refine ⟨?_, ?_, fun k2 h => (Index.IndexKey_inj _ k k2).mp h⟩
  · rw [hpre, hcol]
    simp [Index.IndexKey, NewIndex]
  · simp [Index.IndexKey, NewIndex, indPrefix]
    omega

/-- Instance of the key layout: index "name", secondary key "alice". -/
theorem indexKey_layout_witness :
    uniqIdx.IndexKey (ascii "alice") = ascii "_i." ++ ascii "name" ++ ascii ":" ++ ascii "alice" ∧
      (uniqIdx.IndexKey (ascii "alice")).length
        = 3 + (ascii "name").length + 1 + (ascii "alice").length ∧
      ∀ k2, uniqIdx.IndexKey (ascii "alice") = uniqIdx.IndexKey k2 → ascii "alice" = k2 :=
  indexKey_layout (ascii "name") valueIndexer true id (ascii "alice")

/-- C15: `GetAt` of an absent slot is the empty result without error; on a
unique index `GetAt` of a slot holding `v` is `[v]` without error; `GetLike` is
`GetAt` at the secondary key of the pattern when the indexer succeeds, and the
error of the indexer otherwise. `GetAt` has no store among its results. -/
theorem getAt_point_lookup (m : MultiRefImpl) (i : Index) (db : KVStore) (k : Bytes)
    (pattern : Object) :
    (db.Get (i.IndexKey k) = none → i.GetAt m db k = .ok []) ∧
      (∀ v, i.unique = true → db.Get (i.IndexKey k) = some v → i.GetAt m db k = .ok [v]) ∧
      (∀ idx, i.index pattern = .ok idx → i.GetLike m db pattern = i.GetAt m db idx) ∧
      (∀ err, i.index pattern = .error err → i.GetLike m db pattern = .error err) := by
  refine ⟨Index.GetAt_absent m i db k, fun v hu hv => Index.GetAt_unique_present m i db k v hu hv,
    fun idx h => ?_, fun err h => ?_⟩
  · simp [Index.GetLike, h]
  · simp [Index.GetLike, h]

/-- Instance of the point lookup on the unique index "name": "bob" is absent,
"alice" holds "pk1", and the pattern object is indexed at "alice". -/
theorem getAt_point_lookup_witness :
    uniqIdx.GetAt specMultiRef dbAlice (ascii "bob") = .ok [] ∧
      uniqIdx.GetAt specMultiRef dbAlice (ascii "alice") = .ok [ascii "pk1"] ∧
      uniqIdx.GetLike specMultiRef dbAlice alice2
        = uniqIdx.GetAt specMultiRef dbAlice (ascii "alice") ∧
      nilErrIdx.GetLike specMultiRef dbAlice alice2 = .error Error.ErrUpdateNil :=
  ⟨(getAt_point_lookup specMultiRef uniqIdx dbAlice (ascii "bob") alice2).1 (by decide),
    (getAt_point_lookup specMultiRef uniqIdx dbAlice (ascii "alice") alice2).2.1
      (ascii "pk1") rfl (by decide),
    (getAt_point_lookup specMultiRef uniqIdx dbAlice (ascii "alice") alice2).2.2.1
      (ascii "alice") rfl,
    (getAt_point_lookup specMultiRef nilErrIdx dbAlice (ascii "alice") alice2).2.2.2
      Error.ErrUpdateNil rfl⟩

/-- C17 (code): for a mode other than "key" and "prefix", `Query` returns no
model and the error whose message is "no implemented: " followed by the mode;
for the mode "bogus" this is not the message "not implemented: bogus". -/
theorem query_unknown_mode (m : MultiRefImpl) (i : Index) (db : weave.ReadOnlyKVStore)
    (data : Bytes) :
    (∀ mod : String, mod ≠ "key" → mod ≠ "prefix" →
        i.Query m db mod data = .error (Error.Other ("no implemented: " ++ mod))) ∧
      i.Query m db "bogus" data = .error (Error.Other "no implemented: bogus") ∧
      i.Query m db "bogus" data ≠ .error (Error.Other "not implemented: bogus") := by
  have hgen : ∀ mod : String, mod ≠ "key" → mod ≠ "prefix" →
      i.Query m db mod data = .error (Error.Other ("no implemented: " ++ mod)) := by
    intro mod h1 h2
    simp [Index.Query, weave.KeyQueryMod, weave.PrefixQueryMod, h1, h2]
  have hb : i.Query m db "bogus" data = .error (Error.Other "no implemented: bogus") :=
    hgen "bogus" (by decide) (by decide)
  refine ⟨hgen, hb, ?_⟩
  rw [hb]
  intro h
  have h1 : ("no implemented: bogus" : String) = "not implemented: bogus" :=
    Error.Other.inj (Except.error.inj h)
  exact absurd h1 (by decide)

/-- Instance of the unknown-mode failure on the unique index "name". -/
theorem query_unknown_mode_witness :
    uniqIdx.Query specMultiRef dbAl "bogus" (ascii "al")
      = .error (Error.Other "no implemented: bogus") :=
  (query_unknown_mode specMultiRef uniqIdx dbAl (ascii "al")).2.1

/-- C18: when `GetAt` succeeds with the primary keys `refs`, `Query` in mode
"key" returns without error one model per primary key, in the same order, the
model of `r` being the key `refKey r` with the result of the store read at that
key (absent when the record is missing); likewise in mode "prefix" with
`GetPrefix`. -/
theorem query_hydration (m : MultiRefImpl) (i : Index) (db : weave.ReadOnlyKVStore)
    (data : Bytes) (refs : List Bytes) :
    (i.GetAt m db.kv data = .ok refs →
        i.Query m db "key" data
            = .ok (refs.map (fun r => { Key := i.refKey r, Value := db.kv.Get (i.refKey r) })) ∧
          ∃ models, i.Query m db "key" data = .ok models ∧ models.length = refs.length) ∧
      (i.GetPrefix m db data = .ok refs →
        i.Query m db "prefix" data
            = .ok (refs.map (fun r => { Key := i.refKey r, Value := db.kv.Get (i.refKey r) })) ∧
          ∃ models, i.Query m db "prefix" data = .ok models ∧
            models.length = refs.length) := by
  have hload : i.loadRefs db refs
      = refs.map (fun r => { Key := i.refKey r, Value := db.kv.Get (i.refKey r) }) := by
    unfold Index.loadRefs
    split
    · rename_i h
      rw [List.length_eq_zero.mp h]
      rfl
    · rfl
  constructor
  · intro h
    have hq : i.Query m db "key" data
        = .ok (refs.map (fun r => { Key := i.refKey r, Value := db.kv.Get (i.refKey r) })) := by
      simp [Index.Query, weave.KeyQueryMod, h, hload]
    exact ⟨hq, _, hq, by simp⟩
  · intro h
    have hq : i.Query m db "prefix" data
        = .ok (refs.map (fun r => { Key := i.refKey r, Value := db.kv.Get (i.refKey r) })) := by
      simp [Index.Query, weave.KeyQueryMod, weave.PrefixQueryMod, h, hload]
    exact ⟨hq, _, hq, by simp⟩

/-- Instance of the hydration on the unique index "name": "alice" resolves to
"pk1", whose record is missing from the store, and the model is still there. -/
theorem query_hydration_witness :
    uniqIdx.Query specMultiRef dbAl "key" (ascii "alice")
        = .ok [{ Key := ascii "pk1", Value := none }] ∧
      ∃ models, uniqIdx.Query specMultiRef dbAl "key" (ascii "alice") = .ok models ∧
        models.length = [ascii "pk1"].length :=
  (query_hydration specMultiRef uniqIdx dbAl (ascii "alice") [ascii "pk1"]).1 rfl

end orm

/-! ## Prefix scan -/

namespace orm

/-- Lexicographic order of byte strings does not depend on a common prefix. -/
theorem Bytes.lt_append_left (l a b : Bytes) : Bytes.lt (l ++ a) (l ++ b) = Bytes.lt a b := by
  induction l with
  | nil => rfl
  | cons x xs ih =>
    simp only [List.cons_append, Bytes.lt, UInt8.lt_irrefl, if_false]
    exact ih

/-- On a unique index the scan loop appends the value of every model. -/
theorem Index.prefixLoop_unique (m : MultiRefImpl) (i : Index) (hu : i.unique = true)
    (l : List store.Model) (data : List Bytes) :
    Index.prefixLoop m i l data = .ok (data ++ l.map (fun x => x.Value)) := by
  induction l generalizing data with
  | nil => simp [Index.prefixLoop]
  | cons x xs ih => simp [Index.prefixLoop, hu, ih]

/-- C16: on a unique index, when the iterator over the range of the prefix
`IndexKey q` yields, in ascending key order, exactly the store entries whose
key starts with that prefix, `GetPrefix` returns without error the values of
those entries: one value per slot whose secondary key starts with `q`, in the
order of the secondary keys. -/
theorem getPrefix_unique (m : MultiRefImpl) (i : Index) (db : weave.ReadOnlyKVStore)
    (q : Bytes) (hu : i.unique = true)
    (hsorted : (db.scan (i.IndexKey q)).Pairwise (fun a b => Bytes.lt a.Key b.Key = true))
    (hexact : ∀ x : store.Model, x ∈ db.scan (i.IndexKey q) ↔
      (i.IndexKey q <+: x.Key ∧ db.kv.Get x.Key = some x.Value)) :
    i.GetPrefix m db q = .ok ((db.scan (i.IndexKey q)).map (fun x => x.Value)) ∧
      ∃ ks : List Bytes,
        ks.Pairwise (fun a b => Bytes.lt a b = true) ∧
        (∀ k, k ∈ ks ↔ (q <+: k ∧ db.kv.Get (i.IndexKey k) ≠ none)) ∧
        ((db.scan (i.IndexKey q)).map (fun x => x.Value)).map some
          = ks.map (fun k => db.kv.Get (i.IndexKey k)) := by
  have hkey : ∀ x ∈ db.scan (i.IndexKey q),
      x.Key = i.IndexKey (x.Key.drop i.id.length) ∧ q <+: x.Key.drop i.id.length := by
    intro x hx
    obtain ⟨t, ht⟩ := ((hexact x).mp hx).1
    have hx1 : x.Key = i.id ++ (q ++ t) := by
      rw [← ht]; simp [Index.IndexKey]
    have hdrop : x.Key.drop i.id.length = q ++ t := by
      rw [hx1]; simp
    rw [hdrop]
    exact ⟨hx1, List.prefix_append q t⟩
  refine ⟨?_, (db.scan (i.IndexKey q)).map (fun x => x.Key.drop i.id.length), ?_, ?_, ?_⟩
  · simp [Index.GetPrefix, Index.prefixLoop_unique m i hu]
  · rw [List.pairwise_map]
    refine hsorted.imp_of_mem ?_
    intro a b ha hb hab
    rw [(hkey a ha).1, (hkey b hb).1] at hab
    simpa [Index.IndexKey, Bytes.lt_append_left] using hab
  · intro k
    rw [List.mem_map]
    constructor
    · rintro ⟨x, hx, rfl⟩
      refine ⟨(hkey x hx).2, ?_⟩
      rw [← (hkey x hx).1, ((hexact x).mp hx).2]
      simp
    · rintro ⟨⟨t, ht⟩, hget⟩
      cases hv : db.kv.Get (i.IndexKey k) with
      | none => exact absurd hv hget
      | some v =>
        refine ⟨{ Key := i.IndexKey k, Value := v }, (hexact _).mpr ⟨?_, hv⟩, ?_⟩
        · refine ⟨t, ?_⟩
          rw [← ht]; simp [Index.IndexKey]
        · simp [Index.IndexKey]
  · rw [List.map_map, List.map_map]
    refine List.map_congr_left ?_
    intro x hx
    simp only [Function.comp]
    rw [← (hkey x hx).1, ((hexact x).mp hx).2]

/-- The scan of the sample store under the prefix "al" of the index "name"
yields exactly the entries of the store under that prefix. -/
theorem dbAl_scan_exact (x : store.Model) :
    x ∈ dbAl.scan (uniqIdx.IndexKey (ascii "al")) ↔
      (uniqIdx.IndexKey (ascii "al") <+: x.Key ∧ dbAl.kv.Get x.Key = some x.Value) := by
  have hscan : dbAl.scan (uniqIdx.IndexKey (ascii "al"))
      = [{ Key := uniqIdx.IndexKey (ascii "albert"), Value := ascii "pk2" },
          { Key := uniqIdx.IndexKey (ascii "alice"), Value := ascii "pk1" }] := by decide
  rw [hscan]
  obtain ⟨xk, xv⟩ := x
  simp only [List.mem_cons, List.mem_singleton, store.Model.mk.injEq, List.not_mem_nil,
    or_false, dbAl, KVStore.Get, KVStore.Set, KVStore.empty]
  constructor
  · rintro (⟨rfl, rfl⟩ | ⟨rfl, rfl⟩)
    · exact ⟨by decide, by decide⟩
    · exact ⟨by decide, by decide⟩
  · rintro ⟨_, hget⟩
    by_cases h1 : xk = uniqIdx.IndexKey (ascii "albert")
    · rw [if_pos h1] at hget
      exact Or.inl ⟨h1, (Option.some.inj hget).symm⟩
    · rw [if_neg h1] at hget
      by_cases h2 : xk = uniqIdx.IndexKey (ascii "alice")
      · rw [if_pos h2] at hget
        exact Or.inr ⟨h2, (Option.some.inj hget).symm⟩
      · rw [if_neg h2] at hget
        cases hget

/-- Instance of the prefix scan: entries at "alice" and "albert", the prefix
"al" returns the primary key of "albert", then that of "alice". -/
theorem getPrefix_unique_witness :
    uniqIdx.GetPrefix specMultiRef dbAl (ascii "al") = .ok [ascii "pk2", ascii "pk1"] ∧
      ∃ ks : List Bytes,
        ks.Pairwise (fun a b => Bytes.lt a b = true) ∧
        (∀ k, k ∈ ks ↔ (ascii "al" <+: k ∧ dbAl.kv.Get (uniqIdx.IndexKey k) ≠ none)) ∧
        ((dbAl.scan (uniqIdx.IndexKey (ascii "al"))).map (fun x => x.Value)).map some
          = ks.map (fun k => dbAl.kv.Get (uniqIdx.IndexKey k)) :=
  getPrefix_unique specMultiRef uniqIdx dbAl (ascii "al") rfl
    (by
      have hscan : dbAl.scan (uniqIdx.IndexKey (ascii "al"))
          = [{ Key := uniqIdx.IndexKey (ascii "albert"), Value := ascii "pk2" },
              { Key := uniqIdx.IndexKey (ascii "alice"), Value := ascii "pk1" }] := by decide
      rw [hscan]
      simp only [List.pairwise_cons, List.mem_singleton, forall_eq, List.not_mem_nil,
        false_implies, implies_true, List.Pairwise.nil, and_true]
      decide)
    dbAl_scan_exact

end orm

/-! ## Non-atomic batch -/

namespace store

open orm (Bytes KVStore)

/-- Writing the operations queued by a list of calls, after operations that are
already queued, amounts to applying the calls directly once those have run. -/
theorem applyOps_queue {σ : Type} [SetDeleter σ] (calls : List Call) (b : NonAtomicBatch σ)
    (db : σ) :
    applyOps (b.queue calls).ops db
      = (applyOps b.ops db).map (fun d => directApply d calls) := by
  have happ : ∀ (l : List op) (o : op) (d : σ),
      applyOps (l ++ [o]) d = (applyOps l d).bind o.apply := by
    intro l
    induction l with
    | nil =>
      intro o d
      simp only [List.nil_append, applyOps, Option.some_bind]
      cases o.apply d <;> rfl
    | cons x xs ih =>
      intro o d
      simp only [List.cons_append, applyOps]
      cases x.apply d with
      | none => rfl
      | some d1 => exact ih o d1
  induction calls generalizing b with
  | nil =>
    simp only [NonAtomicBatch.queue, directApply]
    cases applyOps b.ops db <;> rfl
  | cons c rest ih =>
    cases c with
    | set k v =>
      simp only [NonAtomicBatch.queue, directApply]
      rw [ih, NonAtomicBatch.Set, happ]
      cases applyOps b.ops db with
      | none => rfl
      | some d => simp [op.apply, setKind]
    | delete k =>
      simp only [NonAtomicBatch.queue, directApply]
      rw [ih, NonAtomicBatch.Delete, happ]
      cases applyOps b.ops db with
      | none => rfl
      | some d => simp [op.apply, setKind, delKind]

/-- Queuing calls leaves the underlying store of the batch as it is. -/
theorem queue_out {σ : Type} (calls : List Call) (b : NonAtomicBatch σ) :
    (b.queue calls).out = b.out := by
  induction calls generalizing b with
  | nil => rfl
  | cons c rest ih =>
    cases c with
    | set k v => simp only [NonAtomicBatch.queue]; rw [ih]; rfl
    | delete k => simp only [NonAtomicBatch.queue]; rw [ih]; rfl

/-- C19: for every store and every sequence of `Set` / `Delete` calls queued on
a fresh batch over it, (a) queuing leaves the store untouched, (b) `Write`
leaves it equal to the result of applying the same calls directly in the order
queued, (c) after `Write` the accumulator is empty, a repeated `Write` changes
nothing, and a later `Write` applies only the calls queued since; the last
queued operation on a key wins. -/
theorem batch_write_refines_direct (db : KVStore) (calls later before : List Call)
    (k v : Bytes) :
    ((NewNonAtomicBatch db).queue calls).out = db ∧
      ((NewNonAtomicBatch db).queue calls).Write
        = some { out := directApply db calls, ops := [] } ∧
      (({ out := directApply db calls, ops := [] } : NonAtomicBatch KVStore).Write
        = some { out := directApply db calls, ops := [] }) ∧
      ((({ out := directApply db calls, ops := [] } : NonAtomicBatch KVStore).queue later).Write
        = some { out := directApply (directApply db calls) later, ops := [] }) ∧
      (directApply db (before ++ [Call.set k v])).Get k = some v ∧
      (directApply db (before ++ [Call.delete k])).Get k = none := by
  have hwrite : ∀ (d : KVStore) (cs : List Call),
      (({ out := d, ops := [] } : NonAtomicBatch KVStore).queue cs).Write
        = some { out := directApply d cs, ops := [] } := by
    intro d cs
    unfold NonAtomicBatch.Write
    rw [queue_out, applyOps_queue]
    rfl
  have hsnoc : ∀ (cs : List Call) (c : Call) (d : KVStore),
      directApply d (cs ++ [c]) = directApply (directApply d cs) [c] := by
    intro cs
    induction cs with
    | nil => intro c d; rfl
    | cons x xs ih =>
      intro c d
      cases x with
      | set a b => exact ih c _
      | delete a => exact ih c _
  refine ⟨queue_out calls _, hwrite db calls, rfl, hwrite _ later, ?_, ?_⟩
  · rw [hsnoc]
    exact orm.KVStore.get_set_self _ _ _
  · rw [hsnoc]
    exact orm.KVStore.get_delete_self _ _

/-- Instance of the batch theorem: set "a", delete "a", set "b", then a later
set of "a". -/
theorem batch_write_refines_direct_witness :
    ((NewNonAtomicBatch KVStore.empty).queue
        [Call.set [97] [1], Call.delete [97], Call.set [98] [2]]).Write
      = some { out := directApply KVStore.empty
                [Call.set [97] [1], Call.delete [97], Call.set [98] [2]],
               ops := [] } :=
  (batch_write_refines_direct KVStore.empty
    [Call.set [97] [1], Call.delete [97], Call.set [98] [2]] [Call.set [97] [3]] []
    [97] [1]).2.1

end store

/-! ## Slice iterator -/

namespace store

open orm (Bytes KVStore)

/-- From cursor `j`, `k` calls of `Next` that stay within the slice move the
cursor to `j + k` without panic. -/
theorem SliceIterator.nextN_eq (data : List Model) (k j : Nat) (h : j + k ≤ data.length) :
    SliceIterator.nextN k { data := data, idx := j } = some { data := data, idx := j + k } := by
  induction k generalizing j with
  | zero => rfl
  | succ n ih =>
    have hj : ¬ (j ≥ data.length) := by omega
    simp only [SliceIterator.nextN, SliceIterator.Next, SliceIterator.assertValid, hj, if_false]
    rw [ih (j + 1) (by omega)]
    congr 2
    omega

/-- Reading at a cursor inside the slice returns the model under the cursor. -/
theorem SliceIterator.read_eq (data : List Model) (j : Nat) (h : j < data.length) :
    SliceIterator.Key { data := data, idx := j } = some (data.get ⟨j, h⟩).Key ∧
      SliceIterator.Value { data := data, idx := j } = some (data.get ⟨j, h⟩).Value := by
  have hj : ¬ (j ≥ data.length) := by omega
  simp [SliceIterator.Key, SliceIterator.Value, SliceIterator.assertValid, hj,
    List.getElem?_eq_getElem h]

/-- From cursor `j`, the loop visits the rest of the slice in order. -/
theorem SliceIterator.forLoop_eq (data : List Model) (fuel j : Nat) (seen : List Model)
    (steps : Nat) (hj : j ≤ data.length) (hfuel : data.length - j < fuel) :
    SliceIterator.forLoop fuel { data := data, idx := j } seen steps
      = some (seen ++ data.drop j, steps + (data.length - j)) := by
  induction fuel generalizing j seen steps with
  | zero => omega
  | succ n ih =>
    by_cases hlt : j < data.length
    · obtain ⟨hkey, hval⟩ := SliceIterator.read_eq data j hlt
      have hnext : SliceIterator.Next { data := data, idx := j }
          = some { data := data, idx := j + 1 } := by
        have hge : ¬ (j ≥ data.length) := by omega
        simp [SliceIterator.Next, SliceIterator.assertValid, hge]
      have hvalid : SliceIterator.Valid { data := data, idx := j } = true := by
        simp [SliceIterator.Valid, hlt]
      simp only [SliceIterator.forLoop, hvalid, if_true, hkey, hval, hnext]
      rw [ih (j + 1) _ _ (by omega) (by omega)]
      have hdrop : data.drop j = data.get ⟨j, hlt⟩ :: data.drop (j + 1) :=
        List.drop_eq_getElem_cons hlt
      rw [hdrop]
      simp only [List.append_assoc, List.singleton_append]
      congr 2
      omega
    · have hvalid : SliceIterator.Valid { data := data, idx := j } = false := by
        simp [SliceIterator.Valid, hlt]
      have hjn : data.length - j = 0 := by omega
      have hdrop : data.drop j = [] := List.drop_eq_nil_of_le (by omega)
      simp only [SliceIterator.forLoop, hvalid, hjn, hdrop]
      simp

/-- C20: an iterator over a slice of `n` models on which `Next` has been called
`k ≤ n` times is at cursor `k` without having panicked; it is valid exactly
when `k < n`, and then `Key()` and `Value()` return those of `data[k]`; the
loop `for ; Valid(); Next()` visits the `n` models in their order and ends
after `n` steps. -/
theorem sliceIterator_traversal (data : List Model) (k : Nat) (hk : k ≤ data.length) :
    SliceIterator.nextN k (NewSliceIterator data) = some { data := data, idx := k } ∧
      (SliceIterator.Valid { data := data, idx := k } = true ↔ k < data.length) ∧
      (∀ h : k < data.length,
        SliceIterator.Key { data := data, idx := k } = some (data.get ⟨k, h⟩).Key ∧
          SliceIterator.Value { data := data, idx := k } = some (data.get ⟨k, h⟩).Value) ∧
      ∀ fuel, data.length < fuel →
        SliceIterator.forLoop fuel (NewSliceIterator data) [] 0 = some (data, data.length) := by
  refine ⟨?_, ?_, fun h => SliceIterator.read_eq data k h, fun fuel hfuel => ?_⟩
  · have h := SliceIterator.nextN_eq data k 0 (by omega)
    simpa [NewSliceIterator] using h
  · simp [SliceIterator.Valid]
  · have h := SliceIterator.forLoop_eq data fuel 0 [] 0 (by omega) (by omega)
    simpa [NewSliceIterator] using h

/-- Instance of the traversal: three models, two calls of `Next`. -/
theorem sliceIterator_traversal_witness :
    SliceIterator.nextN 2 (NewSliceIterator orm.abc) = some { data := orm.abc, idx := 2 } ∧
      SliceIterator.Key { data := orm.abc, idx := 2 } = some (orm.ascii "c") ∧
      SliceIterator.forLoop 4 (NewSliceIterator orm.abc) [] 0 = some (orm.abc, 3) :=
  ⟨(sliceIterator_traversal orm.abc 2 (by decide)).1,
    ((sliceIterator_traversal orm.abc 2 (by decide)).2.2.1 (by decide)).1,
    (sliceIterator_traversal orm.abc 2 (by decide)).2.2.2 4 (by decide)⟩

end store

/-! ## Iterator misuse, the empty store, release of the iterator -/

namespace store

open orm (Bytes KVStore)

/-- C21: in every state of a slice iterator reachable through
`NewSliceIterator`, `Next` and `Close`, each of `Key()`, `Value()` and `Next()`
panics exactly when `Valid()` is false; when `Valid()` is true none of them
panics and the cursor is inside the slice. -/
theorem sliceIterator_panic_iff_invalid (s : SliceIterator) (hs : SliceIterator.Reachable s) :
    (s.Key = none ↔ s.Valid = false) ∧ (s.Value = none ↔ s.Valid = false) ∧
      (s.Next = none ↔ s.Valid = false) ∧
      (s.Valid = true → s.idx < s.data.length ∧
        ∃ x s1, s.data.get? s.idx = some x ∧ s.Key = some x.Key ∧ s.Value = some x.Value ∧
          s.Next = some s1) := by
  have _hreach := hs
  by_cases hv : s.idx < s.data.length
  · have hge : ¬ (s.idx ≥ s.data.length) := by omega
    have hvalid : s.Valid = true := by simp [SliceIterator.Valid, hv]
    have hget : s.data.get? s.idx = some (s.data.get ⟨s.idx, hv⟩) :=
      List.get?_eq_get hv
    have hkey : s.Key = some (s.data.get ⟨s.idx, hv⟩).Key := by
      simp [SliceIterator.Key, SliceIterator.assertValid, hge, List.getElem?_eq_getElem hv]
    have hval : s.Value = some (s.data.get ⟨s.idx, hv⟩).Value := by
      simp [SliceIterator.Value, SliceIterator.assertValid, hge, List.getElem?_eq_getElem hv]
    have hnext : s.Next = some { s with idx := s.idx + 1 } := by
      simp [SliceIterator.Next, SliceIterator.assertValid, hge]
    refine ⟨?_, ?_, ?_, fun _ => ⟨hv, _, _, hget, hkey, hval, hnext⟩⟩
    · rw [hkey, hvalid]; simp
    · rw [hval, hvalid]; simp
    · rw [hnext, hvalid]; simp
  · have hge : s.idx ≥ s.data.length := by omega
    have hvalid : s.Valid = false := by simp [SliceIterator.Valid, hv]
    have hkey : s.Key = none := by
      simp [SliceIterator.Key, SliceIterator.assertValid, hge]
    have hval : s.Value = none := by
      simp [SliceIterator.Value, SliceIterator.assertValid, hge]
    have hnext : s.Next = none := by
      simp [SliceIterator.Next, SliceIterator.assertValid, hge]
    refine ⟨?_, ?_, ?_, fun h => ?_⟩
    · rw [hkey, hvalid]; simp
    · rw [hval, hvalid]; simp
    · rw [hnext, hvalid]; simp
    · rw [hvalid] at h; cases h

/-- Instance of the panic theorem: three models, positioned after one `Next`,
and the same iterator once closed. -/
theorem sliceIterator_panic_iff_invalid_witness :
    ((SliceIterator.Key { data := orm.abc, idx := 1 } = none ↔
        SliceIterator.Valid { data := orm.abc, idx := 1 } = false) ∧
      (SliceIterator.Value { data := orm.abc, idx := 1 } = none ↔
        SliceIterator.Valid { data := orm.abc, idx := 1 } = false) ∧
      (SliceIterator.Next { data := orm.abc, idx := 1 } = none ↔
        SliceIterator.Valid { data := orm.abc, idx := 1 } = false) ∧
      (SliceIterator.Valid { data := orm.abc, idx := 1 } = true →
        1 < orm.abc.length ∧
        ∃ x s1, orm.abc.get? 1 = some x ∧
          SliceIterator.Key { data := orm.abc, idx := 1 } = some x.Key ∧
          SliceIterator.Value { data := orm.abc, idx := 1 } = some x.Value ∧
          SliceIterator.Next { data := orm.abc, idx := 1 } = some s1)) ∧
      (SliceIterator.Key (SliceIterator.Close { data := orm.abc, idx := 1 }) = none ↔
        SliceIterator.Valid (SliceIterator.Close { data := orm.abc, idx := 1 }) = false) :=
  ⟨sliceIterator_panic_iff_invalid { data := orm.abc, idx := 1 }
      (SliceIterator.Reachable.next _ _ (SliceIterator.Reachable.new orm.abc) rfl),
    (sliceIterator_panic_iff_invalid (SliceIterator.Close { data := orm.abc, idx := 1 })
      (SliceIterator.Reachable.close _
        (SliceIterator.Reachable.next _ _ (SliceIterator.Reachable.new orm.abc) rfl))).1⟩

/-- C22: after any sequence of `Set` and `Delete` calls on the empty store, made
directly or through a batch obtained from `NewBatch` and written (which does
not panic and empties the batch), `Get` returns absent and `Has` false for
every key, and the iterators over any range are not valid. -/
theorem emptyKVStore_null_object (e : EmptyKVStore) (calls : List Call)
    (key start stop : Bytes) :
    ((directApply e calls).Get key = none ∧ (directApply e calls).Has key = false ∧
        ((directApply e calls).Iterator start stop).Valid = false ∧
        ((directApply e calls).ReverseIterator start stop).Valid = false) ∧
      ∃ b, (e.NewBatch.queue calls).Write = some b ∧ b.ops = [] ∧
        b.out = directApply e calls ∧
        b.out.Get key = none ∧ b.out.Has key = false ∧
        (b.out.Iterator start stop).Valid = false ∧
        (b.out.ReverseIterator start stop).Valid = false := by
  have hnull : ∀ e1 : EmptyKVStore, e1.Get key = none ∧ e1.Has key = false ∧
      (e1.Iterator start stop).Valid = false ∧
      (e1.ReverseIterator start stop).Valid = false := by
    intro e1
    exact ⟨rfl, rfl, rfl, rfl⟩
  have hwrite : (e.NewBatch.queue calls).Write
      = some { out := directApply e calls, ops := [] } := by
    unfold NonAtomicBatch.Write
    rw [queue_out, applyOps_queue]
    rfl
  exact ⟨hnull _, _, hwrite, rfl, rfl, (hnull _).1, (hnull _).2.1, (hnull _).2.2.1,
    (hnull _).2.2.2⟩

end store

namespace orm

/-- The traced loop computes the result of the loop of `GetPrefix` and leaves
the closed flag of the iterator as it found it. -/
theorem Index.prefixLoopTraced_spec (m : MultiRefImpl) (i : Index) (l : List store.Model)
    (closed : Bool) (data : List Bytes) :
    (Index.prefixLoopTraced m i l closed data).1 = Index.prefixLoop m i l data ∧
      (Index.prefixLoopTraced m i l closed data).2.closed = closed := by
  induction l generalizing data with
  | nil => exact ⟨rfl, rfl⟩
  | cons x xs ih =>
    unfold Index.prefixLoopTraced Index.prefixLoop
    split
    · exact ih _
    · split
      · exact ⟨rfl, rfl⟩
      · exact ih _

/-- C23 (as stated, refuted): when `GetPrefix` returns, the iterator it opened
has not been closed, both after a complete scan (unique index "name", prefix
"al") and after the early return on a MultiRef that does not decode
(non-unique index "grp"). -/
theorem getPrefix_leaves_iterator_open :
    ((uniqIdx.GetPrefixTraced specMultiRef dbAl (ascii "al")).1
          = .ok [ascii "pk2", ascii "pk1"] ∧
        (uniqIdx.GetPrefixTraced specMultiRef dbAl (ascii "al")).2.closed = false) ∧
      ((multiIdx.GetPrefixTraced specMultiRef dbBad (ascii "g")).1
          = .error (Error.Other "truncated input") ∧
        (multiIdx.GetPrefixTraced specMultiRef dbBad (ascii "g")).2.closed = false) := by
  exact ⟨⟨rfl, rfl⟩, ⟨rfl, rfl⟩⟩

/-- C23 (amended): `GetPrefix` does not release the iterator it opens: on every
return path, the complete scan and the early return on a decode error, the
iterator obtained from the store is still not closed when `GetPrefix` returns
with its result. -/
theorem getPrefix_never_closes (m : MultiRefImpl) (i : Index) (db : weave.ReadOnlyKVStore)
    (pfx : Bytes) :
    (i.GetPrefixTraced m db pfx).1 = i.GetPrefix m db pfx ∧
      (i.GetPrefixTraced m db pfx).2.closed = false := by
  exact Index.prefixLoopTraced_spec m i _ false []

end orm

/-! ## Namespace isolation between indexes -/

namespace orm

/-- A byte string is split in one way only at its first colon. -/
theorem Bytes.colon_split (n1 n2 k1 k2 : Bytes) (h1 : (58 : UInt8) ∉ n1) (h2 : (58 : UInt8) ∉ n2)
    (h : n1 ++ 58 :: k1 = n2 ++ 58 :: k2) : n1 = n2 := by
  induction n1 generalizing n2 with
  | nil =>
    cases n2 with
    | nil => rfl
    | cons y ys =>
      simp only [List.nil_append, List.cons_append, List.cons.injEq] at h
      exact absurd (by rw [← h.1]; simp) h2
  | cons x xs ih =>
    cases n2 with
    | nil =>
      simp only [List.nil_append, List.cons_append, List.cons.injEq] at h
      exact absurd (by rw [h.1]; simp) h1
    | cons y ys =>
      simp only [List.cons_append, List.cons.injEq] at h
      rw [h.1, ih ys (fun hm => h1 (List.mem_cons_of_mem _ hm))
        (fun hm => h2 (List.mem_cons_of_mem _ hm)) h.2]

/-- What `insert` does depends only on the content of the slot of the secondary
key, and it writes at most that slot. -/
theorem Index.insert_shape (m : MultiRefImpl) (i : Index) (index pk : Bytes)
    (c : Option Bytes) :
    ∃ (e : Option Error) (w : Option (Option Bytes)), ∀ db : KVStore,
      db.Get (i.IndexKey index) = c →
      i.insert m db index pk = (e, db.writeAt (i.IndexKey index) w) := by
  by_cases h0 : index.length = 0
  · exact ⟨none, none, fun db _ => by simp [KVStore.writeAt, Index.insert, h0]⟩
  by_cases hu : i.unique = true
  · cases c with
    | none =>
      by_cases hpk : pk = []
      · exact ⟨none, some none, fun db h => by
          simp [KVStore.writeAt, Index.insert, h0, hu, h, hpk, KVStore.setKey_nil]⟩
      · exact ⟨none, some (some pk), fun db h => by
          simp [KVStore.writeAt, Index.insert, h0, hu, h, KVStore.setKey_of_ne _ _ _ hpk]⟩
    | some v =>
      exact ⟨some (Error.ErrUniqueConstraint i.name), none,
        fun db h => by simp [KVStore.writeAt, Index.insert, h0, hu, h]⟩
  · have hload : ∀ l : Except Error (List Bytes),
        ∃ (e : Option Error) (w : Option (Option Bytes)), ∀ db : KVStore,
          (match l with
            | .error err => (some err, db)
            | .ok data =>
              match m.Add data pk with
              | .error err => (some err, db)
              | .ok data1 =>
                match m.Marshal data1 with
                | .error err => (some err, db)
                | .ok save => (none, db.Set (i.IndexKey index) save))
          = (e, db.writeAt (i.IndexKey index) w) := by
      intro l
      cases l with
      | error err => exact ⟨some err, none, fun db => rfl⟩
      | ok data =>
        cases hadd : m.Add data pk with
        | error err => exact ⟨some err, none, fun db => by simp [KVStore.writeAt, hadd]⟩
        | ok data1 =>
          cases hmar : m.Marshal data1 with
          | error err => exact ⟨some err, none, fun db => by simp [KVStore.writeAt, hadd, hmar]⟩
          | ok save => exact ⟨none, some (some save), fun db => by simp [KVStore.writeAt, hadd, hmar]⟩
    cases c with
    | none =>
      obtain ⟨e, w, hw⟩ := hload (.ok [])
      exact ⟨e, w, fun db h => by
        rw [← hw db]
        simp [Index.insert, h0, hu, h]⟩
    | some v =>
      obtain ⟨e, w, hw⟩ := hload (m.Unmarshal v)
      exact ⟨e, w, fun db h => by
        rw [← hw db]
        simp [Index.insert, h0, hu, h]⟩

/-- What `remove` does depends only on the content of the slot of the secondary
key, and it writes at most that slot. -/
theorem Index.remove_shape (m : MultiRefImpl) (i : Index) (index pk : Bytes)
    (c : Option Bytes) :
    ∃ (e : Option Error) (w : Option (Option Bytes)), ∀ db : KVStore,
      db.Get (i.IndexKey index) = c →
      i.remove m db index pk = (e, db.writeAt (i.IndexKey index) w) := by
  by_cases h0 : index.length = 0
  · exact ⟨none, none, fun db _ => by simp [KVStore.writeAt, Index.remove, h0]⟩
  cases c with
  | none =>
    exact ⟨some Error.ErrRemoveUnregistered, none, fun db h => by simp [KVStore.writeAt, Index.remove, h0, h]⟩
  | some cur =>
    by_cases hu : i.unique = true
    · by_cases hc : cur = pk
      · exact ⟨none, some none, fun db h => by simp [KVStore.writeAt, Index.remove, h0, hu, h, hc]⟩
      · exact ⟨some Error.ErrRemoveUnregistered, none,
          fun db h => by simp [KVStore.writeAt, Index.remove, h0, hu, h, hc]⟩
    · cases hdec : m.Unmarshal cur with
      | error err =>
        exact ⟨some err, none, fun db h => by simp [KVStore.writeAt, Index.remove, h0, hu, h, hdec]⟩
      | ok data =>
        cases hrem : m.Remove data pk with
        | error err =>
          exact ⟨some err, none, fun db h => by simp [KVStore.writeAt, Index.remove, h0, hu, h, hdec, hrem]⟩
        | ok data1 =>
          by_cases hsz : m.Size data1 = 0
          · exact ⟨none, some none,
              fun db h => by simp [KVStore.writeAt, Index.remove, h0, hu, h, hdec, hrem, hsz]⟩
          · cases hmar : m.Marshal data1 with
            | error err =>
              exact ⟨some err, none,
                fun db h => by simp [KVStore.writeAt, Index.remove, h0, hu, h, hdec, hrem, hsz, hmar]⟩
            | ok save =>
              exact ⟨none, some (some save),
                fun db h => by simp [KVStore.writeAt, Index.remove, h0, hu, h, hdec, hrem, hsz, hmar]⟩

/-- A write at a key leaves the other keys as they are. -/
theorem KVStore.get_writeAt_other (db : KVStore) (key x : Bytes) (w : Option (Option Bytes))
    (hx : x ≠ key) : (db.writeAt key w).Get x = db.Get x := by
  rcases w with _ | _ | v
  · rfl
  · exact KVStore.get_delete_other db key x hx
  · exact KVStore.get_set_other db key v x hx

/-- The same write on two stores that agree at a key leaves them agreeing there. -/
theorem KVStore.get_writeAt_agree (db db2 : KVStore) (key x : Bytes)
    (w : Option (Option Bytes)) (h : db.Get x = db2.Get x) :
    (db.writeAt key w).Get x = (db2.writeAt key w).Get x := by
  by_cases hx : x = key
  · subst hx
    rcases w with _ | _ | v
    · exact h
    · rw [KVStore.writeAt, KVStore.writeAt, KVStore.get_delete_self, KVStore.get_delete_self]
    · rw [KVStore.writeAt, KVStore.writeAt, KVStore.get_set_self, KVStore.get_set_self]
  · rw [KVStore.get_writeAt_other _ _ _ _ hx, KVStore.get_writeAt_other _ _ _ _ hx, h]

/-- An `Update` through an index writes no key outside the slots of that index. -/
theorem Index.update_frame (m : MultiRefImpl) (i : Index) (db : KVStore)
    (prev save : Option Object) (x : Bytes) (hx : ∀ k, x ≠ i.IndexKey k) :
    (i.Update m db prev save).2.Get x = db.Get x := by
  have hins : ∀ (d : KVStore) (k pk : Bytes), (i.insert m d k pk).2.Get x = d.Get x := by
    intro d k pk
    obtain ⟨e, w, hw⟩ := Index.insert_shape m i k pk (d.Get (i.IndexKey k))
    rw [hw d rfl]
    exact KVStore.get_writeAt_other _ _ _ _ (hx k)
  have hrem : ∀ (d : KVStore) (k pk : Bytes), (i.remove m d k pk).2.Get x = d.Get x := by
    intro d k pk
    obtain ⟨e, w, hw⟩ := Index.remove_shape m i k pk (d.Get (i.IndexKey k))
    rw [hw d rfl]
    exact KVStore.get_writeAt_other _ _ _ _ (hx k)
  cases prev with
  | none =>
    cases save with
    | none => rfl
    | some s =>
      simp only [Index.Update]
      cases i.index s with
      | error e => rfl
      | ok k => exact hins db k s.Key
  | some p =>
    cases save with
    | none =>
      simp only [Index.Update]
      cases i.index p with
      | error e => rfl
      | ok k => exact hrem db k p.Key
    | some s =>
      have hmove : i.Update m db (some p) (some s) = i.move m db p s := rfl
      rw [hmove]
      rcases Index.move_cases m i db p s with h | ⟨oldKey, newKey, _, _, _, hr | hr⟩
      · rw [h]
      · rw [hr.2]
      · obtain ⟨db1, hrm, hmv⟩ := hr
        rw [hmv, hins db1 newKey s.Key]
        have h1 := hrem db oldKey p.Key
        rw [hrm] at h1
        exact h1

/-- The outcome of an `Update` through an index depends on the store only
through the slots of that index: on two stores that agree on these slots it
returns the same error and leaves stores that agree on these slots. -/
theorem Index.update_local (m : MultiRefImpl) (i : Index) (db db2 : KVStore)
    (prev save : Option Object)
    (hagree : ∀ k, db.Get (i.IndexKey k) = db2.Get (i.IndexKey k)) :
    (i.Update m db prev save).1 = (i.Update m db2 prev save).1 ∧
      ∀ k, (i.Update m db prev save).2.Get (i.IndexKey k)
        = (i.Update m db2 prev save).2.Get (i.IndexKey k) := by
  have hins : ∀ (d d2 : KVStore) (k pk : Bytes),
      (∀ k, d.Get (i.IndexKey k) = d2.Get (i.IndexKey k)) →
      (i.insert m d k pk).1 = (i.insert m d2 k pk).1 ∧
        ∀ k1, (i.insert m d k pk).2.Get (i.IndexKey k1)
          = (i.insert m d2 k pk).2.Get (i.IndexKey k1) := by
    intro d d2 k pk h
    obtain ⟨e, w, hw⟩ := Index.insert_shape m i k pk (d.Get (i.IndexKey k))
    rw [hw d rfl, hw d2 (h k).symm]
    exact ⟨rfl, fun k1 => KVStore.get_writeAt_agree _ _ _ _ _ (h k1)⟩
  have hrem : ∀ (d d2 : KVStore) (k pk : Bytes),
      (∀ k, d.Get (i.IndexKey k) = d2.Get (i.IndexKey k)) →
      (i.remove m d k pk).1 = (i.remove m d2 k pk).1 ∧
        ∀ k1, (i.remove m d k pk).2.Get (i.IndexKey k1)
          = (i.remove m d2 k pk).2.Get (i.IndexKey k1) := by
    intro d d2 k pk h
    obtain ⟨e, w, hw⟩ := Index.remove_shape m i k pk (d.Get (i.IndexKey k))
    rw [hw d rfl, hw d2 (h k).symm]
    exact ⟨rfl, fun k1 => KVStore.get_writeAt_agree _ _ _ _ _ (h k1)⟩
  cases prev with
  | none =>
    cases save with
    | none => exact ⟨rfl, hagree⟩
    | some s =>
      simp only [Index.Update]
      cases i.index s with
      | error e => exact ⟨rfl, hagree⟩
      | ok k => exact hins db db2 k s.Key hagree
  | some p =>
    cases save with
    | none =>
      simp only [Index.Update]
      cases i.index p with
      | error e => exact ⟨rfl, hagree⟩
      | ok k => exact hrem db db2 k p.Key hagree
    | some s =>
      simp only [Index.Update, Index.move]
      by_cases hpk : p.Key = s.Key
      swap
      · simp only [hpk, not_false_eq_true, if_true]
        exact ⟨trivial, hagree⟩
      simp only [hpk, not_true_eq_false, if_false]
      cases i.index p with
      | error e => exact ⟨rfl, hagree⟩
      | ok oldKey =>
        cases i.index s with
        | error e => exact ⟨rfl, hagree⟩
        | ok newKey =>
          by_cases hd : oldKey = newKey
          · simp only [hd, if_true]
            exact ⟨trivial, hagree⟩
          simp only [hd, if_false]
          rw [← hagree newKey]
          by_cases hprobe : i.unique = true ∧ oldKey.length ≠ 0 ∧
              db.Get (i.IndexKey newKey) ≠ none
          · rw [if_pos hprobe, if_pos hprobe]
            exact ⟨rfl, hagree⟩
          rw [if_neg hprobe, if_neg hprobe]
          obtain ⟨e, w, hw⟩ := Index.remove_shape m i oldKey s.Key (db.Get (i.IndexKey oldKey))
          rw [hw db rfl, hw db2 (hagree oldKey).symm]
          cases e with
          | some err =>
            exact ⟨rfl, fun k1 => KVStore.get_writeAt_agree _ _ _ _ _ (hagree k1)⟩
          | none =>
            exact hins _ _ newKey s.Key
              (fun k1 => KVStore.get_writeAt_agree _ _ _ _ _ (hagree k1))

/-- C27: two indexes whose names differ and contain no colon have no storage
key in common; hence an `Update` through one of them leaves every slot of the
other as it is, and its error and the slots it leaves outside the other index
are the same on two stores that differ only in slots of the other index. -/
theorem index_namespace_isolation (n1 n2 : Bytes) (ix1 ix2 : Indexer) (u1 u2 : Bool)
    (r1 r2 : Bytes → Bytes) (hne : n1 ≠ n2) (h1 : (58 : UInt8) ∉ n1) (h2 : (58 : UInt8) ∉ n2) :
    (∀ k1 k2, (NewIndex n1 ix1 u1 r1).IndexKey k1 ≠ (NewIndex n2 ix2 u2 r2).IndexKey k2) ∧
      (∀ (m : MultiRefImpl) (db : KVStore) (prev save : Option Object) (k2 : Bytes),
        ((NewIndex n1 ix1 u1 r1).Update m db prev save).2.Get
            ((NewIndex n2 ix2 u2 r2).IndexKey k2)
          = db.Get ((NewIndex n2 ix2 u2 r2).IndexKey k2)) ∧
      (∀ (m : MultiRefImpl) (db db2 : KVStore) (prev save : Option Object),
        (∀ x, (∀ k2, x ≠ (NewIndex n2 ix2 u2 r2).IndexKey k2) → db.Get x = db2.Get x) →
        ((NewIndex n1 ix1 u1 r1).Update m db prev save).1
            = ((NewIndex n1 ix1 u1 r1).Update m db2 prev save).1 ∧
          ∀ x, (∀ k2, x ≠ (NewIndex n2 ix2 u2 r2).IndexKey k2) →
            ((NewIndex n1 ix1 u1 r1).Update m db prev save).2.Get x
              = ((NewIndex n1 ix1 u1 r1).Update m db2 prev save).2.Get x) := by
  have hkeys : ∀ k1 k2,
      (NewIndex n1 ix1 u1 r1).IndexKey k1 ≠ (NewIndex n2 ix2 u2 r2).IndexKey k2 := by
    intro k1 k2 h
    simp only [Index.IndexKey, NewIndex, List.append_assoc, List.append_cancel_left_eq,
      List.singleton_append] at h
    exact hne (Bytes.colon_split n1 n2 k1 k2 h1 h2 h)
  refine ⟨hkeys, ?_, ?_⟩
  · intro m db prev save k2
    exact Index.update_frame m _ db prev save _ (fun k1 h => hkeys k1 k2 h.symm)
  · intro m db db2 prev save hdiff
    have hagree : ∀ k1, db.Get ((NewIndex n1 ix1 u1 r1).IndexKey k1)
        = db2.Get ((NewIndex n1 ix1 u1 r1).IndexKey k1) :=
      fun k1 => hdiff _ (fun k2 => hkeys k1 k2)
    obtain ⟨herr, hslots⟩ := Index.update_local m (NewIndex n1 ix1 u1 r1) db db2 prev save hagree
    refine ⟨herr, fun x hx => ?_⟩
    by_cases hin : ∃ k1, x = (NewIndex n1 ix1 u1 r1).IndexKey k1
    · obtain ⟨k1, rfl⟩ := hin
      exact hslots k1
    · have hout : ∀ k1, x ≠ (NewIndex n1 ix1 u1 r1).IndexKey k1 :=
        fun k1 h => hin ⟨k1, h⟩
      rw [Index.update_frame m _ db prev save x hout,
        Index.update_frame m _ db2 prev save x hout]
      exact hdiff x hx

/-- Instance of the isolation: the unique index "name" and the non-unique
index "grp"; an insert through "name" leaves the slot "grp" of "grp" alone. -/
theorem index_namespace_isolation_witness :
    uniqIdx.IndexKey (ascii "grp") ≠ multiIdx.IndexKey (ascii "grp") ∧
      (uniqIdx.Update specMultiRef dbGrp none (some alice1)).2.Get
          (multiIdx.IndexKey (ascii "grp"))
        = dbGrp.Get (multiIdx.IndexKey (ascii "grp")) :=
  ⟨(index_namespace_isolation (ascii "name") (ascii "grp") valueIndexer valueIndexer true false
      id id (by decide) (by decide) (by decide)).1 (ascii "grp") (ascii "grp"),
    (index_namespace_isolation (ascii "name") (ascii "grp") valueIndexer valueIndexer true false
      id id (by decide) (by decide) (by decide)).2.1 specMultiRef dbGrp none (some alice1)
      (ascii "grp")⟩

end orm

/-! ## The generated codec: sizes and the encoder -/

namespace set_validators

open orm (Bytes)

/-- The loop of `sovCodec` adds between one and `fuel` to the count. -/
theorem sovLoop_bounds (fuel n x : Nat) (hf : 0 < fuel) :
    n + 1 ≤ sovLoop fuel n x ∧ sovLoop fuel n x ≤ n + fuel := by
  induction fuel generalizing n x with
  | zero => omega
  | succ f ih =>
    unfold sovLoop
    split
    · omega
    · cases f with
      | zero => simp [sovLoop]
      | succ g =>
        have h := ih (n + 1) (x >>> 7) (by omega)
        omega

/-- The loop of `sovCodec` counts the bytes of the varint. -/
theorem sovLoop_eq_length (fuel n x : Nat) :
    sovLoop (fuel + 1) n x = n + (varintBytesLoop fuel x).length := by
  induction fuel generalizing n x with
  | zero =>
    simp only [sovLoop, varintBytesLoop, List.length_singleton]
    split <;> rfl
  | succ f ih =>
    have hx : x >>> 7 = 0 ↔ ¬ (x ≥ 2 ^ 7) := by
      rw [Nat.shiftRight_eq_div_pow]
      constructor
      · intro h
        have := (Nat.div_eq_zero_iff (by norm_num : 0 < 2 ^ 7)).mp h
        omega
      · intro h
        exact (Nat.div_eq_zero_iff (by norm_num : 0 < 2 ^ 7)).mpr (by omega)
    rw [sovLoop, varintBytesLoop]
    by_cases h : x ≥ 2 ^ 7
    · rw [if_neg (fun h0 => (hx.mp h0) h), if_pos h, ih]
      simp only [List.length_cons]
      omega
    · rw [if_pos (hx.mpr h), if_neg h]
      simp

/-- The size `sovCodec` computes is the number of bytes of the varint. -/
theorem sovCodec_eq_length (v : Nat) : sovCodec v = (varintBytes v).length := by
  unfold sovCodec varintBytes
  rw [sovLoop_eq_length]
  omega

/-- An assignment inside the buffer replaces the byte at that place. -/
theorem setByte_append (pre rest : Bytes) (x b : UInt8) (i : Nat) (hi : i = pre.length) :
    setByte (pre ++ x :: rest) i b = some (pre ++ b :: rest) := by
  subst hi
  have hlt : pre.length < (pre ++ x :: rest).length := by simp
  simp [setByte, hlt]

/-- The loop of `encodeVarintCodec` writes the varint over as many bytes of the
buffer and returns the offset after them. -/
theorem encodeVarintLoop_append (fuel v : Nat) (pre mid post : Bytes) (i : Nat)
    (hi : i = pre.length) (hmid : mid.length = (varintBytesLoop fuel v).length) :
    encodeVarintLoop fuel (pre ++ (mid ++ post)) i v
      = some (pre ++ (varintBytesLoop fuel v ++ post), i + (varintBytesLoop fuel v).length) := by
  induction fuel generalizing v pre mid i with
  | zero =>
    simp only [varintBytesLoop, List.length_singleton] at hmid
    obtain ⟨x, rfl⟩ := List.length_eq_one.mp hmid
    simp only [encodeVarintLoop, varintBytesLoop, List.singleton_append, List.length_singleton]
    rw [setByte_append pre post x _ i hi]
    rfl
  | succ f ih =>
    by_cases h : v ≥ 2 ^ 7
    · simp only [varintBytesLoop, if_pos h, List.length_cons] at hmid
      cases mid with
      | nil => simp at hmid
      | cons x mid1 =>
        simp only [List.length_cons, Nat.add_right_cancel_iff] at hmid
        simp only [encodeVarintLoop, varintBytesLoop, if_pos h, List.cons_append]
        rw [setByte_append pre (mid1 ++ post) x _ i hi]
        have hstep := ih (v >>> 7) (pre ++ [UInt8.ofNat (v &&& 0x7f ||| 0x80)]) mid1 (i + 1)
          (by simp [hi]) hmid
        simp only [List.append_assoc, List.singleton_append] at hstep
        show encodeVarintLoop f _ (i + 1) (v >>> 7) = _
        rw [hstep]
        simp only [List.length_cons]
        congr 2
        omega
    · simp only [varintBytesLoop, if_neg h, List.length_singleton] at hmid
      obtain ⟨x, rfl⟩ := List.length_eq_one.mp hmid
      simp only [encodeVarintLoop, varintBytesLoop, if_neg h, List.singleton_append,
        List.length_singleton]
      rw [setByte_append pre post x _ i hi]
      rfl

/-- `encodeVarintCodec` writes the varint over as many bytes of the buffer. -/
theorem encodeVarintCodec_append (v : Nat) (pre mid post : Bytes) (i : Nat)
    (hi : i = pre.length) (hmid : mid.length = (varintBytes v).length) :
    encodeVarintCodec (pre ++ (mid ++ post)) i v
      = some (pre ++ (varintBytes v ++ post), i + (varintBytes v).length) :=
  encodeVarintLoop_append 9 (v % 2 ^ 64) pre mid post i hi hmid

/-- A copy into a room of the size of the source copies the source. -/
theorem copyAt_append (src pre mid post : Bytes) (i : Nat) (hi : i = pre.length)
    (hmid : mid.length = src.length) :
    copyAt (pre ++ (mid ++ post)) i src = some (pre ++ (src ++ post), src.length) := by
  subst hi
  have hle : pre.length ≤ (pre ++ (mid ++ post)).length := by simp
  have hmin : min ((pre ++ (mid ++ post)).length - pre.length) src.length = src.length := by
    simp [hmid]
  have hdrop : List.drop (pre.length + src.length) (pre ++ (mid ++ post)) = post := by
    rw [← hmid, ← List.drop_drop]
    simp
  simp only [copyAt, hle, if_true, hmin, hdrop, List.take_left', List.take_length]

/-- A buffer with room for `n` bytes at its head splits there. -/
theorem split_room (buf : Bytes) (n : Nat) (h : n ≤ buf.length) :
    ∃ mid post, buf = mid ++ post ∧ mid.length = n :=
  ⟨buf.take n, buf.drop n, (List.take_append_drop n buf).symm, by simp [h]⟩

/-- The statements `dAtA[i] = b; i++` write the byte. -/
theorem Writes.putByte (b : UInt8) : Writes (putByte b) [b] := by
  intro pre mid post hmid
  obtain ⟨x, rfl⟩ := List.length_eq_one.mp hmid
  simp only [set_validators.putByte, List.singleton_append]
  rw [setByte_append pre post x b pre.length rfl]
  rfl

/-- The statement `i = encodeVarintCodec(dAtA, i, v)` writes the varint. -/
theorem Writes.putVarint (v : Nat) : Writes (putVarint v) (varintBytes v) := by
  intro pre mid post hmid
  exact encodeVarintCodec_append v pre mid post pre.length rfl hmid

/-- The statement `i += copy(dAtA[i:], src)` writes the source. -/
theorem Writes.putCopy (src : Bytes) : Writes (putCopy src) src := by
  intro pre mid post hmid
  simp only [set_validators.putCopy]
  rw [copyAt_append src pre mid post pre.length rfl hmid]
  rfl

/-- Two statements in sequence write the bytes of the first, then those of the
second. -/
theorem Writes.seq {w1 w2 : Writer} {a b : Bytes} (h1 : Writes w1 a) (h2 : Writes w2 b) :
    Writes (w1.seq w2) (a ++ b) := by
  intro pre mid post hmid
  simp only [List.length_append] at hmid
  obtain ⟨m1, m2, rfl, hm1⟩ := split_room mid a.length (by omega)
  have hm2 : m2.length = b.length := by
    simp only [List.length_append] at hmid
    omega
  have e1 := h1 pre m1 (m2 ++ post) hm1
  have e2 := h2 (pre ++ a) m2 post hm2
  simp only [List.append_assoc, List.length_append] at e1 e2 ⊢
  simp only [Writer.seq, e1, Option.some_bind, e2]
  congr 2
  omega

/-- A guarded statement writes its bytes when the guard holds and nothing
otherwise. -/
theorem Writes.when {w : Writer} {a : Bytes} (c : Prop) [Decidable c] (h : Writes w a) :
    Writes (Writer.when c w) (if c then a else []) := by
  intro pre mid post hmid
  by_cases hc : c
  · simp only [hc, if_true] at hmid ⊢
    simp only [Writer.when, hc, if_true]
    exact h pre mid post hmid
  · simp only [hc, if_false, List.length_nil] at hmid ⊢
    rw [List.length_eq_zero.mp hmid]
    simp [Writer.when, hc]

/-- A call of a `MarshalTo` on the tail of the buffer writes what the callee
writes at the head of a buffer. -/
theorem Writes.putSub (f : Bytes → Option (Bytes × Nat)) (bz : Bytes)
    (hf : ∀ mid post : Bytes, mid.length = bz.length →
      f (mid ++ post) = some (bz ++ post, bz.length)) :
    Writes (putSub f) bz := by
  intro pre mid post hmid
  have hle : pre.length ≤ (pre ++ (mid ++ post)).length := by simp
  simp only [set_validators.putSub, hle, if_true, List.drop_left, hf mid post hmid,
    Option.map_some', List.take_left]

/-- The statements of a length-delimited field write its wire format. -/
theorem Writes.putBytesField (tag : UInt8) (src : Bytes) :
    Writes (putBytesField tag src) (fieldBytes tag src) :=
  (Writes.putByte tag).seq ((Writes.putVarint src.length).seq (Writes.putCopy src))

/-- A `MarshalTo` whose statements write `bz` writes `bz` at the head of the
buffer and returns its length. -/
theorem Writes.at_head {w : Writer} {bz : Bytes} (h : Writes w bz) (mid post : Bytes)
    (hmid : mid.length = bz.length) :
    w (mid ++ post, 0) = some (bz ++ post, bz.length) := by
  have e := h [] mid post hmid
  simpa using e

/-- The length of the wire format of a length-delimited field. -/
theorem fieldBytes_length (tag : UInt8) (src : Bytes) :
    (fieldBytes tag src).length = 1 + src.length + sovCodec src.length := by
  simp only [fieldBytes, List.length_cons, List.length_append, sovCodec_eq_length]
  omega

/-- `PubKey.Size` is the length of the wire format. -/
theorem pubKey_size_eq (m : PubKey) : m.Size = m.bytes.length := by
  simp only [PubKey.Size, PubKey.bytes, List.length_append]
  split <;> split <;> simp [fieldBytes_length]

/-- `Validator.Size` is the length of the wire format. -/
theorem validator_size_eq (m : Validator) : m.Size = m.bytes.length := by
  simp only [Validator.Size, Validator.bytes, List.length_append, fieldBytes_length,
    ← pubKey_size_eq]
  split <;> split <;>
    simp [fieldBytes_length, sovCodec_eq_length] <;> omega

/-- `SetValidators.Size` is the length of the wire format. -/
theorem setValidators_size_eq (m : SetValidators) : m.Size = m.bytes.length := by
  have hloop : ∀ (l : List Validator) (n : Nat),
      SetValidators.sizeLoop l n = n + (SetValidators.bytesLoop l).length := by
    intro l
    induction l with
    | nil => intro n; simp [SetValidators.sizeLoop, SetValidators.bytesLoop]
    | cons e rest ih =>
      intro n
      simp only [SetValidators.sizeLoop, SetValidators.bytesLoop, ih, List.length_append,
        fieldBytes_length, ← validator_size_eq]
      omega
  unfold SetValidators.Size SetValidators.bytes
  split
  · rw [hloop]; omega
  · rename_i h
    have hnil : m.Validators = [] := by
      cases hv : m.Validators with
      | nil => rfl
      | cons a b => rw [hv] at h; simp at h
    rw [hnil]
    rfl

/-- The statements of `PubKey.MarshalTo` write the wire format. -/
theorem pubKey_writes (m : PubKey) : Writes m.marshalBody m.bytes :=
  (Writes.when _ (Writes.putBytesField 0xa m.Typ)).seq
    (Writes.when _ (Writes.putBytesField 0x12 m.Data))

/-- `PubKey.MarshalTo` writes the wire format at the head of a buffer that has
room for it and returns its length. -/
theorem pubKey_marshalTo_append (m : PubKey) (mid post : Bytes)
    (hmid : mid.length = m.bytes.length) :
    m.MarshalTo (mid ++ post) = some (m.bytes ++ post, m.bytes.length) :=
  (pubKey_writes m).at_head mid post hmid

/-- The statements of `Validator.MarshalTo` write the wire format. -/
theorem validator_writes (m : Validator) : Writes m.marshalBody m.bytes := by
  have h := (Writes.when (m.Address.length > 0) (Writes.putBytesField 0xa m.Address)).seq
    ((Writes.putByte 0x12).seq
      ((Writes.putVarint m.PubKey.Size).seq
        ((Writes.putSub m.PubKey.MarshalTo m.PubKey.bytes (pubKey_marshalTo_append m.PubKey)).seq
          (Writes.when (m.Power ≠ 0)
            ((Writes.putByte 0x18).seq (Writes.putVarint (toUint64 m.Power)))))))
  have hb : m.bytes = (if m.Address.length > 0 then fieldBytes 0xa m.Address else []) ++
      ([0x12] ++ (varintBytes m.PubKey.Size ++ (m.PubKey.bytes ++
        (if m.Power ≠ 0 then [0x18] ++ varintBytes (toUint64 m.Power) else [])))) := by
    simp only [Validator.bytes, fieldBytes, pubKey_size_eq, List.singleton_append,
      List.cons_append, List.append_assoc, List.nil_append]
  rw [hb]
  exact h

/-- `Validator.MarshalTo` writes the wire format at the head of a buffer that
has room for it and returns its length. -/
theorem validator_marshalTo_append (m : Validator) (mid post : Bytes)
    (hmid : mid.length = m.bytes.length) :
    m.MarshalTo (mid ++ post) = some (m.bytes ++ post, m.bytes.length) :=
  (validator_writes m).at_head mid post hmid

/-- The loop of `SetValidators.MarshalTo` writes the wire format of the
validators. -/
theorem SetValidators.writesLoop (l : List Validator) :
    Writes (SetValidators.marshalLoop l) (SetValidators.bytesLoop l) := by
  induction l with
  | nil =>
    intro pre mid post hmid
    simp only [SetValidators.bytesLoop, List.length_nil] at hmid ⊢
    rw [List.length_eq_zero.mp hmid]
    simp [SetValidators.marshalLoop]
  | cons msg rest ih =>
    have h := (Writes.putByte 0xa).seq
      ((Writes.putVarint msg.Size).seq
        ((Writes.putSub msg.MarshalTo msg.bytes (validator_marshalTo_append msg)).seq ih))
    have hb : SetValidators.bytesLoop (msg :: rest)
        = [0xa] ++ (varintBytes msg.Size ++ (msg.bytes ++ SetValidators.bytesLoop rest)) := by
      simp only [SetValidators.bytesLoop, fieldBytes, validator_size_eq, List.singleton_append,
        List.cons_append, List.append_assoc, List.nil_append]
    rw [hb]
    exact h

/-- `SetValidators.MarshalTo` writes the wire format at the head of a buffer
that has room for it and returns its length. -/
theorem setValidators_marshalTo_append (m : SetValidators) (mid post : Bytes)
    (hmid : mid.length = m.bytes.length) :
    m.MarshalTo (mid ++ post) = some (m.bytes ++ post, m.bytes.length) := by
  have h := Writes.when (m.Validators.length > 0) (SetValidators.writesLoop m.Validators)
  have hb : (if m.Validators.length > 0 then SetValidators.bytesLoop m.Validators else [])
      = m.bytes := by
    unfold SetValidators.bytes
    split
    · rfl
    · rename_i hl
      have hnil : m.Validators = [] := by
        cases hv : m.Validators with
        | nil => rfl
        | cons a b => rw [hv] at hl; simp at hl
      rw [hnil]
      rfl
  rw [hb] at h
  exact h.at_head mid post hmid

/-- A `Marshal` whose `MarshalTo` writes `bz` on a buffer of the size returns
`bz`. -/
theorem marshalWith_eq (size : Nat) (f : Bytes → Option (Bytes × Nat)) (bz : Bytes)
    (hsize : size = bz.length)
    (hf : ∀ mid post : Bytes, mid.length = bz.length →
      f (mid ++ post) = some (bz ++ post, bz.length)) :
    f (List.replicate size 0) = some (bz, size) ∧ marshalWith size f = some bz := by
  have e := hf (List.replicate size 0) [] (by simp [hsize])
  simp only [List.append_nil] at e
  refine ⟨by rw [e, hsize], ?_⟩
  simp [marshalWith, e]

end set_validators

/-! ## The generated codec: the decoder on the wire format -/

namespace set_validators

open orm (Bytes)

/-- The element that follows a prefix. -/
theorem get?_append_cons (pre rest : Bytes) (b : UInt8) :
    (pre ++ b :: rest).get? pre.length = some b := by
  induction pre with
  | nil => rfl
  | cons x xs ih => simpa using ih

/-- The byte at the end of a prefix. -/
theorem byteAt_append (pre rest : Bytes) (b : UInt8) (i : Int) (hi : i = pre.length) :
    byteAt (pre ++ b :: rest) i = some b := by
  subst hi
  have h0 : ¬ ((pre.length : Int) < 0) := by omega
  rw [byteAt, if_neg h0, Int.toNat_natCast]
  exact get?_append_cons pre rest b

/-- The continuation byte of a varint: its low seven bits and its value. -/
theorem continuation_byte (v : Nat) :
    (UInt8.ofNat ((v &&& 0x7f) ||| 0x80)).toNat = v % 128 + 128 := by
  have hand : v &&& 0x7f = v % 128 := Nat.and_pow_two_sub_one_eq_mod v 7
  have hor : (v % 128) ||| 0x80 = v % 128 + 128 := by
    have h := Nat.mul_add_lt_is_or (i := 7) (b := v % 128) (Nat.mod_lt _ (by norm_num)) 1
    norm_num at h
    rw [Nat.lor_comm, ← h]
    omega
  rw [hand, hor]
  have hlt : v % 128 + 128 < 256 := by omega
  show (v % 128 + 128) % 256 = v % 128 + 128
  exact Nat.mod_eq_of_lt hlt

/-- The last byte of a varint is its value. -/
theorem final_byte (v : Nat) (hv : v < 128) : (UInt8.ofNat v).toNat = v := by
  have hlt : v < 256 := by omega
  show v % 256 = v
  exact Nat.mod_eq_of_lt hlt

/-- Adding seven bits above an accumulator of `shift` bits. -/
theorem accumulate (acc x shift : Nat) (hacc : acc < 2 ^ shift) (hx : x * 2 ^ shift < 2 ^ 64) :
    acc ||| ((x <<< shift) % 2 ^ 64) = acc + x * 2 ^ shift := by
  rw [Nat.shiftLeft_eq, Nat.mod_eq_of_lt hx, Nat.lor_comm, Nat.mul_comm,
    ← Nat.mul_add_lt_is_or hacc x]
  omega

/-- The varint loop reads back the varint of a value that fits in the bits left:
at a shift of `63 - 7 * fuel` it adds the value, shifted, to the accumulator
and stops after the varint. -/
theorem readVarintLoop_varint (fuel : Nat) (v acc shift : Nat) (pre post : Bytes) (l : Int)
    (hshift : shift + 7 * fuel = 63) (hv : v * 2 ^ shift < 2 ^ 64) (hacc : acc < 2 ^ shift)
    (hl : l = ((pre ++ (varintBytesLoop fuel v ++ post)).length : Nat)) :
    readVarintLoop (pre ++ (varintBytesLoop fuel v ++ post)) l (fuel + 1) shift acc pre.length
      = .ok (acc + v * 2 ^ shift, ((pre.length + (varintBytesLoop fuel v).length : Nat) : Int)) := by
  induction fuel generalizing v acc shift pre with
  | zero =>
    have hs : shift = 63 := by omega
    subst hs
    have hv1 : v < 128 := by
      have : v * 2 ^ 63 < 2 * 2 ^ 63 := by
        calc v * 2 ^ 63 < 2 ^ 64 := hv
          _ = 2 * 2 ^ 63 := by norm_num
      have := Nat.lt_of_mul_lt_mul_right this
      omega
    simp only [varintBytesLoop, List.singleton_append, List.length_append, List.length_cons,
      List.length_singleton] at hl ⊢
    have hge : ¬ ((pre.length : Int) ≥ l) := by rw [hl]; push_cast; omega
    have hb := final_byte v hv1
    have hand : v &&& 0x7F = v := by
      have := Nat.and_pow_two_sub_one_eq_mod v 7
      simp only [Nat.reducePow, Nat.add_one_sub_one] at this
      rw [this]; omega
    simp only [readVarintLoop, ge_iff_le, show ¬ (64 ≤ 63) by omega, if_false, hge,
      byteAt_append pre post _ _ rfl, hb, hand, hv1, if_true,
      accumulate acc v 63 hacc hv]
    push_cast
    rfl
  | succ f ih =>
    have hs : shift ≤ 56 := by omega
    have hshift64 : ¬ (shift ≥ 64) := by omega
    by_cases h : v ≥ 2 ^ 7
    · simp only [varintBytesLoop, if_pos h, List.cons_append, List.length_append,
        List.length_cons] at hl ⊢
      have hge : ¬ ((pre.length : Int) ≥ l) := by rw [hl]; push_cast; omega
      have hb := continuation_byte v
      have hand : (v % 128 + 128) &&& 0x7F = v % 128 := by
        have := Nat.and_pow_two_sub_one_eq_mod (v % 128 + 128) 7
        simp only [Nat.reducePow, Nat.add_one_sub_one] at this
        rw [this]; omega
      have hpow : 2 ^ (shift + 7) = 128 * 2 ^ shift := by
        rw [Nat.pow_add]; norm_num [Nat.mul_comm]
      have hpos : 0 < 2 ^ shift := Nat.two_pow_pos shift
      have hvd : v = 128 * (v / 128) + v % 128 := (Nat.div_add_mod v 128).symm
      have hx : (v % 128) * 2 ^ shift < 2 ^ 64 := by
        calc (v % 128) * 2 ^ shift ≤ v * 2 ^ shift :=
              Nat.mul_le_mul_right _ (Nat.mod_le v 128)
          _ < 2 ^ 64 := hv
      have hnot : ¬ (v % 128 + 128 < 0x80) := by omega
      rw [readVarintLoop]
      simp only [hshift64, if_false, hge, byteAt_append pre _ _ _ rfl, hb, hand, hnot,
        accumulate acc (v % 128) shift hacc hx]
      have hacc1 : acc + v % 128 * 2 ^ shift < 2 ^ (shift + 7) := by
        rw [hpow]
        have : v % 128 * 2 ^ shift ≤ 127 * 2 ^ shift :=
          Nat.mul_le_mul_right _ (by omega)
        omega
      have hv1 : (v >>> 7) * 2 ^ (shift + 7) < 2 ^ 64 := by
        rw [Nat.shiftRight_eq_div_pow, hpow]
        have h1 : v / 2 ^ 7 * (128 * 2 ^ shift) = (128 * (v / 128)) * 2 ^ shift := by
          norm_num; ring
        rw [h1]
        calc 128 * (v / 128) * 2 ^ shift ≤ v * 2 ^ shift :=
              Nat.mul_le_mul_right _ (by omega)
          _ < 2 ^ 64 := hv
      have hstep := ih (v >>> 7) (acc + v % 128 * 2 ^ shift) (shift + 7)
        (pre ++ [UInt8.ofNat ((v &&& 0x7f) ||| 0x80)]) (by omega) hv1 hacc1
        (by rw [hl]; simp)
      simp only [List.append_assoc, List.singleton_append, List.length_append,
        List.length_singleton] at hstep
      have hidx : ((pre.length : Int) + 1) = ((pre.length + 1 : Nat) : Int) := by push_cast; rfl
      rw [hidx, hstep]
      have hsum : acc + v % 128 * 2 ^ shift + (v >>> 7) * 2 ^ (shift + 7) = acc + v * 2 ^ shift := by
        rw [Nat.shiftRight_eq_div_pow, hpow]
        have h2 : v * 2 ^ shift = (128 * (v / 128) + v % 128) * 2 ^ shift := by rw [← hvd]
        rw [h2]
        norm_num
        ring
      rw [hsum]
      congr 2
      push_cast
      omega
    · have hv1 : v < 128 := by
        have : ¬ (v ≥ 128) := by simpa using h
        omega
      simp only [varintBytesLoop, if_neg h, List.singleton_append, List.length_append,
        List.length_cons, List.length_singleton] at hl ⊢
      have hge : ¬ ((pre.length : Int) ≥ l) := by rw [hl]; push_cast; omega
      have hb := final_byte v hv1
      have hand : v &&& 0x7F = v := by
        have := Nat.and_pow_two_sub_one_eq_mod v 7
        simp only [Nat.reducePow, Nat.add_one_sub_one] at this
        rw [this]; omega
      rw [readVarintLoop]
      simp only [hshift64, if_false, hge, byteAt_append pre post _ _ rfl, hb, hand, hv1,
        if_true, accumulate acc v shift hacc hv]
      push_cast
      rfl

/-- The varint loop of the decoder reads back the varint of a 64-bit value. -/
theorem readVarint_varint (v : Nat) (hv : v < 2 ^ 64) (pre post : Bytes) (l : Int)
    (hl : l = ((pre ++ (varintBytes v ++ post)).length : Nat)) :
    readVarint (pre ++ (varintBytes v ++ post)) l pre.length
      = .ok (v, ((pre.length + (varintBytes v).length : Nat) : Int)) := by
  have h := readVarintLoop_varint 9 (v % 2 ^ 64) 0 0 pre post l (by norm_num)
    (by rw [Nat.mod_eq_of_lt hv]; simpa using hv) (by norm_num) hl
  simp only [Nat.mod_eq_of_lt hv, Nat.pow_zero, Nat.mul_one, Nat.zero_add] at h
  unfold readVarint varintBytes
  rw [Nat.mod_eq_of_lt hv]
  exact h

end set_validators

namespace set_validators

open orm (Bytes)

/-- A pattern below `2^63` is its own signed value. -/
theorem toInt64_small (n : Nat) (h : n < 2 ^ 63) : toInt64 n = n := by
  have h1 : n % 2 ^ 64 = n := Nat.mod_eq_of_lt (by omega)
  simp only [toInt64, h1, h, if_true]

/-- An `int` result inside the range is not wrapped. -/
theorem wrapInt_small (z : Int) (h0 : 0 ≤ z) (h1 : z < 2 ^ 63) : wrapInt z = z := by
  obtain ⟨n, rfl⟩ := Int.eq_ofNat_of_zero_le h0
  have hn : n < 2 ^ 63 := by exact_mod_cast h1
  have hmod : ((n : Int) % 2 ^ 64).toNat = n := by
    have : ((n : Int) % 2 ^ 64) = ((n % 2 ^ 64 : Nat) : Int) := by push_cast; rfl
    rw [this, Int.toNat_natCast]
    exact Nat.mod_eq_of_lt (by omega)
  rw [wrapInt, toUint64, hmod]
  exact toInt64_small n hn

/-- The pattern of an `int64` is read back as the same `int64`. -/
theorem toInt64_toUint64 (z : Int) (h0 : -2 ^ 63 ≤ z) (h1 : z < 2 ^ 63) :
    toInt64 (toUint64 z) = z := by
  have hnn : 0 ≤ z % 2 ^ 64 := Int.emod_nonneg z (by norm_num)
  have hlt : z % 2 ^ 64 < 2 ^ 64 := Int.emod_lt_of_pos z (by norm_num)
  have hcast : ((toUint64 z : Nat) : Int) = z % 2 ^ 64 := by
    rw [toUint64, Int.toNat_of_nonneg hnn]
  have hlt2 : toUint64 z < 2 ^ 64 := by
    have : ((toUint64 z : Nat) : Int) < 2 ^ 64 := by rw [hcast]; exact hlt
    exact_mod_cast this
  have hmod : toUint64 z % 2 ^ 64 = toUint64 z := Nat.mod_eq_of_lt hlt2
  unfold toInt64
  rw [hmod]
  by_cases hz : 0 ≤ z
  · have e : z % 2 ^ 64 = z := Int.emod_eq_of_lt hz (by omega)
    have hsmall : toUint64 z < 2 ^ 63 := by
      have : ((toUint64 z : Nat) : Int) < 2 ^ 63 := by rw [hcast, e]; exact h1
      exact_mod_cast this
    rw [if_pos hsmall, hcast, e]
  · have e : z % 2 ^ 64 = z + 2 ^ 64 := by
      have h2 : (z + 2 ^ 64) % 2 ^ 64 = z % 2 ^ 64 := by
        rw [Int.add_emod_self]
      rw [← h2]
      exact Int.emod_eq_of_lt (by omega) (by omega)
    have hbig : ¬ (toUint64 z < 2 ^ 63) := by
      intro hs
      have : ((toUint64 z : Nat) : Int) < 2 ^ 63 := by exact_mod_cast hs
      rw [hcast, e] at this
      omega
    rw [if_neg hbig, hcast, e]
    omega

/-- The pattern of an integer is a 64-bit value. -/
theorem toUint64_lt (z : Int) : toUint64 z < 2 ^ 64 := by
  have hnn : 0 ≤ z % 2 ^ 64 := Int.emod_nonneg z (by norm_num)
  have hlt : z % 2 ^ 64 < 2 ^ 64 := Int.emod_lt_of_pos z (by norm_num)
  have : ((toUint64 z : Nat) : Int) < 2 ^ 64 := by
    rw [toUint64, Int.toNat_of_nonneg hnn]; exact hlt
  exact_mod_cast this

/-- The slice that follows a prefix. -/
theorem slice_append (pre src post : Bytes) (lo hi : Int) (hlo : lo = pre.length)
    (hhi : hi = ((pre.length + src.length : Nat) : Int)) :
    slice (pre ++ (src ++ post)) lo hi = some src := by
  subst hlo hhi
  have hcond : (0 : Int) ≤ (pre.length : Int) ∧
      (pre.length : Int) ≤ ((pre.length + src.length : Nat) : Int) ∧
      ((pre.length + src.length : Nat) : Int) ≤ ((pre ++ (src ++ post)).length : Int) := by
    refine ⟨by omega, by push_cast; omega, ?_⟩
    simp only [List.length_append]
    push_cast
    omega
  have hsub : (((pre.length + src.length : Nat) : Int) - (pre.length : Int)).toNat = src.length := by
    push_cast
    omega
  rw [slice, if_pos hcond, Int.toNat_natCast, hsub]
  simp

/-- The common part of a length-delimited field reads back the bytes of the
field and stops after them. -/
theorem readDelimited_field (src pre post : Bytes) (l : Int)
    (hl : l = ((pre ++ (varintBytes src.length ++ (src ++ post))).length : Nat))
    (hbound : l < 2 ^ 63) :
    readDelimited (pre ++ (varintBytes src.length ++ (src ++ post))) l pre.length
      = .ok (src, ((pre.length + ((varintBytes src.length).length + src.length) : Nat) : Int)) := by
  have hlen : src.length < 2 ^ 63 := by
    have h1 : (src.length : Int) ≤ l := by
      rw [hl]; simp only [List.length_append]; push_cast; omega
    have : (src.length : Int) < 2 ^ 63 := by omega
    exact_mod_cast this
  have hread := readVarint_varint src.length (by omega) pre (src ++ post) l hl
  have hpost : wrapInt (((pre.length + (varintBytes src.length).length : Nat) : Int)
      + (src.length : Int))
      = ((pre.length + ((varintBytes src.length).length + src.length) : Nat) : Int) := by
    rw [wrapInt_small]
    · push_cast; omega
    · omega
    · have h1 : ((pre.length + (varintBytes src.length).length : Nat) : Int)
          + (src.length : Int) ≤ l := by
        rw [hl]; simp only [List.length_append]; push_cast; omega
      omega
  have hle : ¬ (((pre.length + ((varintBytes src.length).length + src.length) : Nat) : Int) > l) := by
    rw [hl]; simp only [List.length_append]; push_cast; omega
  have hslice := slice_append (pre ++ varintBytes src.length) src post
    ((pre.length + (varintBytes src.length).length : Nat) : Int)
    ((pre.length + ((varintBytes src.length).length + src.length) : Nat) : Int)
    (by simp) (by simp; omega)
  simp only [List.append_assoc] at hslice
  have hneg : ¬ ((src.length : Int) < 0) := by omega
  simp only [readDelimited, hread, Result.bind, toInt64_small _ hlen, hneg, if_false, hpost,
    hle, hslice]

/-- The varint of a value below `128` is one byte. -/
theorem varintBytes_small (v : Nat) (hv : v < 128) : varintBytes v = [UInt8.ofNat v] := by
  have h1 : v % 2 ^ 64 = v := Nat.mod_eq_of_lt (by omega)
  have h2 : ¬ (v ≥ 2 ^ 7) := by norm_num; omega
  simp only [varintBytes, h1, varintBytesLoop, h2, if_false]

/-- The varint loop reads a tag of one byte. -/
theorem readVarint_tag (t : Nat) (ht : t < 128) (pre rest : Bytes) (l : Int)
    (hl : l = ((pre ++ UInt8.ofNat t :: rest).length : Nat)) :
    readVarint (pre ++ UInt8.ofNat t :: rest) l pre.length
      = .ok (t, ((pre.length + 1 : Nat) : Int)) := by
  have h := readVarint_varint t (by omega) pre rest l
    (by rw [varintBytes_small t ht]; exact hl)
  rw [varintBytes_small t ht] at h
  exact h

end set_validators

namespace set_validators

open orm (Bytes)

/-- After the tag of a length-delimited field, the common part reads the bytes
of the field. -/
theorem readDelimited_after_tag (t : UInt8) (src pre post dAtA : Bytes) (l : Int)
    (hd : dAtA = pre ++ (fieldBytes t src ++ post)) (hl : l = (dAtA.length : Nat))
    (hbound : l < 2 ^ 63) :
    readDelimited dAtA l ((pre.length + 1 : Nat) : Int)
      = .ok (src, ((pre.length + (fieldBytes t src).length : Nat) : Int)) := by
  have hd2 : dAtA = (pre ++ [t]) ++ (varintBytes src.length ++ (src ++ post)) := by
    rw [hd]; simp [fieldBytes]
  have h := readDelimited_field src (pre ++ [t]) post l (by rw [hl, hd2]) hbound
  rw [← hd2] at h
  have e1 : ((pre ++ [t]).length : Int) = ((pre.length + 1 : Nat) : Int) := by simp
  rw [e1] at h
  rw [h]
  have e2 : (pre ++ [t]).length + ((varintBytes src.length).length + src.length)
      = pre.length + (fieldBytes t src).length := by
    simp [fieldBytes]; omega
  rw [e2]

/-- The tag of a field is read as one byte. -/
theorem readVarint_fieldTag (t : Nat) (ht : t < 128) (rest pre dAtA : Bytes) (l : Int)
    (hd : dAtA = pre ++ (UInt8.ofNat t :: rest)) (hl : l = (dAtA.length : Nat)) :
    readVarint dAtA l pre.length = .ok (t, ((pre.length + 1 : Nat) : Int)) := by
  subst hd
  exact readVarint_tag t ht pre rest l hl

/-- One round of the loop of `PubKey.Unmarshal` on the field `Type`. -/
theorem PubKey.unmarshalLoop_Typ (fuel : Nat) (m m1 : PubKey) (src pre post dAtA : Bytes)
    (l iNdEx next : Int)
    (hd : dAtA = pre ++ (fieldBytes 0xa src ++ post)) (hl : l = (dAtA.length : Nat))
    (hbound : l < 2 ^ 63) (hm : m1 = { m with Typ := src }) (hi : iNdEx = pre.length)
    (hn : next = ((pre.length + (fieldBytes 0xa src).length : Nat) : Int)) :
    PubKey.unmarshalLoop dAtA l (fuel + 1) m iNdEx = PubKey.unmarshalLoop dAtA l fuel m1 next := by
  subst hm hi hn
  have hlt : (pre.length : Int) < l := by
    rw [hl, hd]; simp [fieldBytes]; omega
  have htag := readVarint_fieldTag 10 (by norm_num) (varintBytes src.length ++ (src ++ post))
    pre dAtA l (by rw [hd]; simp [fieldBytes]) hl
  have hdel := readDelimited_after_tag 0xa src pre post dAtA l hd hl hbound
  rw [PubKey.unmarshalLoop, if_pos hlt, htag]
  simp only [Result.bind]
  have h1 : toInt64 (10 &&& 0x7) = 2 := by decide
  have h2 : toInt32 (10 >>> 3) = 1 := by decide
  simp only [h1, h2, hdel, Result.bind]
  simp

/-- One round of the loop of `PubKey.Unmarshal` on the field `Data`. -/
theorem PubKey.unmarshalLoop_Data (fuel : Nat) (m m1 : PubKey) (src pre post dAtA : Bytes)
    (l iNdEx next : Int)
    (hd : dAtA = pre ++ (fieldBytes 0x12 src ++ post)) (hl : l = (dAtA.length : Nat))
    (hbound : l < 2 ^ 63) (hm : m1 = { m with Data := src }) (hi : iNdEx = pre.length)
    (hn : next = ((pre.length + (fieldBytes 0x12 src).length : Nat) : Int)) :
    PubKey.unmarshalLoop dAtA l (fuel + 1) m iNdEx = PubKey.unmarshalLoop dAtA l fuel m1 next := by
  subst hm hi hn
  have hlt : (pre.length : Int) < l := by
    rw [hl, hd]; simp [fieldBytes]; omega
  have htag := readVarint_fieldTag 18 (by norm_num) (varintBytes src.length ++ (src ++ post))
    pre dAtA l (by rw [hd]; simp [fieldBytes]) hl
  have hdel := readDelimited_after_tag 0x12 src pre post dAtA l hd hl hbound
  rw [PubKey.unmarshalLoop, if_pos hlt, htag]
  simp only [Result.bind]
  have h1 : toInt64 (18 &&& 0x7) = 2 := by decide
  have h2 : toInt32 (18 >>> 3) = 2 := by decide
  simp only [h1, h2, hdel, Result.bind]
  simp

/-- The loop of `PubKey.Unmarshal` ends at the end of the input. -/
theorem pubKey_unmarshalLoop_end (fuel : Nat) (m : PubKey) (dAtA : Bytes) (l iNdEx : Int)
    (hi : iNdEx = l) :
    PubKey.unmarshalLoop dAtA l (fuel + 1) m iNdEx = .ok m := by
  subst hi
  rw [PubKey.unmarshalLoop, if_neg (lt_irrefl _), if_neg (lt_irrefl _)]

/-- Decoding the wire format of a `PubKey` into the zero value gives it back. -/
theorem pubKey_unmarshal_bytes (pk : PubKey) (hbound : pk.bytes.length < 2 ^ 63) :
    PubKey.Unmarshal PubKey.zero pk.bytes = .ok pk := by
  obtain ⟨typ, data⟩ := pk
  have hb : ((PubKey.bytes ⟨typ, data⟩).length : Int) < 2 ^ 63 := by exact_mod_cast hbound
  by_cases ht : typ.length > 0 <;> by_cases hdt : data.length > 0
  · have hbytes : PubKey.bytes ⟨typ, data⟩ = fieldBytes 0xa typ ++ fieldBytes 0x12 data := by
      simp only [PubKey.bytes, ht, hdt, if_true]
    rw [hbytes] at hb ⊢
    obtain ⟨k, hk⟩ : ∃ k, (fieldBytes 0xa typ ++ fieldBytes 0x12 data).length + 1
        = k + 1 + 1 + 1 :=
      ⟨(fieldBytes 0xa typ ++ fieldBytes 0x12 data).length - 2, by simp [fieldBytes]; omega⟩
    rw [PubKey.Unmarshal, hk,
      PubKey.unmarshalLoop_Typ (k + 1 + 1) PubKey.zero ⟨typ, []⟩ typ [] (fieldBytes 0x12 data) _ _
        0 ((fieldBytes 0xa typ).length : Nat) (by simp) rfl hb rfl (by simp) (by simp),
      PubKey.unmarshalLoop_Data (k + 1) ⟨typ, []⟩ ⟨typ, data⟩ data (fieldBytes 0xa typ) [] _ _
        ((fieldBytes 0xa typ).length : Nat)
        ((fieldBytes 0xa typ ++ fieldBytes 0x12 data).length : Nat)
        (by simp) rfl hb rfl rfl (by simp)]
    exact pubKey_unmarshalLoop_end _ _ _ _ _ rfl
  · have hdata : data = [] := List.length_eq_zero.mp (by omega)
    subst hdata
    have hbytes : PubKey.bytes ⟨typ, []⟩ = fieldBytes 0xa typ := by
      simp [PubKey.bytes, ht]
    rw [hbytes] at hb ⊢
    obtain ⟨k, hk⟩ : ∃ k, (fieldBytes 0xa typ).length + 1 = k + 1 + 1 :=
      ⟨(fieldBytes 0xa typ).length - 1, by simp [fieldBytes]⟩
    rw [PubKey.Unmarshal, hk,
      PubKey.unmarshalLoop_Typ (k + 1) PubKey.zero ⟨typ, []⟩ typ [] [] _ _
        0 ((fieldBytes 0xa typ).length : Nat) (by simp) rfl hb rfl (by simp) (by simp)]
    exact pubKey_unmarshalLoop_end _ _ _ _ _ rfl
  · have htyp : typ = [] := List.length_eq_zero.mp (by omega)
    subst htyp
    have hbytes : PubKey.bytes ⟨[], data⟩ = fieldBytes 0x12 data := by
      simp [PubKey.bytes, hdt]
    rw [hbytes] at hb ⊢
    obtain ⟨k, hk⟩ : ∃ k, (fieldBytes 0x12 data).length + 1 = k + 1 + 1 :=
      ⟨(fieldBytes 0x12 data).length - 1, by simp [fieldBytes]⟩
    rw [PubKey.Unmarshal, hk,
      PubKey.unmarshalLoop_Data (k + 1) PubKey.zero ⟨[], data⟩ data [] [] _ _
        0 ((fieldBytes 0x12 data).length : Nat) (by simp) rfl hb rfl (by simp) (by simp)]
    exact pubKey_unmarshalLoop_end _ _ _ _ _ rfl
  · have htyp : typ = [] := List.length_eq_zero.mp (by omega)
    have hdata : data = [] := List.length_eq_zero.mp (by omega)
    subst htyp hdata
    rfl

end set_validators

namespace set_validators

open orm (Bytes)

/-- One round of the loop of `Validator.Unmarshal` on the field `Address`. -/
theorem Validator.unmarshalLoop_Address (fuel : Nat) (m m1 : Validator)
    (src pre post dAtA : Bytes) (l iNdEx next : Int)
    (hd : dAtA = pre ++ (fieldBytes 0xa src ++ post)) (hl : l = (dAtA.length : Nat))
    (hbound : l < 2 ^ 63) (hm : m1 = { m with Address := src }) (hi : iNdEx = pre.length)
    (hn : next = ((pre.length + (fieldBytes 0xa src).length : Nat) : Int)) :
    Validator.unmarshalLoop dAtA l (fuel + 1) m iNdEx
      = Validator.unmarshalLoop dAtA l fuel m1 next := by
  subst hm hi hn
  have hlt : (pre.length : Int) < l := by
    rw [hl, hd]; simp [fieldBytes]; omega
  have htag := readVarint_fieldTag 10 (by norm_num) (varintBytes src.length ++ (src ++ post))
    pre dAtA l (by rw [hd]; simp [fieldBytes]) hl
  have hdel := readDelimited_after_tag 0xa src pre post dAtA l hd hl hbound
  rw [Validator.unmarshalLoop, if_pos hlt, htag]
  simp only [Result.bind]
  have h1 : toInt64 (10 &&& 0x7) = 2 := by decide
  have h2 : toInt32 (10 >>> 3) = 1 := by decide
  simp only [h1, h2, hdel, Result.bind]
  simp

/-- One round of the loop of `Validator.Unmarshal` on the field `PubKey`, when
the nested decoder succeeds. -/
theorem Validator.unmarshalLoop_PubKey (fuel : Nat) (m m1 : Validator) (pk : set_validators.PubKey)
    (src pre post dAtA : Bytes) (l iNdEx next : Int)
    (hd : dAtA = pre ++ (fieldBytes 0x12 src ++ post)) (hl : l = (dAtA.length : Nat))
    (hbound : l < 2 ^ 63) (hpk : set_validators.PubKey.Unmarshal m.PubKey src = .ok pk)
    (hm : m1 = { m with PubKey := pk }) (hi : iNdEx = pre.length)
    (hn : next = ((pre.length + (fieldBytes 0x12 src).length : Nat) : Int)) :
    Validator.unmarshalLoop dAtA l (fuel + 1) m iNdEx
      = Validator.unmarshalLoop dAtA l fuel m1 next := by
  subst hm hi hn
  have hlt : (pre.length : Int) < l := by
    rw [hl, hd]; simp [fieldBytes]; omega
  have htag := readVarint_fieldTag 18 (by norm_num) (varintBytes src.length ++ (src ++ post))
    pre dAtA l (by rw [hd]; simp [fieldBytes]) hl
  have hdel := readDelimited_after_tag 0x12 src pre post dAtA l hd hl hbound
  rw [Validator.unmarshalLoop, if_pos hlt, htag]
  simp only [Result.bind]
  have h1 : toInt64 (18 &&& 0x7) = 2 := by decide
  have h2 : toInt32 (18 >>> 3) = 2 := by decide
  simp only [h1, h2, hdel, hpk, Result.bind]
  simp

/-- One round of the loop of `Validator.Unmarshal` on the field `Power`. -/
theorem Validator.unmarshalLoop_Power (fuel : Nat) (m m1 : Validator) (p : Nat)
    (pre post dAtA : Bytes) (l iNdEx next : Int)
    (hp : p < 2 ^ 64)
    (hd : dAtA = pre ++ (0x18 :: (varintBytes p ++ post))) (hl : l = (dAtA.length : Nat))
    (hm : m1 = { m with Power := toInt64 p }) (hi : iNdEx = pre.length)
    (hn : next = ((pre.length + (1 + (varintBytes p).length) : Nat) : Int)) :
    Validator.unmarshalLoop dAtA l (fuel + 1) m iNdEx
      = Validator.unmarshalLoop dAtA l fuel m1 next := by
  subst hm hi hn
  have hlt : (pre.length : Int) < l := by
    rw [hl, hd]; simp; omega
  have htag := readVarint_fieldTag 24 (by norm_num) (varintBytes p ++ post)
    pre dAtA l (by rw [hd]; simp) hl
  have hd2 : dAtA = (pre ++ [0x18]) ++ (varintBytes p ++ post) := by rw [hd]; simp
  have hval := readVarint_varint p hp (pre ++ [0x18]) post l (by rw [hl, hd2])
  rw [← hd2] at hval
  have e1 : ((pre ++ [(0x18 : UInt8)]).length : Int) = ((pre.length + 1 : Nat) : Int) := by simp
  rw [e1] at hval
  rw [Validator.unmarshalLoop, if_pos hlt, htag]
  simp only [Result.bind]
  have h1 : toInt64 (24 &&& 0x7) = 0 := by decide
  have h2 : toInt32 (24 >>> 3) = 3 := by decide
  simp only [h1, h2, hval, Result.bind]
  have e2 : (pre ++ [(0x18 : UInt8)]).length + (varintBytes p).length
      = pre.length + (1 + (varintBytes p).length) := by simp; omega
  rw [e2]
  simp

/-- The loop of `Validator.Unmarshal` ends at the end of the input. -/
theorem validator_unmarshalLoop_end (fuel : Nat) (m : Validator) (dAtA : Bytes) (l iNdEx : Int)
    (hi : iNdEx = l) :
    Validator.unmarshalLoop dAtA l (fuel + 1) m iNdEx = .ok m := by
  subst hi
  rw [Validator.unmarshalLoop, if_neg (lt_irrefl _), if_neg (lt_irrefl _)]

/-- The wire format of a `PubKey` field has at least its tag and the byte of
its length. -/
theorem fieldBytes_length_ge (tag : UInt8) (src : Bytes) :
    2 ≤ (fieldBytes tag src).length := by
  have h : 1 ≤ (varintBytes src.length).length := by
    rw [varintBytes]
    cases h9 : varintBytesLoop 9 (src.length % 2 ^ 64) with
    | nil =>
      rw [varintBytesLoop] at h9
      split at h9 <;> simp at h9
    | cons b rest => simp
  simp only [fieldBytes, List.length_cons, List.length_append]
  omega

/-- The varint of a value has at least one byte. -/
theorem varintBytes_length_pos (v : Nat) : 1 ≤ (varintBytes v).length := by
  rw [varintBytes]
  cases h9 : varintBytesLoop 9 (v % 2 ^ 64) with
  | nil =>
    rw [varintBytesLoop] at h9
    split at h9 <;> simp at h9
  | cons b rest => simp

/-- Decoding the wire format of a `Validator` into the zero value gives it
back. -/
theorem validator_unmarshal_bytes (v : Validator)
    (hlo : -2 ^ 63 ≤ v.Power) (hhi : v.Power < 2 ^ 63) (hbound : v.bytes.length < 2 ^ 63) :
    Validator.Unmarshal Validator.zero v.bytes = .ok v := by
  obtain ⟨addr, pk, power⟩ := v
  simp only at hlo hhi
  have hb : ((Validator.bytes ⟨addr, pk, power⟩).length : Int) < 2 ^ 63 := by
    exact_mod_cast hbound
  have hpkb : pk.bytes.length < 2 ^ 63 := by
    have : pk.bytes.length ≤ (Validator.bytes ⟨addr, pk, power⟩).length := by
      simp only [Validator.bytes, fieldBytes, List.length_append, List.length_cons]
      omega
    omega
  have hpk : PubKey.Unmarshal PubKey.zero pk.bytes = .ok pk := pubKey_unmarshal_bytes pk hpkb
  have hpow : toInt64 (toUint64 power) = power := toInt64_toUint64 power hlo hhi
  have hp64 := toUint64_lt power
  have hf0 := fieldBytes_length_ge 0xa addr
  have hf1 := fieldBytes_length_ge 0x12 pk.bytes
  have hv := varintBytes_length_pos (toUint64 power)
  by_cases ha : addr.length > 0 <;> by_cases hp : power ≠ 0
  · have hbytes : Validator.bytes ⟨addr, pk, power⟩ = fieldBytes 0xa addr ++
        (fieldBytes 0x12 pk.bytes ++ (0x18 :: varintBytes (toUint64 power))) := by
      simp only [Validator.bytes, ha, hp, if_true, ne_eq, not_false_eq_true]
    rw [hbytes] at hb ⊢
    obtain ⟨k, hk⟩ : ∃ k, (fieldBytes 0xa addr ++ (fieldBytes 0x12 pk.bytes ++
        (0x18 :: varintBytes (toUint64 power)))).length + 1 = k + 1 + 1 + 1 + 1 :=
      ⟨(fieldBytes 0xa addr ++ (fieldBytes 0x12 pk.bytes ++
        (0x18 :: varintBytes (toUint64 power)))).length - 3, by simp; omega⟩
    rw [Validator.Unmarshal, hk,
      Validator.unmarshalLoop_Address (k + 1 + 1 + 1) Validator.zero ⟨addr, PubKey.zero, 0⟩ addr []
        (fieldBytes 0x12 pk.bytes ++ (0x18 :: varintBytes (toUint64 power))) _ _
        0 ((fieldBytes 0xa addr).length : Nat) (by simp) rfl hb rfl (by simp) (by simp),
      Validator.unmarshalLoop_PubKey (k + 1 + 1) ⟨addr, PubKey.zero, 0⟩ ⟨addr, pk, 0⟩ pk pk.bytes
        (fieldBytes 0xa addr) (0x18 :: varintBytes (toUint64 power)) _ _
        ((fieldBytes 0xa addr).length : Nat)
        (((fieldBytes 0xa addr).length + (fieldBytes 0x12 pk.bytes).length : Nat) : Int)
        (by simp) rfl hb hpk rfl rfl rfl,
      Validator.unmarshalLoop_Power (k + 1) ⟨addr, pk, 0⟩ ⟨addr, pk, power⟩ (toUint64 power)
        (fieldBytes 0xa addr ++ fieldBytes 0x12 pk.bytes) [] _ _
        (((fieldBytes 0xa addr).length + (fieldBytes 0x12 pk.bytes).length : Nat) : Int)
        ((fieldBytes 0xa addr ++ (fieldBytes 0x12 pk.bytes ++
          (0x18 :: varintBytes (toUint64 power)))).length : Nat)
        hp64 (by simp) rfl (by rw [hpow]) (by simp) (by simp; omega)]
    exact validator_unmarshalLoop_end _ _ _ _ _ rfl
  · have hp0 : power = 0 := not_not.mp hp
    subst hp0
    have hbytes : Validator.bytes ⟨addr, pk, 0⟩ = fieldBytes 0xa addr ++
        fieldBytes 0x12 pk.bytes := by
      simp [Validator.bytes, ha]
    rw [hbytes] at hb ⊢
    obtain ⟨k, hk⟩ : ∃ k, (fieldBytes 0xa addr ++ fieldBytes 0x12 pk.bytes).length + 1
        = k + 1 + 1 + 1 :=
      ⟨(fieldBytes 0xa addr ++ fieldBytes 0x12 pk.bytes).length - 2, by simp; omega⟩
    rw [Validator.Unmarshal, hk,
      Validator.unmarshalLoop_Address (k + 1 + 1) Validator.zero ⟨addr, PubKey.zero, 0⟩ addr []
        (fieldBytes 0x12 pk.bytes) _ _
        0 ((fieldBytes 0xa addr).length : Nat) (by simp) rfl hb rfl (by simp) (by simp),
      Validator.unmarshalLoop_PubKey (k + 1) ⟨addr, PubKey.zero, 0⟩ ⟨addr, pk, 0⟩ pk pk.bytes
        (fieldBytes 0xa addr) [] _ _
        ((fieldBytes 0xa addr).length : Nat)
        ((fieldBytes 0xa addr ++ fieldBytes 0x12 pk.bytes).length : Nat)
        (by simp) rfl hb hpk rfl rfl (by simp)]
    exact validator_unmarshalLoop_end _ _ _ _ _ rfl
  · have ha0 : addr = [] := List.length_eq_zero.mp (by omega)
    subst ha0
    have hbytes : Validator.bytes ⟨[], pk, power⟩ =
        fieldBytes 0x12 pk.bytes ++ (0x18 :: varintBytes (toUint64 power)) := by
      simp [Validator.bytes, hp]
    rw [hbytes] at hb ⊢
    obtain ⟨k, hk⟩ : ∃ k, (fieldBytes 0x12 pk.bytes ++
        (0x18 :: varintBytes (toUint64 power))).length + 1 = k + 1 + 1 + 1 :=
      ⟨(fieldBytes 0x12 pk.bytes ++
        (0x18 :: varintBytes (toUint64 power))).length - 2, by simp; omega⟩
    rw [Validator.Unmarshal, hk,
      Validator.unmarshalLoop_PubKey (k + 1 + 1) Validator.zero ⟨[], pk, 0⟩ pk pk.bytes
        [] (0x18 :: varintBytes (toUint64 power)) _ _
        0 ((fieldBytes 0x12 pk.bytes).length : Nat)
        (by simp) rfl hb hpk rfl (by simp) (by simp),
      Validator.unmarshalLoop_Power (k + 1) ⟨[], pk, 0⟩ ⟨[], pk, power⟩ (toUint64 power)
        (fieldBytes 0x12 pk.bytes) [] _ _
        ((fieldBytes 0x12 pk.bytes).length : Nat)
        ((fieldBytes 0x12 pk.bytes ++ (0x18 :: varintBytes (toUint64 power))).length : Nat)
        hp64 (by simp) rfl (by rw [hpow]) rfl (by simp; omega)]
    exact validator_unmarshalLoop_end _ _ _ _ _ rfl
  · have ha0 : addr = [] := List.length_eq_zero.mp (by omega)
    have hp0 : power = 0 := not_not.mp hp
    subst ha0 hp0
    have hbytes : Validator.bytes ⟨[], pk, 0⟩ = fieldBytes 0x12 pk.bytes := by
      simp [Validator.bytes]
    rw [hbytes] at hb ⊢
    obtain ⟨k, hk⟩ : ∃ k, (fieldBytes 0x12 pk.bytes).length + 1 = k + 1 + 1 :=
      ⟨(fieldBytes 0x12 pk.bytes).length - 1, by omega⟩
    rw [Validator.Unmarshal, hk,
      Validator.unmarshalLoop_PubKey (k + 1) Validator.zero ⟨[], pk, 0⟩ pk pk.bytes
        [] [] _ _ 0 ((fieldBytes 0x12 pk.bytes).length : Nat)
        (by simp) rfl hb hpk rfl (by simp) (by simp)]
    exact validator_unmarshalLoop_end _ _ _ _ _ rfl

end set_validators

/-! ## The generated codec: claims -/

namespace set_validators

open orm (Bytes)

/-- A `MarshalTo` that writes `bz`, with `size` the length of `bz`: on every
buffer of `size` bytes it returns `size`, and `Marshal` returns what it wrote. -/
theorem marshalTo_exact (size : Nat) (f : Bytes → Option (Bytes × Nat)) (bz : Bytes)
    (hsize : size = bz.length)
    (hf : ∀ mid post : Bytes, mid.length = bz.length →
      f (mid ++ post) = some (bz ++ post, bz.length))
    (b : Bytes) (hb : b.length = size) :
    ∃ out, f b = some (out, size) ∧ out.length = size ∧ marshalWith size f = some out := by
  have e := hf b [] (by rw [hb, hsize])
  simp only [List.append_nil] at e
  exact ⟨bz, by rw [e, hsize], hsize.symm, (marshalWith_eq size f bz hsize hf).2⟩

/-- With room for the varint at the offset, `encodeVarintCodec` returns the
offset advanced by `sovCodec` and keeps the length of the buffer. -/
theorem encodeVarintCodec_room (dAtA : Bytes) (off x : Nat)
    (h : off + sovCodec x ≤ dAtA.length) :
    ∃ out, encodeVarintCodec dAtA off x = some (out, off + sovCodec x) ∧
      out.length = dAtA.length := by
  have hsplit : dAtA = dAtA.take off ++
      ((dAtA.drop off).take (sovCodec x) ++ (dAtA.drop off).drop (sovCodec x)) := by
    rw [List.take_append_drop, List.take_append_drop]
  have hpre : off = (dAtA.take off).length := by
    rw [List.length_take]; omega
  have hmid : ((dAtA.drop off).take (sovCodec x)).length = (varintBytes x).length := by
    rw [List.length_take, List.length_drop, ← sovCodec_eq_length]; omega
  have e := encodeVarintCodec_append x (dAtA.take off) ((dAtA.drop off).take (sovCodec x))
    ((dAtA.drop off).drop (sovCodec x)) off hpre hmid
  rw [← hsplit, ← sovCodec_eq_length] at e
  refine ⟨_, e, ?_⟩
  simp only [List.length_append, List.length_take, List.length_drop, ← sovCodec_eq_length]
  omega

/-- C24 (code): the decoders panic on short byte sequences. On the ten bytes
`overflowInput` (field 2, length `2^63 - 1`) the length read is not negative,
`postIndex := iNdEx + byteLen` wraps to a negative number, the test
`postIndex > l` lets it through and the slice expression `dAtA[iNdEx:postIndex]`
panics in `PubKey.Unmarshal` and in `Validator.Unmarshal`; likewise for field
1, and `skipCodec` panics on a group that holds such a field. -/
theorem unmarshal_panics_on_length_overflow :
    readVarint overflowInput 10 1 = .ok (2 ^ 63 - 1, 10) ∧
      wrapInt (10 + toInt64 (2 ^ 63 - 1)) = -9223372036854775799 ∧
      PubKey.Unmarshal PubKey.zero overflowInput = .panic ∧
      PubKey.Unmarshal PubKey.zero overflowInput1 = .panic ∧
      Validator.Unmarshal Validator.zero overflowInput = .panic ∧
      Validator.Unmarshal Validator.zero overflowInput1 = .panic ∧
      skipCodec overflowGroup = .panic := by
  refine ⟨by decide, by decide, by decide, by decide, by decide, by decide, by decide⟩

/-- C25: the round trip of a `Validator`. For every validator whose `Power` is
an `int64` and whose encoded size is a Go length (below `2^63`), `Marshal`
returns bytes, and `Unmarshal` of these bytes into the zero value succeeds and
gives the validator back: the same `Address`, `PubKey.Type`, `PubKey.Data` and
`Power` (nil and empty byte sequences are the same list). -/
theorem validator_round_trip (v : Validator)
    (hlo : -2 ^ 63 ≤ v.Power) (hhi : v.Power < 2 ^ 63) (hsize : v.Size < 2 ^ 63) :
    ∃ bz, v.Marshal = some bz ∧ Validator.Unmarshal Validator.zero bz = .ok v := by
  have hm := (marshalWith_eq v.Size v.MarshalTo v.bytes (validator_size_eq v)
    (validator_marshalTo_append v)).2
  exact ⟨v.bytes, hm, validator_unmarshal_bytes v hlo hhi (by rw [← validator_size_eq]; exact hsize)⟩

/-- Instance of the round trip: an address, a typed key and the power `-5`. -/
theorem validator_round_trip_witness :
    (-2 ^ 63 ≤ sampleValidator.Power ∧ sampleValidator.Power < 2 ^ 63 ∧
        sampleValidator.Size < 2 ^ 63) ∧
      ∃ bz, sampleValidator.Marshal = some bz ∧
        Validator.Unmarshal Validator.zero bz = .ok sampleValidator :=
  ⟨⟨by decide, by decide, by decide⟩,
    validator_round_trip sampleValidator (by decide) (by decide) (by decide)⟩

/-- C26: `Size` agrees with the encoder. For a `PubKey`, a `Validator` and a
`SetValidators`, `MarshalTo` on a buffer of exactly `Size()` bytes does not
panic, returns `Size()` and a buffer of that length, and `Marshal` returns that
buffer; `encodeVarintCodec` on a buffer with room at the offset returns the
offset plus `sovCodec(v)`; and `sovCodec` is between 1 and 10. -/
theorem size_agrees_with_encoder (pk : PubKey) (v : Validator) (sv : SetValidators)
    (b1 b2 b3 dAtA : Bytes) (off x : Nat)
    (h1 : b1.length = pk.Size) (h2 : b2.length = v.Size) (h3 : b3.length = sv.Size)
    (h4 : off + sovCodec x ≤ dAtA.length) :
    (∃ out, pk.MarshalTo b1 = some (out, pk.Size) ∧ out.length = pk.Size ∧
        pk.Marshal = some out) ∧
      (∃ out, v.MarshalTo b2 = some (out, v.Size) ∧ out.length = v.Size ∧
        v.Marshal = some out) ∧
      (∃ out, sv.MarshalTo b3 = some (out, sv.Size) ∧ out.length = sv.Size ∧
        sv.Marshal = some out) ∧
      (∃ out, encodeVarintCodec dAtA off x = some (out, off + sovCodec x) ∧
        out.length = dAtA.length) ∧
      1 ≤ sovCodec x ∧ sovCodec x ≤ 10 := by
  have hb := sovLoop_bounds 10 0 (x % 2 ^ 64) (by norm_num)
  refine ⟨marshalTo_exact pk.Size pk.MarshalTo pk.bytes (pubKey_size_eq pk)
      (pubKey_marshalTo_append pk) b1 h1,
    marshalTo_exact v.Size v.MarshalTo v.bytes (validator_size_eq v)
      (validator_marshalTo_append v) b2 h2,
    marshalTo_exact sv.Size sv.MarshalTo sv.bytes (setValidators_size_eq sv)
      (setValidators_marshalTo_append sv) b3 h3,
    encodeVarintCodec_room dAtA off x h4, ?_, ?_⟩
  · rw [sovCodec]; omega
  · rw [sovCodec]; omega

/-- Instance of the agreement: the sample key and validator, a set of two
validators, and the varint of 300 written at offset 1 of a buffer of 3 bytes. -/
theorem size_agrees_with_encoder_witness :
    ((List.replicate 15 (0 : UInt8)).length = sampleValidator.PubKey.Size ∧
        (List.replicate 33 (0 : UInt8)).length = sampleValidator.Size ∧
        (List.replicate 39 (0 : UInt8)).length
          = (SetValidators.mk [sampleValidator, Validator.zero]).Size ∧
        1 + sovCodec 300 ≤ ([0, 0, 0] : Bytes).length) ∧
      (∃ out, sampleValidator.MarshalTo (List.replicate 33 0) = some (out, 33) ∧
        out.length = 33 ∧ sampleValidator.Marshal = some out) ∧
      encodeVarintCodec [0, 0, 0] 1 300 = some ([0, 0xac, 0x02], 3) :=
  ⟨⟨by decide, by decide, by decide, by decide⟩,
    (size_agrees_with_encoder sampleValidator.PubKey sampleValidator
      (SetValidators.mk [sampleValidator, Validator.zero])
      (List.replicate 15 0) (List.replicate 33 0) (List.replicate 39 0) [0, 0, 0] 1 300
      (by decide) (by decide) (by decide) (by decide)).2.1,
    by decide⟩

end set_validators
